import Mathlib

/-!
# AmigaGfxSuite: the sprite tile encoder

A shallow embedding of `Tools::CompressSpriteData`
(`src/AmigaGfxLib/src/Modules/Utilities/Tools.cpp`, lines 225-310) and theorems
about it.

Conventions of the embedding.

* `uint32_t` values are natural numbers; every `uint32_t` addition and
  multiplication of the source is followed by `% 4294967296` (2^32). Reducing a
  sum of products once is the same as reducing after every operation.
* `uint8_t` values are natural numbers; a conversion to `uint8_t` is `% 256`. The
  pixels of `data` are copied as they are; no result depends on their being below 256.
* `data[i]` is a partial read: `none` stands for an index outside the vector,
  which is undefined behaviour in the source and the fault `outOfBounds` here.
* `while` loops and the two tiling `for` loops, whose counters can wrap, take a
  loop budget; running out of it is the fault `outOfFuel`.
-/

namespace AmigaGfx

/-- Result of running a piece of the encoder: a value, or the reason there is none. -/
inductive Outcome (α : Type) where
  | ok (a : α)
  | outOfBounds
  | outOfFuel
  deriving DecidableEq, Repr

/-- The vector `data` as a partial read. -/
def readVec (data : List Nat) : Nat → Option Nat := fun i => data[i]?

/-- The index expression `( sprDy + y ) * w + sprDx + off` of Tools.cpp:266, 290 and 298,
computed in `uint32_t`; `off` is `x + scanBG`, `x + tmpValue` or `x`. -/
def pixelIndex (w sprDx sprDy y off : Nat) : Nat :=
  ((sprDy + y) * w + sprDx + off) % 4294967296

/-- The reads of one tile row: offset inside the row to pixel. -/
def rowReader (rd : Nat → Option Nat) (w sprDx sprDy y : Nat) : Nat → Option Nat :=
  fun off => rd (pixelIndex w sprDx sprDy y off)

/-- State left by the scan `for` loop (Tools.cpp:255-281): the cursor, the opcode,
the bytes it appended to `sprData`, and `bLoop`. -/
structure ScanOut where
  x : Nat
  sprCmd : Nat
  pushed : List Nat
  bLoop : Bool
  deriving DecidableEq, Repr

/-- The scan loop `for ( scanBG = 0; scanBG <= 200; scanBG++ )` (Tools.cpp:255-281).
The first argument counts the iterations left (201 at the start), the second is
`scanBG`. `g` reads the pixel at an offset of the current tile row. -/
def scanLoop (g : Nat → Option Nat) (sprW x : Nat) : Nat → Nat → Outcome ScanOut
  | 0, _ => .ok ⟨x, 0, [], true⟩
  | n + 1, scanBG =>
    if (scanBG + x) % 4294967296 = sprW then
      .ok ⟨sprW, 201, [201], false⟩
    else
      match g (x + scanBG) with
      | none => .outOfBounds
      | some p =>
        if p ≠ 0 then
          .ok ⟨(x + scanBG) % 4294967296, scanBG % 256, [scanBG % 256], true⟩
        else if scanBG = 200 then
          .ok ⟨(x + scanBG) % 4294967296, scanBG % 256, [scanBG % 256], true⟩
        else
          scanLoop g sprW x n (scanBG + 1)

/-- The loop `while ( x + tmpValue < sprW && data[...] != 0 ) tmpValue++`
(Tools.cpp:289-293); the result is the final `tmpValue`. -/
def countRun (g : Nat → Option Nat) (sprW x : Nat) : Nat → Nat → Outcome Nat
  | 0, _ => .outOfFuel
  | n + 1, tmpValue =>
    if (x + tmpValue) % 4294967296 < sprW then
      match g (x + tmpValue) with
      | none => .outOfBounds
      | some p =>
        if p ≠ 0 then countRun g sprW x n ((tmpValue + 1) % 4294967296)
        else .ok tmpValue
    else .ok tmpValue

/-- The loop `while ( tmpValue ) { push data[...x]; x++; tmpValue--; }`
(Tools.cpp:296-301): the bytes appended and the final `x`. -/
def copyRun (g : Nat → Option Nat) : Nat → Nat → Outcome (List Nat × Nat)
  | 0, x => .ok ([], x)
  | t + 1, x =>
    match g x with
    | none => .outOfBounds
    | some p =>
      match copyRun g t ((x + 1) % 4294967296) with
      | .ok r => .ok (p :: r.1, r.2)
      | .outOfBounds => .outOfBounds
      | .outOfFuel => .outOfFuel

/-- What one iteration of `while ( bLoop )` (Tools.cpp:247-303) did: the opcode it
chose, all the bytes it appended to `sprData` (the opcode first), the new cursor
and the new `bLoop`. -/
structure Chunk where
  sprCmd : Nat
  bytes : List Nat
  x : Nat
  bLoop : Bool
  deriving DecidableEq, Repr

/-- One iteration of `while ( bLoop )`: the scan, then for an opcode below 200 the
run length byte and the run (Tools.cpp:249-302). -/
def rowStep (fuel : Nat) (g : Nat → Option Nat) (sprW x : Nat) : Outcome Chunk :=
  match scanLoop g sprW x 201 0 with
  | .ok s =>
    if s.sprCmd < 200 then
      match countRun g sprW s.x fuel 0 with
      | .ok tmpValue =>
        match copyRun g tmpValue s.x with
        | .ok r => .ok ⟨s.sprCmd, s.pushed ++ (tmpValue % 256 :: r.1), r.2, s.bLoop⟩
        | .outOfBounds => .outOfBounds
        | .outOfFuel => .outOfFuel
      | .outOfBounds => .outOfBounds
      | .outOfFuel => .outOfFuel
    else .ok ⟨s.sprCmd, s.pushed, s.x, s.bLoop⟩
  | .outOfBounds => .outOfBounds
  | .outOfFuel => .outOfFuel

/-- The loop `while ( bLoop )` of one tile row (Tools.cpp:244-303), from cursor `x`:
the list of its iterations. The first argument is the loop budget. -/
def rowLoop (fuel : Nat) (g : Nat → Option Nat) (sprW : Nat) : Nat → Nat → Outcome (List Chunk)
  | 0, _ => .outOfFuel
  | n + 1, x =>
    match rowStep fuel g sprW x with
    | .ok c =>
      if c.bLoop then
        match rowLoop fuel g sprW n c.x with
        | .ok cs => .ok (c :: cs)
        | .outOfBounds => .outOfBounds
        | .outOfFuel => .outOfFuel
      else .ok [c]
    | .outOfBounds => .outOfBounds
    | .outOfFuel => .outOfFuel

/-- The bytes a list of iterations appended to `sprData`. -/
def chunkBytes (cs : List Chunk) : List Nat := (cs.map Chunk.bytes).flatten

/-- The encoding of row `y` of the tile at `(sprDx, sprDy)`: the iterations of
`while ( bLoop )` started with `x = 0`. -/
def encodeRowChunks (fuel : Nat) (rd : Nat → Option Nat) (w sprW sprDx sprDy y : Nat) :
    Outcome (List Chunk) :=
  rowLoop fuel (rowReader rd w sprDx sprDy y) sprW fuel 0

/-- The loop `for ( y = 0; y < sprH; y++ )` (Tools.cpp:242-304): the rows still to do
(`sprH` at the start) and `y`; one list of iterations per row. As `y < sprH` the
increment never wraps. -/
def tileRows (fuel : Nat) (rd : Nat → Option Nat) (w sprW sprDx sprDy : Nat) :
    Nat → Nat → Outcome (List (List Chunk))
  | 0, _ => .ok []
  | n + 1, y =>
    match encodeRowChunks fuel rd w sprW sprDx sprDy y with
    | .ok cs =>
      match tileRows fuel rd w sprW sprDx sprDy n (y + 1) with
      | .ok rest => .ok (cs :: rest)
      | .outOfBounds => .outOfBounds
      | .outOfFuel => .outOfFuel
    | .outOfBounds => .outOfBounds
    | .outOfFuel => .outOfFuel

/-- The bytes appended to `sprData` for the tile at `(sprDx, sprDy)`
(Tools.cpp:242-307): its `sprH` rows, then the sentinel 255. -/
def encodeTile (fuel : Nat) (rd : Nat → Option Nat) (w sprW sprH sprDx sprDy : Nat) :
    Outcome (List Nat) :=
  match tileRows fuel rd w sprW sprDx sprDy sprH 0 with
  | .ok rows => .ok ((rows.map chunkBytes).flatten ++ [255])
  | .outOfBounds => .outOfBounds
  | .outOfFuel => .outOfFuel

/-- The three locals that `CompressSpriteData` builds and then writes to the file. -/
structure SprState where
  sprOffsets : List Nat
  sprData : List Nat
  sprCount : Nat
  deriving DecidableEq, Repr

/-- What the body of the tile loop does with the bytes of a tile (Tools.cpp:239-240,
307-308): `sprOffsets.push_back( sprData.size() )` through the `uint32_t`
`sprDataStart`, the bytes, `sprCount++`. -/
def pushTile (s : SprState) (bytes : List Nat) : SprState :=
  ⟨s.sprOffsets ++ [s.sprData.length % 4294967296], s.sprData ++ bytes,
    (s.sprCount + 1) % 4294967296⟩

/-- The loop `for ( sprDx = 0; sprDx < w; sprDx += sprW )` (Tools.cpp:236-309); the
first argument after the fixed ones is the loop budget. -/
def colLoop (fuel : Nat) (rd : Nat → Option Nat) (w sprW sprH sprDy : Nat) :
    Nat → Nat → SprState → Outcome SprState
  | 0, _, _ => .outOfFuel
  | n + 1, sprDx, s =>
    if sprDx < w then
      match encodeTile fuel rd w sprW sprH sprDx sprDy with
      | .ok bytes => colLoop fuel rd w sprW sprH sprDy n ((sprDx + sprW) % 4294967296) (pushTile s bytes)
      | .outOfBounds => .outOfBounds
      | .outOfFuel => .outOfFuel
    else .ok s

/-- The loop `for ( sprDy = 0; sprDy < h; sprDy += sprH )` (Tools.cpp:234-310). -/
def tileLoop (fuel : Nat) (rd : Nat → Option Nat) (w h sprW sprH : Nat) :
    Nat → Nat → SprState → Outcome SprState
  | 0, _, _ => .outOfFuel
  | n + 1, sprDy, s =>
    if sprDy < h then
      match colLoop fuel rd w sprW sprH sprDy fuel 0 s with
      | .ok s' => tileLoop fuel rd w h sprW sprH n ((sprDy + sprH) % 4294967296) s'
      | .outOfBounds => .outOfBounds
      | .outOfFuel => .outOfFuel
    else .ok s

/-- The encoding part of `Tools::CompressSpriteData` (Tools.cpp:227-310) over a
partial read `rd` of the pixel buffer. -/
def compressSprite (fuel : Nat) (rd : Nat → Option Nat) (w h sprW sprH : Nat) :
    Outcome SprState :=
  tileLoop fuel rd w h sprW sprH fuel 0 ⟨[], [], 0⟩

/-- The encoding part of `Tools::CompressSpriteData` (Tools.cpp:225-310): the offset
table, the opcode stream and the tile count for the vector `data`. -/
def CompressSpriteData (fuel : Nat) (data : List Nat) (w h sprW sprH : Nat) :
    Outcome SprState :=
  compressSprite fuel (readVec data) w h sprW sprH

/-! ## The palette record codec and the sprite file

`Tools::Save_ApolloV4_Palette` (Tools.cpp:183-213), `Tools::MergePalettes`
(Tools.cpp:437-477), the file written at the end of `Tools::CompressSpriteData`
(Tools.cpp:312-328) and `main` of AmigaPaletteMerge (main.cpp:39-108). A file is the
list of its bytes; a failed open or write, which makes the source throw, is not part
of these embeddings unless said so. -/

/-- A `png_color`: three `png_byte` fields. -/
structure PngColor where
  red : Nat
  green : Nat
  blue : Nat
  deriving DecidableEq, Repr

/-- The four bytes that `file.write( (char*)&v, sizeof( uint32_t ) )` appends for a
`uint32_t` value `v`, on a little-endian machine. -/
def le32 (v : Nat) : List Nat :=
  [v % 256, v / 256 % 256, v / 65536 % 256, v / 16777216 % 256]

/-- The word `nIndex | color.red << 8 | color.green << 16 | color.blue << 24`
(Tools.cpp:202): the operands are promoted to `int`, shifted, or-ed from left to
right, and the result is converted to the `uint32_t` `nSaveVal`. -/
def paletteWord (nIndex : Nat) (color : PngColor) : Nat :=
  (((nIndex ||| (color.red <<< 8)) ||| (color.green <<< 16)) ||| (color.blue <<< 24))
    % 4294967296

/-- The loop `for ( auto& color : palette )` (Tools.cpp:199-205): the bytes written,
`nIndex` being a `uint8_t`. -/
def savePaletteLoop : List PngColor → Nat → List Nat
  | [], _ => []
  | color :: rest, nIndex =>
    le32 (paletteWord nIndex color) ++ savePaletteLoop rest ((nIndex + 1) % 256)

/-- The bytes of the file written by `Tools::Save_ApolloV4_Palette`
(Tools.cpp:187-205): the number of colours as a `uint32_t`, then one word a colour. -/
def Save_ApolloV4_Palette (palette : List PngColor) : List Nat :=
  le32 (palette.length % 4294967296) ++ savePaletteLoop palette 0

/-- The steps `Start++` and `Start *= sizeof( uint32_t )` (Tools.cpp:441-446) on a
`uint32_t`. -/
def toByteOffset (start : Nat) : Nat :=
  ((start + 1) % 4294967296 * 4) % 4294967296

/-- One assignment `paletteTo[ ti ] = paletteFrom[ fi ]` (Tools.cpp:471-473): a read
and a write, each inside its vector or a fault. -/
def copyByte (paletteFrom paletteTo : List Nat) (ti fi : Nat) : Outcome (List Nat) :=
  match paletteFrom[fi]? with
  | none => .outOfBounds
  | some v => if ti < paletteTo.length then .ok (paletteTo.set ti v) else .outOfBounds

/-- The body of the merge loop for one `nIndex` (Tools.cpp:471-473), `ToStart` and
`FromStart` being byte offsets already; the index expressions are `uint32_t`. -/
def mergeStep (paletteFrom : List Nat) (ToStart FromStart nIndex : Nat) (paletteTo : List Nat) :
    Outcome (List Nat) :=
  match copyByte paletteFrom paletteTo ((ToStart + nIndex * 4 + 1) % 4294967296)
      ((FromStart + nIndex * 4 + 1) % 4294967296) with
  | .ok p1 =>
    match copyByte paletteFrom p1 ((ToStart + nIndex * 4 + 2) % 4294967296)
        ((FromStart + nIndex * 4 + 2) % 4294967296) with
    | .ok p2 =>
      copyByte paletteFrom p2 ((ToStart + nIndex * 4 + 3) % 4294967296)
        ((FromStart + nIndex * 4 + 3) % 4294967296)
    | .outOfBounds => .outOfBounds
    | .outOfFuel => .outOfFuel
  | .outOfBounds => .outOfBounds
  | .outOfFuel => .outOfFuel

/-- The loop `for ( nIndex = 0; nIndex < FromSize; nIndex++ )` (Tools.cpp:469-474):
the iterations still to do (`FromSize` at the start) and `nIndex`. As
`nIndex < FromSize` the increment never wraps. -/
def mergeLoop (paletteFrom : List Nat) (ToStart FromStart : Nat) :
    Nat → Nat → List Nat → Outcome (List Nat)
  | 0, _, paletteTo => .ok paletteTo
  | n + 1, nIndex, paletteTo =>
    match mergeStep paletteFrom ToStart FromStart nIndex paletteTo with
    | .ok p => mergeLoop paletteFrom ToStart FromStart n (nIndex + 1) p
    | .outOfBounds => .outOfBounds
    | .outOfFuel => .outOfFuel

/-- What a call of `MergePalettes` leaves: the value returned and the two vectors. -/
structure MergeOut where
  result : Bool
  paletteTo : List Nat
  paletteFrom : List Nat
  deriving DecidableEq, Repr

/-- `Tools::MergePalettes` (Tools.cpp:437-477) on two separate vectors. -/
def MergePalettes (paletteTo paletteFrom : List Nat) (ToStart FromStart FromSize : Nat) :
    Outcome MergeOut :=
  if paletteTo.length ≠ paletteFrom.length then
    .ok ⟨false, paletteTo, paletteFrom⟩
  else if toByteOffset ToStart > paletteTo.length ∨
      toByteOffset FromStart > paletteFrom.length then
    .ok ⟨false, paletteTo, paletteFrom⟩
  else if FromSize > paletteFrom.length then
    .ok ⟨false, paletteTo, paletteFrom⟩
  else
    match mergeLoop paletteFrom (toByteOffset ToStart) (toByteOffset FromStart) FromSize 0
        paletteTo with
    | .ok p => .ok ⟨true, p, paletteFrom⟩
    | .outOfBounds => .outOfBounds
    | .outOfFuel => .outOfFuel

/-- The characters `operator<<` writes for a `uint32_t`: its decimal digits. -/
def decimal (n : Nat) : List Nat := (Nat.toDigits 10 n).map Char.toNat

/-- The bytes of the `.SPR` file (Tools.cpp:321-323): the text
`SPRITEDATA:<sprCount>,<sprW>,<sprH>:`, the offsets as 32-bit words, the opcode
stream. -/
def spriteFileBytes (s : SprState) (sprW sprH : Nat) : List Nat :=
  [83, 80, 82, 73, 84, 69, 68, 65, 84, 65, 58] ++ decimal s.sprCount ++ [44] ++ decimal sprW
    ++ [44] ++ decimal sprH ++ [58] ++ s.sprOffsets.flatMap le32 ++ s.sprData

/-- `Tools::CompressSpriteData` (Tools.cpp:225-329) as a whole: the bytes of the file
it writes. -/
def CompressSpriteDataFile (fuel : Nat) (data : List Nat) (w h sprW sprH : Nat) :
    Outcome (List Nat) :=
  match CompressSpriteData fuel data w h sprW sprH with
  | .ok s => .ok (spriteFileBytes s sprW sprH)
  | .outOfBounds => .outOfBounds
  | .outOfFuel => .outOfFuel

/-- The messages that `main` of AmigaPaletteMerge prints (main.cpp:46-106). -/
inductive MergeMsg where
  | usage
  | toNotBin
  | fromNotBin
  | loadToFailed
  | loadFromFailed
  | mergeFailed
  | saving
  | saveFailed
  | finished
  deriving DecidableEq, Repr

/-- How a run of `main` ends: a returned exit code (`EXIT_SUCCESS` is 0 and
`EXIT_FAILURE` is 1), or one of the ways it does not return. -/
inductive MainEnd where
  | returned (code : Nat)
  | nullArgument
  | stoiThrew
  | mergeOutOfBounds
  deriving DecidableEq, Repr

/-- A run of `main`: how it ends, what it printed, and the file that
`FileManager::SaveFile` wrote, if it wrote one. -/
structure MainRun where
  ending : MainEnd
  printed : List MergeMsg
  saved : Option (List Char × List Nat)
  deriving DecidableEq, Repr

/-- The conversion of the `int` returned by `std::stoi` to `uint32_t`. -/
def toU32 (v : Int) : Nat := (v % 4294967296).toNat

/-- `name.ends_with( ".bin" )`. -/
def endsWithBin (name : List Char) : Bool := ['.', 'b', 'i', 'n'].isSuffixOf name

/-- `main` of AmigaPaletteMerge (main.cpp:39-108). `argv` holds the program name and
the arguments, so `argc` is its length and `argv[argc]` is a null pointer; `stoi` is
`std::stoi` (`none` when it throws); `files` gives the bytes of the files that
`FileManager::OpenFile` can open; `canSave` tells which files
`FileManager::SaveFile` can open for writing. -/
def paletteMergeMain (stoi : List Char → Option Int) (files : List Char → Option (List Nat))
    (canSave : List Char → Bool) (argv : List (List Char)) : MainRun :=
  if argv.length < 5 then ⟨.returned 1, [.usage], none⟩
  else
    match argv[1]?, argv[2]?, argv[3]?, argv[4]? with
    | some paletteToFileName, some paletteFromFileName, some a3, some a4 =>
      match stoi a3 with
      | none => ⟨.stoiThrew, [], none⟩
      | some ToStartIndex =>
        match stoi a4 with
        | none => ⟨.stoiThrew, [], none⟩
        | some FromStartIndex =>
          match argv[5]? with
          | none => ⟨.nullArgument, [], none⟩
          | some a5 =>
            match stoi a5 with
            | none => ⟨.stoiThrew, [], none⟩
            | some FromSize =>
              if endsWithBin paletteToFileName = false then
                ⟨.returned 1, [.toNotBin], none⟩
              else if endsWithBin paletteFromFileName = false then
                ⟨.returned 1, [.fromNotBin], none⟩
              else
                match files paletteToFileName with
                | none => ⟨.returned 1, [.loadToFailed], none⟩
                | some paletteTo =>
                  match files paletteFromFileName with
                  | none => ⟨.returned 1, [.loadFromFailed], none⟩
                  | some paletteFrom =>
                    match MergePalettes paletteTo paletteFrom (toU32 ToStartIndex)
                        (toU32 FromStartIndex) (toU32 FromSize) with
                    | .ok out =>
                      if out.result = false then ⟨.returned 1, [.mergeFailed], none⟩
                      else if canSave paletteToFileName then
                        ⟨.returned 0, [.saving, .finished],
                          some (paletteToFileName, out.paletteTo)⟩
                      else ⟨.returned 1, [.saving, .saveFailed], none⟩
                    | .outOfBounds => ⟨.mergeOutOfBounds, [], none⟩
                    | .outOfFuel => ⟨.mergeOutOfBounds, [], none⟩
    | _, _, _, _ => ⟨.nullArgument, [], none⟩
/-! ## Error numbers, the error handler, the checksum and the conversion driver

`LibraryError` (Errors.h:44-107), `ErrorHandler` (ErrorHandler.cpp:90-176),
`Tools::crc16` (Tools.cpp:67-91, constants Tools.h:76-80) and the call of
`CompressSpriteData` made by `Tools::Read_PNG` (Tools.cpp:101-176). -/

/-- The macro `LIBRARY_ERROR_BASE` (Errors.h:40). -/
def LIBRARY_ERROR_BASE : Nat := 0x10000000

/-- The macro `MODULE_OFFSET` (Errors.h:41). -/
def MODULE_OFFSET : Nat := 0x00001000

/-- The macro `SUB_MODULE_OFFSET` (Errors.h:42). -/
def SUB_MODULE_OFFSET : Nat := 0x00000100

/-! The enumerators of `enum class LibraryError` (Errors.h:55-106) with their values:
an enumerator with an initializer has the value of the initializer, any other one
the value of the enumerator before it plus one. -/

namespace LibraryError

def No_Error : Nat := 0
def Logger_base_error : Nat := LIBRARY_ERROR_BASE
def Logger_InitializeNotCalled : Nat := Logger_base_error + 1
def Curses_base_error : Nat := Logger_base_error + MODULE_OFFSET
def CursesColour_AlreadyInitialised : Nat := Curses_base_error + 1
def CursesColour_InvalidColourPair : Nat := CursesColour_AlreadyInitialised + 1
def CursesColour_CannotStartColour : Nat := CursesColour_InvalidColourPair + 1
def CursesWin_FailedToCreateWindow : Nat := Curses_base_error + SUB_MODULE_OFFSET
def CursesWin_FailedToPrintToWindow : Nat := CursesWin_FailedToCreateWindow + 1
def CursesWin_FailedToColourWindow : Nat := CursesWin_FailedToPrintToWindow + 1
def CursesWin_FailedToColourBackground : Nat := CursesWin_FailedToColourWindow + 1
def CursesWin_FailedToClearWindow : Nat := CursesWin_FailedToColourBackground + 1
def CursesWin_FailedToEraseChar : Nat := CursesWin_FailedToClearWindow + 1
def CursesWin_FailedToDrawVerticalLine : Nat := CursesWin_FailedToEraseChar + 1
def CursesWin_FailedToDrawHorizontalLine : Nat := CursesWin_FailedToDrawVerticalLine + 1
def FileHandlding_base_error : Nat := Curses_base_error + MODULE_OFFSET
def ErrorHandler_base_error : Nat := FileHandlding_base_error + MODULE_OFFSET
def Screen_base_error : Nat := FileHandlding_base_error + MODULE_OFFSET
def Screen_ConsoleInfoFailed : Nat := Screen_base_error + 1
def Screen_SetupConsoleFailed : Nat := Screen_ConsoleInfoFailed + 1
def Screen_StartColorFailed : Nat := Screen_SetupConsoleFailed + 1
def Screen_CBreakFailed : Nat := Screen_StartColorFailed + 1
def Screen_NoEchoFailed : Nat := Screen_CBreakFailed + 1
def Screen_KeyPadFailed : Nat := Screen_NoEchoFailed + 1
def Screen_CursSetFailed : Nat := Screen_KeyPadFailed + 1
def Screen_RefreshFailed : Nat := Screen_CursSetFailed + 1
def Screen_InitPairFailed : Nat := Screen_RefreshFailed + 1
def Screen_EndWinFailed : Nat := Screen_InitPairFailed + 1
def Utilities_base_error : Nat := Screen_base_error + MODULE_OFFSET
def IDE_base_error : Nat := Utilities_base_error + MODULE_OFFSET
def IDEEditline_IncorrectBufferIndex : Nat := IDE_base_error + 1
def IDEEditline_InitNotCalled : Nat := IDEEditline_IncorrectBufferIndex + 1
def IDEEditline_AlreadyInitialized : Nat := IDEEditline_InitNotCalled + 1
def IDEEditBox_InitAlreadyCalled : Nat := IDEEditline_AlreadyInitialized + 1
def IDEEditBox_InitNotCalled : Nat := IDEEditBox_InitAlreadyCalled + 1
def IDEEditBox_FailedToCreateWindow : Nat := IDEEditBox_InitNotCalled + 1
def IDEFileHandler_FailedToOpenFile : Nat := IDEEditBox_FailedToCreateWindow + 1
def IDEFileHandler_FailedToSaveFile : Nat := IDEFileHandler_FailedToOpenFile + 1
def IDEFileHandler_FileNotOpen : Nat := IDEFileHandler_FailedToSaveFile + 1
def IDEEditor_AlreadyInitialized : Nat := IDEFileHandler_FileNotOpen + 1
def IDEEditor_NotInitialized : Nat := IDEEditor_AlreadyInitialized + 1
def IDEDialog_AlreadyInitialized : Nat := IDEEditor_NotInitialized + 1
def IDEDialog_InitNotCalled : Nat := IDEDialog_AlreadyInitialized + 1
def IDEButton_NotInitialised : Nat := IDEDialog_InitNotCalled + 1
def IDEButtin_WindowNotInitialised : Nat := IDEButton_NotInitialised + 1
def IDEWindow_InitNotCalled : Nat := IDEButtin_WindowNotInitialised + 1
def IDEWindow_FailedToCreateWindow : Nat := IDEWindow_InitNotCalled + 1

end LibraryError

/-- The enumeration `ErrorType`. Its declaration (ErrorHandler.h) is not among the
sources; the code names the enumerators `Status`, `Warning` and `Critical`
(ErrorHandler.cpp:146-159), every other enumerator takes the `default` branch and is
`other` here. -/
inductive ErrorType where
  | Status
  | Warning
  | Critical
  | other (tag : Nat)
  deriving DecidableEq, Repr

/-- The record `ErrorInformation` that `handleError` fills (ErrorHandler.cpp:93-97);
the error number is its numeric value, the time a number. -/
structure ErrorInformation where
  type : ErrorType
  number : Nat
  message : List Char
  time : Nat
  deriving DecidableEq, Repr

/-- The record `ErrorStatus` (members as in `ErrorStatus::Clear`,
ErrorHandler.cpp:226-233). Its declaration (ErrorHandler.h) is not among the sources;
the counters are natural numbers here. -/
structure ErrorStatus where
  numErrors : Nat
  numWarnings : Nat
  numStatus : Nat
  numCritical : Nat
  totalErrors : Nat
  deriving DecidableEq, Repr

/-- The state after `ErrorStatus::Clear` (ErrorHandler.cpp:226-233). -/
def ErrorStatus.Clear : ErrorStatus := ⟨0, 0, 0, 0, 0⟩

/-- The member `errorList` after the constructor `ErrorHandler::ErrorHandler`
(ErrorHandler.cpp:64-70). -/
def ErrorHandler : List ErrorInformation := []

/-- `ErrorHandler::handleError` (ErrorHandler.cpp:90-102) on the member `errorList`;
`time` is the clock value read by the call. The call of the logger is not part of
the embedding. -/
def handleError (errorList : List ErrorInformation) (errorType : ErrorType)
    (errorNumber : Nat) (message : List Char) (time : Nat) : List ErrorInformation :=
  errorList ++ [⟨errorType, errorNumber, message, time⟩]

/-- `ErrorHandler::clearErrors` (ErrorHandler.cpp:109-112). -/
def clearErrors (_errorList : List ErrorInformation) : List ErrorInformation := []

/-- The body of the `switch` of `getStatusInformation` (ErrorHandler.cpp:144-166). -/
def countError (info : ErrorStatus) (error : ErrorInformation) : ErrorStatus :=
  match error.type with
  | .Status => { info with numStatus := info.numStatus + 1 }
  | .Warning => { info with numWarnings := info.numWarnings + 1 }
  | .Critical => { info with numCritical := info.numCritical + 1 }
  | .other _ => { info with numErrors := info.numErrors + 1 }

/-- `ErrorHandler::getStatusInformation` (ErrorHandler.cpp:136-176). -/
def getStatusInformation (errorList : List ErrorInformation) : ErrorStatus :=
  let info := errorList.foldl countError ErrorStatus.Clear
  { info with
    totalErrors := info.numErrors + info.numWarnings + info.numStatus + info.numCritical }

/-- A call of one of the two members that change `errorList`. -/
inductive HandlerCall where
  | handleError (errorType : ErrorType) (errorNumber : Nat) (message : List Char) (time : Nat)
  | clearErrors
  deriving DecidableEq, Repr

/-- The member `errorList` after one more call. -/
def applyCall (errorList : List ErrorInformation) : HandlerCall → List ErrorInformation
  | .handleError t n m time => handleError errorList t n m time
  | .clearErrors => clearErrors errorList

/-- The member `errorList` after a sequence of calls on a new `ErrorHandler`. -/
def runCalls (calls : List HandlerCall) : List ErrorInformation :=
  calls.foldl applyCall ErrorHandler

/-- The constant `CRC_START` (Tools.h:76). -/
def CRC_START : Nat := 0xFFFF

/-- The constant `CRC_POLY` (Tools.h:77). -/
def CRC_POLY : Nat := 0xA001

/-- The constant `CRC_MASK` (Tools.h:78). -/
def CRC_MASK : Nat := 0x0001

/-- The constant `CRC_SHIFT` (Tools.h:79). -/
def CRC_SHIFT : Nat := 1

/-- The constant `CRC_BITS` (Tools.h:80). -/
def CRC_BITS : Nat := 8

/-- The body of the inner loop of `crc16` (Tools.cpp:78-87) on the `uint16_t` `crc`. -/
def crcBit (crc : Nat) : Nat :=
  if crc &&& CRC_MASK ≠ 0 then ((crc >>> CRC_SHIFT) ^^^ CRC_POLY) % 65536
  else crc >>> CRC_SHIFT

/-- The loop `for ( i = 0; i < CRC_BITS; i++ )` (Tools.cpp:76-88): the iterations
still to do and `crc`. -/
def crcBits : Nat → Nat → Nat
  | 0, crc => crc
  | n + 1, crc => crcBits n (crcBit crc)

/-- The loop `while ( len-- )` (Tools.cpp:73-89): `len`, the position of `pData` in
the buffer it points into, and `crc`. A read outside the buffer is a fault. -/
def crc16Loop (pData : List Nat) : Nat → Nat → Nat → Outcome Nat
  | 0, _, crc => .ok crc
  | len + 1, pos, crc =>
    match pData[pos]? with
    | none => .outOfBounds
    | some b => crc16Loop pData len (pos + 1) (crcBits CRC_BITS ((crc ^^^ b) % 65536))

/-- `Tools::crc16` (Tools.cpp:67-91) on a buffer and a length. -/
def crc16 (pData : List Nat) (len : Nat) : Outcome Nat :=
  crc16Loop pData len 0 CRC_START

/-- The arguments `w`, `h`, `sprW`, `sprH` of a call of `CompressSpriteData`. -/
structure TileRequest where
  w : Nat
  h : Nat
  sprW : Nat
  sprH : Nat
  deriving DecidableEq, Repr

/-- The size arguments of the call `CompressSpriteData( rawData, picWidth, picHeight,
picWidth, sprH, rawName2 )` that `Tools::Read_PNG( file_name, sprWidth, sprHeight )`
makes (Tools.cpp:155-169) for an image of `picWidth × picHeight` pixels. -/
def Read_PNG_request (picWidth picHeight _sprWidth _sprHeight : Nat) : TileRequest :=
  let sprH := if picWidth = 60 ∧ picHeight > (picWidth * 2) % 4294967296 then picWidth
    else picHeight
  ⟨picWidth, picHeight, picWidth, sprH⟩

/-- The sprite file that `Tools::Read_PNG` writes (Tools.cpp:155-169) for the pixel
buffer `rawData` of an image of `picWidth × picHeight` pixels. -/
def Read_PNG (fuel : Nat) (rawData : List Nat) (picWidth picHeight sprWidth sprHeight : Nat) :
    Outcome (List Nat) :=
  CompressSpriteDataFile fuel rawData (Read_PNG_request picWidth picHeight sprWidth sprHeight).w
    (Read_PNG_request picWidth picHeight sprWidth sprHeight).h
    (Read_PNG_request picWidth picHeight sprWidth sprHeight).sprW
    (Read_PNG_request picWidth picHeight sprWidth sprHeight).sprH


/-! ## Predicates used to state the results -/

/-- Every offset of a tile row of width `sprW` can be read through `g`. -/
def Readable (g : Nat → Option Nat) (sprW : Nat) : Prop :=
  ∀ c, c < sprW → ∃ p, g c = some p

/-- What the scan loop, entered at `scanBG = k` with cursor `x`, leaves behind. -/
def ScanPost (g : Nat → Option Nat) (sprW x k : Nat) (s : ScanOut) : Prop :=
  s.pushed = [s.sprCmd] ∧ (∀ c, x + k ≤ c → c < s.x → g c = some 0) ∧
  ((s.sprCmd = 201 ∧ s.bLoop = false ∧ s.x = sprW ∧ sprW ≤ x + 200) ∨
   (s.sprCmd ≤ 200 ∧ s.bLoop = true ∧ s.x = x + s.sprCmd ∧ k ≤ s.sprCmd ∧ s.x < sprW ∧
      (s.sprCmd < 200 → ∃ p, g s.x = some p ∧ p ≠ 0)))

/-- The pixels at offsets `x, x + 1, ..., x + t - 1` of a tile row. -/
def rowPixels (g : Nat → Option Nat) (x t : Nat) : List Nat :=
  (List.range' x t).map (fun c => (g c).getD 0)

/-- Two readers of a tile row that agree on the offsets below `sprW`. -/
def AgreeBelow (g g' : Nat → Option Nat) (sprW : Nat) : Prop :=
  ∀ c, c < sprW → g c = g' c

/-- What one iteration of `while ( bLoop )`, entered with cursor `x`, produces: the
end of the row, a skip of 200 transparent pixels, or a skip followed by a run. -/
def ChunkPost (g : Nat → Option Nat) (sprW x : Nat) (c : Chunk) : Prop :=
  (c.sprCmd = 201 ∧ c.bLoop = false ∧ c.bytes = [201] ∧ c.x = sprW ∧ sprW ≤ x + 200 ∧
      ∀ i, x ≤ i → i < sprW → g i = some 0) ∨
  (c.sprCmd = 200 ∧ c.bLoop = true ∧ c.bytes = [200] ∧ c.x = x + 200 ∧ c.x < sprW ∧
      ∀ i, x ≤ i → i < c.x → g i = some 0) ∨
  (c.sprCmd < 200 ∧ c.bLoop = true ∧ ∃ r, 1 ≤ r ∧
      c.bytes = c.sprCmd :: (r % 256) :: rowPixels g (x + c.sprCmd) r ∧
      c.x = x + c.sprCmd + r ∧ c.x ≤ sprW ∧
      (∀ i, x ≤ i → i < x + c.sprCmd → g i = some 0) ∧
      (∀ i, x + c.sprCmd ≤ i → i < c.x → ∃ p, g i = some p ∧ p ≠ 0) ∧
      (c.x < sprW → g c.x = some 0))

/-- The iterations of `while ( bLoop )` from cursor `x` to the end of the row. -/
inductive RowPost (g : Nat → Option Nat) (sprW : Nat) : Nat → List Chunk → Prop
  | last {x : Nat} {c : Chunk} : ChunkPost g sprW x c → c.bLoop = false → RowPost g sprW x [c]
  | cons {x : Nat} {c : Chunk} {cs : List Chunk} : ChunkPost g sprW x c → c.bLoop = true →
      RowPost g sprW c.x cs → RowPost g sprW x (c :: cs)

/-- Every pixel of the `sprW × sprH` tile at `(sprDx, sprDy)` can be read through `rd`. -/
def TileReadable (rd : Nat → Option Nat) (w sprW sprH sprDx sprDy : Nat) : Prop :=
  ∀ y, y < sprH → Readable (rowReader rd w sprDx sprDy y) sprW

/-- Two memories that hold the same pixels at the addresses of the tile at `(sprDx, sprDy)`. -/
def AgreeOnTile (rd rd' : Nat → Option Nat) (w sprW sprH sprDx sprDy : Nat) : Prop :=
  ∀ y, y < sprH → ∀ c, c < sprW →
    rd (pixelIndex w sprDx sprDy y c) = rd' (pixelIndex w sprDx sprDy y c)

/-- The rows `y, y + 1, ...` of a tile, each with the iterations that encode it. -/
def RowsPost (fuel : Nat) (rd : Nat → Option Nat) (w sprW sprDx sprDy : Nat) :
    Nat → List (List Chunk) → Prop
  | _, [] => True
  | y, cs :: rest =>
    encodeRowChunks fuel rd w sprW sprDx sprDy y = .ok cs ∧
    RowPost (rowReader rd w sprDx sprDy y) sprW 0 cs ∧
    RowsPost fuel rd w sprW sprDx sprDy (y + 1) rest

/-- Number of iterations of `for ( s = 0; s < w; s += sprW )` when the counter does
not wrap: `w / sprW` rounded up. -/
def tilesAcross (w sprW : Nat) : Nat := (w + sprW - 1) / sprW

/-- The offsets pushed for a list of tile encodings, the stream holding `start`
bytes before the first of them. -/
def offsetsOf : Nat → List (List Nat) → List Nat
  | _, [] => []
  | start, e :: es => start % 4294967296 :: offsetsOf (start + e.length) es

/-- The bytes of the tile at `(sprDx, sprDy)`, empty when the encoder faults. -/
def tileBytes (fuel : Nat) (rd : Nat → Option Nat) (w sprW sprH sprDx sprDy : Nat) : List Nat :=
  match encodeTile fuel rd w sprW sprH sprDx sprDy with
  | .ok bytes => bytes
  | _ => []

/-- The tile encodings of one row of tiles, left to right. -/
def tileRowBytes (fuel : Nat) (rd : Nat → Option Nat) (w sprW sprH nx sprDy : Nat) :
    List (List Nat) :=
  (List.range nx).map (fun i => tileBytes fuel rd w sprW sprH (i * sprW) sprDy)

/-- The tile encodings of the sheet in tile-scan order: `tileY` outer, `tileX` inner. -/
def sheetBytes (fuel : Nat) (rd : Nat → Option Nat) (w sprW sprH nx ny : Nat) :
    List (List Nat) :=
  (List.range ny).flatMap (fun j => tileRowBytes fuel rd w sprW sprH nx (j * sprH))

/-- The bytes appended to `sprData` for row `y` of the tile at `(sprDx, sprDy)`. -/
def encodeRow (fuel : Nat) (rd : Nat → Option Nat) (w sprW sprDx sprDy y : Nat) :
    Outcome (List Nat) :=
  match encodeRowChunks fuel rd w sprW sprDx sprDy y with
  | .ok cs => .ok (chunkBytes cs)
  | .outOfBounds => .outOfBounds
  | .outOfFuel => .outOfFuel

/-- The byte that the encoder reads for column `x` of row `y` of a grid of width `w`:
the index `y * w + x` is computed in `uint32_t`, as in Tools.cpp:266, so this is
`data[(y * w + x) mod 2^32]`. It is the pixel itself, `pixelAt`, when
`y * w + x < 2^32`, and the byte of another pixel otherwise. -/
def gridPixel (data : List Nat) (w x y : Nat) : Option Nat :=
  data[(y * w + x) % 4294967296]?

/-- The pixel in column `x` of row `y` of a row-major grid of width `w`. -/
def pixelAt (data : List Nat) (w x y : Nat) : Option Nat :=
  data[y * w + x]?

/-- Whether `idx` is the address of a pixel of the tile at `(sprDx, sprDy)` of a
row-major grid of width `w`: `(sprDy + y) * w + sprDx + c` for a row `y` and a
column `c` of the tile. -/
def inTile (w sprW sprH sprDx sprDy idx : Nat) : Bool :=
  (List.range sprH).any fun y => (List.range sprW).any fun c =>
    (sprDy + y) * w + sprDx + c == idx

/-- The memory `rd` with every address outside the tile at `(sprDx, sprDy)` made
unreadable. -/
def restrictToTile (rd : Nat → Option Nat) (w sprW sprH sprDx sprDy : Nat) : Nat → Option Nat :=
  fun idx => if inTile w sprW sprH sprDx sprDy idx then rd idx else none

/-- The tile encodings of a grid in tile-scan order, for a width and a height that
are multiples of the tile size. -/
def gridSheet (fuel : Nat) (data : List Nat) (w h sprW sprH : Nat) : List (List Nat) :=
  sheetBytes fuel (readVec data) w sprW sprH (w / sprW) (h / sprH)

/-- The encoding of tile `k`, counted in tile-scan order, of a grid whose width is a
multiple of the tile width: column `k % (w / sprW)` of tile row `k / (w / sprW)`. -/
def gridTile (fuel : Nat) (data : List Nat) (w sprW sprH k : Nat) : Outcome (List Nat) :=
  encodeTile fuel (readVec data) w sprW sprH (k % (w / sprW) * sprW) (k / (w / sprW) * sprH)

/-- The error that a call records, if it records one. -/
def errorOf : HandlerCall → Option ErrorInformation
  | .handleError t n m time => some ⟨t, n, m, time⟩
  | .clearErrors => none

/-- One step of a reflected CRC with the polynomial 0xA001, as the claim about
`crc16` words it: shift right by one bit and xor the polynomial in when the bit
shifted out was set. -/
def modbusStep (crc : Nat) : Nat :=
  if crc % 2 = 1 then (crc / 2) ^^^ 0xA001 else crc / 2

/-- CRC-16/MODBUS as the claim about `crc16` words it: initial value 0xFFFF, every
byte xor-ed into the register and followed by eight steps, no final xor. -/
def crc16Modbus (data : List Nat) : Nat :=
  data.foldl (fun crc b => modbusStep^[8] (crc ^^^ b)) 0xFFFF

/-- The raw pixel bytes of one iteration of `while ( bLoop )`: for an opcode below
200 the bytes after the opcode and the run length byte, none otherwise. -/
def Chunk.raw (c : Chunk) : List Nat :=
  if c.sprCmd < 200 then c.bytes.drop 2 else []

/-- Every run of opaque pixels in the row is at most 255 pixels long: any 256
consecutive pixels of the row hold a transparent one. -/
def RunsFitByte (g : Nat → Option Nat) (sprW : Nat) : Prop :=
  ∀ s, s + 256 ≤ sprW → ∃ i, s ≤ i ∧ i < s + 256 ∧ g i = some 0

/-- The bytes that the encoder reads for the tile at `(sprDx, sprDy)`, row by row
(addresses computed in `uint32_t`). -/
def readPixels (data : List Nat) (w sprW sprH sprDx sprDy : Nat) : List (List Nat) :=
  (List.range sprH).map fun y => (List.range sprW).map fun c =>
    (gridPixel data w (sprDx + c) (sprDy + y)).getD 0

/-- The pixels of the tile at `(sprDx, sprDy)` of a row-major grid, row by row. -/
def tilePixels (data : List Nat) (w sprW sprH sprDx sprDy : Nat) : List (List Nat) :=
  (List.range sprH).map fun y => (List.range sprW).map fun c =>
    (pixelAt data w (sprDx + c) (sprDy + y)).getD 0

/-- The vector `data` read without a bounds check, as `operator[]` reads it: an index
inside the vector gives its byte, an index `i` past its end the byte `mem i` that
lies there. -/
def readUnchecked (data : List Nat) (mem : Nat → Nat) : Nat → Option Nat :=
  fun i => some ((data[i]?).getD (mem i))

/-- A grid of 65538 rows of 65536 pixels, 2^32 + 131072 bytes: the first 65536 rows
hold the pixel `lo`, the last two the pixel `hi`. -/
def wrapGrid (lo hi : Nat) : List Nat :=
  List.replicate 4294967296 lo ++ List.replicate 131072 hi

/-- A transparent grid of 21367998 rows of 201 pixels, 2^32 + 302 bytes, but for its
last pixel, which is 7: the last row, row 21367997, is 200 transparent pixels followed
by an opaque one. -/
def wrapRow : List Nat :=
  List.replicate 4294967597 0 ++ [7]

/-- The row decoder that the opcode table of the spec defines (the repository has no
decoder). `x` is the number of pixels of the row already produced; the result is the
rest of the row and the bytes after its opcode 201. An opcode `c < 200` gives `c`
zeros, reads a length byte `n` and copies the next `n` bytes; 200 gives 200 zeros;
201 pads the row with zeros to `tileW` and ends it. The first argument bounds the
number of opcodes. -/
def decodeRow (tileW : Nat) : Nat → Nat → List Nat → Option (List Nat × List Nat)
  | 0, _, _ => none
  | _ + 1, _, [] => none
  | fuel + 1, x, op :: rest =>
    if op < 200 then
      match rest with
      | [] => none
      | n :: run =>
        if run.length < n then none
        else
          match decodeRow tileW fuel (x + op + n) (run.drop n) with
          | some (px, tail) => some (List.replicate op 0 ++ (run.take n ++ px), tail)
          | none => none
    else if op = 200 then
      match decodeRow tileW fuel (x + 200) rest with
      | some (px, tail) => some (List.replicate 200 0 ++ px, tail)
      | none => none
    else if op = 201 then some (List.replicate (tileW - x) 0, rest)
    else none

/-- The decoder for `tileH` rows: the rows and the bytes after them. Every opcode
takes at least one byte, so the length of the bytes bounds the opcodes of a row. -/
def decodeRows (tileW : Nat) : Nat → List Nat → Option (List (List Nat) × List Nat)
  | 0, bytes => some ([], bytes)
  | tileH + 1, bytes =>
    match decodeRow tileW bytes.length 0 bytes with
    | some (row, tail) =>
      match decodeRows tileW tileH tail with
      | some (rows, tail') => some (row :: rows, tail')
      | none => none
    | none => none

/-- The tile decoder of the opcode table: `tileH` rows, then the byte 255, on which
it stops. The result is the rows and the number of bytes read, the 255 included. -/
def decodeTile (tileW tileH : Nat) (bytes : List Nat) : Option (List (List Nat) × Nat) :=
  match decodeRows tileW tileH bytes with
  | some (rows, 255 :: tail) => some (rows, bytes.length - tail.length)
  | _ => none

/-- The tile decoder started at a byte offset of the opcode stream. -/
def decodeAt (stream : List Nat) (offset tileW tileH : Nat) : Option (List (List Nat) × Nat) :=
  decodeTile tileW tileH (stream.drop offset)


/-! ## The loops of one tile row -/

theorem scanLoop_spec (g : Nat → Option Nat) (sprW x : Nat) (hW : sprW < 4294967296) :
    ∀ m k, k + m = 200 → x + k ≤ sprW →
      (∃ s, scanLoop g sprW x (m + 1) k = .ok s ∧ ScanPost g sprW x k s) ∨
      (scanLoop g sprW x (m + 1) k = .outOfBounds ∧ ∃ c, c < sprW ∧ g c = none) := by
  intro m
  induction m with
  | zero =>
    intro k hk hx
    have hk200 : k = 200 := by omega
    subst hk200
    unfold scanLoop
    by_cases hend : (200 + x) % 4294967296 = sprW
    · left
      refine ⟨⟨sprW, 201, [201], false⟩, by simp [hend], rfl, ?_, Or.inl ⟨rfl, rfl, rfl, by omega⟩⟩
      intro c h1 h2
      simp only at h2
      omega
    · have hlt : x + 200 < sprW := by omega
      simp only [hend, if_false]
      cases hg : g (x + 200) with
      | none => right; exact ⟨by simp, x + 200, hlt, hg⟩
      | some p =>
        left
        have hmod : (x + 200) % 4294967296 = x + 200 := by omega
        by_cases hp : p = 0
        · refine ⟨⟨x + 200, 200, [200], true⟩, by simp [hp, hmod], rfl, ?_, Or.inr ⟨by simp, rfl, rfl, by simp, hlt, by simp⟩⟩
          intro c h1 h2
          simp only at h2
          omega
        · refine ⟨⟨x + 200, 200, [200], true⟩, by simp [hp, hmod], rfl, ?_, Or.inr ⟨by simp, rfl, rfl, by simp, hlt, by simp⟩⟩
          intro c h1 h2
          simp only at h2
          omega
  | succ m ih =>
    intro k hk hx
    unfold scanLoop
    by_cases hend : (k + x) % 4294967296 = sprW
    · left
      refine ⟨⟨sprW, 201, [201], false⟩, by simp [hend], rfl, ?_, Or.inl ⟨rfl, rfl, rfl, by omega⟩⟩
      intro c h1 h2
      simp only at h2
      omega
    · have hlt : x + k < sprW := by omega
      simp only [hend, if_false]
      cases hg : g (x + k) with
      | none => right; exact ⟨by simp, x + k, hlt, hg⟩
      | some p =>
        have hmod : (x + k) % 4294967296 = x + k := by omega
        have hk256 : k % 256 = k := by omega
        by_cases hp : p = 0
        · have hk200 : k ≠ 200 := by omega
          simp only [hp, ne_eq, not_true_eq_false, if_false, hk200]
          rcases ih (k + 1) (by omega) (by omega) with ⟨s, hs, hpush, hz, hpost⟩ | ⟨hs, hc⟩
          · left
            refine ⟨s, hs, hpush, ?_, ?_⟩
            · intro c h1 h2
              by_cases hc : c = x + k
              · subst hc; rw [hg, hp]
              · exact hz c (by omega) h2
            · rcases hpost with h | ⟨h1, h2, h3, h4, h5, h6⟩
              · exact Or.inl h
              · exact Or.inr ⟨h1, h2, h3, by omega, h5, h6⟩
          · right; exact ⟨hs, hc⟩
        · left
          refine ⟨⟨x + k, k, [k], true⟩, by simp [hp, hmod, hk256], rfl, ?_, Or.inr ⟨by simp; omega, rfl, rfl, by simp, hlt, ?_⟩⟩
          · intro c h1 h2
            simp only at h2
            omega
          · intro _
            exact ⟨p, hg, hp⟩

theorem countRun_spec (g : Nat → Option Nat) (sprW x : Nat) (hW : sprW < 4294967296) :
    ∀ n t, x + t ≤ sprW → sprW < x + t + n →
      (∃ r, countRun g sprW x n t = .ok r ∧ t ≤ r ∧ x + r ≤ sprW ∧
        (∀ c, x + t ≤ c → c < x + r → ∃ p, g c = some p ∧ p ≠ 0) ∧
        (x + r < sprW → g (x + r) = some 0)) ∨
      (countRun g sprW x n t = .outOfBounds ∧ ∃ c, c < sprW ∧ g c = none) := by
  intro n
  induction n with
  | zero => intro t h1 h2; omega
  | succ n ih =>
    intro t h1 h2
    unfold countRun
    by_cases hlt : (x + t) % 4294967296 < sprW
    · have hlt2 : x + t < sprW := by omega
      simp only [hlt, if_true]
      cases hg : g (x + t) with
      | none => right; exact ⟨by simp, x + t, hlt2, hg⟩
      | some p =>
        by_cases hp : p = 0
        · left
          refine ⟨t, by simp [hp], le_refl _, h1, ?_, ?_⟩
          · intro c h3 h4; omega
          · intro _; rw [hg, hp]
        · have hmod : (t + 1) % 4294967296 = t + 1 := by omega
          simp only [ne_eq, hp, not_false_eq_true, if_true, hmod]
          rcases ih (t + 1) (by omega) (by omega) with ⟨r, hr, h3, h4, h5, h6⟩ | ⟨hr, hc⟩
          · left
            refine ⟨r, hr, by omega, h4, ?_, h6⟩
            intro c h7 h8
            by_cases hc : c = x + t
            · subst hc; exact ⟨p, hg, hp⟩
            · exact h5 c (by omega) h8
          · right; exact ⟨hr, hc⟩
    · left
      have : x + t = sprW := by omega
      refine ⟨t, by simp [hlt], le_refl _, h1, ?_, ?_⟩
      · intro c h3 h4; omega
      · intro h; omega

theorem rowPixels_zero (g : Nat → Option Nat) (x : Nat) : rowPixels g x 0 = [] := rfl

theorem rowPixels_succ (g : Nat → Option Nat) (x t : Nat) :
    rowPixels g x (t + 1) = (g x).getD 0 :: rowPixels g (x + 1) t := by
  simp [rowPixels, List.range'_succ]

theorem rowPixels_length (g : Nat → Option Nat) (x t : Nat) : (rowPixels g x t).length = t := by
  simp [rowPixels]

theorem copyRun_spec (g : Nat → Option Nat) (sprW : Nat) (hW : sprW < 4294967296) :
    ∀ t x, x + t ≤ sprW → (∀ c, x ≤ c → c < x + t → ∃ p, g c = some p) →
      copyRun g t x = .ok (rowPixels g x t, x + t) := by
  intro t
  induction t with
  | zero => intro x _ _; simp [copyRun, rowPixels_zero]
  | succ t ih =>
    intro x h1 h2
    obtain ⟨p, hp⟩ := h2 x (le_refl _) (by omega)
    have hmod : (x + 1) % 4294967296 = x + 1 := by omega
    have := ih (x + 1) (by omega) (fun c h3 h4 => h2 c (by omega) (by omega))
    simp only [copyRun, hp, hmod, this, rowPixels_succ, Option.getD_some]
    congr 2
    omega

theorem scanLoop_congr (g g' : Nat → Option Nat) (sprW x : Nat) (hW : sprW < 4294967296)
    (hag : AgreeBelow g g' sprW) :
    ∀ n k, x + k ≤ sprW → scanLoop g sprW x n k = scanLoop g' sprW x n k := by
  intro n
  induction n with
  | zero => intro k _; simp [scanLoop]
  | succ n ih =>
    intro k hk
    unfold scanLoop
    by_cases hend : (k + x) % 4294967296 = sprW
    · simp [hend]
    · have hlt : x + k < sprW := by omega
      simp only [hend, if_false]
      rw [← hag (x + k) hlt]
      cases hg : g (x + k) with
      | none => rfl
      | some p =>
        simp only
        rw [ih (k + 1) (by omega)]

theorem countRun_congr (g g' : Nat → Option Nat) (sprW x : Nat) (hW : sprW < 4294967296)
    (hag : AgreeBelow g g' sprW) :
    ∀ n t, x + t ≤ sprW → countRun g sprW x n t = countRun g' sprW x n t := by
  intro n
  induction n with
  | zero => intro t _; simp [countRun]
  | succ n ih =>
    intro t ht
    unfold countRun
    by_cases hlt : (x + t) % 4294967296 < sprW
    · have hlt2 : x + t < sprW := by omega
      have hmod : (t + 1) % 4294967296 = t + 1 := by omega
      simp only [hlt, if_true]
      rw [← hag (x + t) hlt2]
      cases hg : g (x + t) with
      | none => rfl
      | some p =>
        simp only [hmod]
        rw [ih (t + 1) (by omega)]
    · simp [hlt]

theorem copyRun_congr (g g' : Nat → Option Nat) (sprW : Nat) (hW : sprW < 4294967296)
    (hag : AgreeBelow g g' sprW) :
    ∀ t x, x + t ≤ sprW → copyRun g t x = copyRun g' t x := by
  intro t
  induction t with
  | zero => intro x _; simp [copyRun]
  | succ t ih =>
    intro x hx
    have hmod : (x + 1) % 4294967296 = x + 1 := by omega
    unfold copyRun
    rw [← hag x (by omega)]
    cases hg : g x with
    | none => rfl
    | some p =>
      simp only [hmod]
      rw [ih (x + 1) (by omega)]

theorem rowStep_spec (fuel : Nat) (g : Nat → Option Nat) (sprW x : Nat)
    (hW : sprW < 4294967296) (hfuel : sprW < fuel) (hx : x ≤ sprW) :
    (∃ c, rowStep fuel g sprW x = .ok c ∧ ChunkPost g sprW x c) ∨
    (rowStep fuel g sprW x = .outOfBounds ∧ ∃ c, c < sprW ∧ g c = none) := by
  unfold rowStep
  rcases scanLoop_spec g sprW x hW 200 0 (by omega) (by omega) with
    ⟨s, hs, hpush, hz, hpost⟩ | ⟨hs, hc⟩
  · rw [hs]
    rcases hpost with ⟨h1, h2, h3, h4⟩ | ⟨h1, h2, h3, _, h5, h6⟩
    · left
      have : ¬ s.sprCmd < 200 := by omega
      refine ⟨⟨s.sprCmd, s.pushed, s.x, s.bLoop⟩, by simp [this], Or.inl ⟨h1, h2, ?_, h3, h4, ?_⟩⟩
      · simp [hpush, h1]
      · intro i hi1 hi2; exact hz i (by omega) (by omega)
    · by_cases hcmd : s.sprCmd < 200
      · simp only [hcmd, if_true]
        obtain ⟨p, hp, hp0⟩ := h6 hcmd
        rcases countRun_spec g sprW s.x hW fuel 0 (by omega) (by omega) with
          ⟨r, hr, _, hr2, hr3, hr4⟩ | ⟨hr, hc⟩
        · left
          rw [hr]
          have hr1 : 1 ≤ r := by
            by_contra hcon
            have hr0 : r = 0 := by omega
            subst hr0
            have := hr4 (by omega)
            simp only [Nat.add_zero] at this
            rw [hp] at this
            exact hp0 (Option.some.inj this)
          have hcopy := copyRun_spec g sprW hW r s.x hr2
            (fun c hc1 hc2 => by
              obtain ⟨q, hq, _⟩ := hr3 c (by omega) hc2
              exact ⟨q, hq⟩)
          simp only [hcopy]
          refine ⟨_, rfl, Or.inr (Or.inr ⟨hcmd, h2, r, hr1, ?_, ?_, ?_, ?_, ?_, ?_⟩)⟩
          · simp [hpush, h3]
          · simp [h3]
          · simp only; omega
          · intro i hi1 hi2
            dsimp only at hi2
            exact hz i (by omega) (by omega)
          · intro i hi1 hi2
            dsimp only at hi1 hi2
            exact hr3 i (by omega) (by omega)
          · intro hi
            exact hr4 hi
        · right
          rw [hr]
          exact ⟨rfl, hc⟩
      · left
        have h200 : s.sprCmd = 200 := by omega
        refine ⟨⟨s.sprCmd, s.pushed, s.x, s.bLoop⟩, by simp [hcmd],
          Or.inr (Or.inl ⟨h200, h2, ?_, ?_, h5, ?_⟩)⟩
        · simp [hpush, h200]
        · simp only; omega
        · intro i hi1 hi2; exact hz i (by omega) hi2
  · right
    rw [hs]
    exact ⟨rfl, hc⟩

/-- A chunk that obeys `ChunkPost` starts with its opcode, keeps the cursor inside
the row, and either ends the row or moves the cursor forward. -/
theorem ChunkPost.basic {g : Nat → Option Nat} {sprW x : Nat} {c : Chunk}
    (h : ChunkPost g sprW x c) :
    c.bytes.head? = some c.sprCmd ∧ c.x ≤ sprW ∧
      ((c.sprCmd = 201 ∧ c.bLoop = false) ∨ (c.sprCmd ≤ 200 ∧ c.bLoop = true ∧ x < c.x)) := by
  rcases h with ⟨h1, h2, h3, h4, _, _⟩ | ⟨h1, h2, h3, h4, h5, _⟩ |
    ⟨h1, h2, r, hr, h3, h4, h5, _⟩
  · exact ⟨by simp [h3, h1], by omega, Or.inl ⟨h1, h2⟩⟩
  · exact ⟨by simp [h3, h1], by omega, Or.inr ⟨by omega, h2, by omega⟩⟩
  · exact ⟨by simp [h3], h5, Or.inr ⟨by omega, h2, by omega⟩⟩

theorem rowLoop_spec (fuel : Nat) (g : Nat → Option Nat) (sprW : Nat)
    (hW : sprW < 4294967296) (hfuel : sprW < fuel) :
    ∀ n x, x ≤ sprW → sprW < x + n →
      (∃ cs, rowLoop fuel g sprW n x = .ok cs ∧ RowPost g sprW x cs) ∨
      (rowLoop fuel g sprW n x = .outOfBounds ∧ ∃ c, c < sprW ∧ g c = none) := by
  intro n
  induction n with
  | zero => intro x h1 h2; omega
  | succ n ih =>
    intro x h1 h2
    unfold rowLoop
    rcases rowStep_spec fuel g sprW x hW hfuel h1 with ⟨c, hc, hpost⟩ | ⟨hc, hbad⟩
    · rw [hc]
      obtain ⟨_, hcx, hcase⟩ := hpost.basic
      rcases hcase with ⟨_, hb⟩ | ⟨_, hb, hlt⟩
      · left
        exact ⟨[c], by simp [hb], RowPost.last hpost hb⟩
      · simp only [hb, if_true]
        rcases ih c.x hcx (by omega) with ⟨cs, hcs, hrow⟩ | ⟨hcs, hbad⟩
        · left
          rw [hcs]
          exact ⟨c :: cs, rfl, RowPost.cons hpost hb hrow⟩
        · right
          rw [hcs]
          exact ⟨rfl, hbad⟩
    · right
      rw [hc]
      exact ⟨rfl, hbad⟩

theorem rowStep_congr (fuel : Nat) (g g' : Nat → Option Nat) (sprW x : Nat)
    (hW : sprW < 4294967296) (hfuel : sprW < fuel) (hx : x ≤ sprW)
    (hag : AgreeBelow g g' sprW) :
    rowStep fuel g sprW x = rowStep fuel g' sprW x := by
  unfold rowStep
  rw [← scanLoop_congr g g' sprW x hW hag 201 0 (by omega)]
  rcases scanLoop_spec g sprW x hW 200 0 (by omega) (by omega) with
    ⟨s, hs, _, _, hpost⟩ | ⟨hs, _⟩
  · rw [hs]
    simp only
    by_cases hcmd : s.sprCmd < 200
    · have hsx : s.x < sprW := by
        rcases hpost with ⟨h1, _⟩ | ⟨_, _, _, _, h5, _⟩
        · omega
        · exact h5
      simp only [hcmd, if_true]
      rw [← countRun_congr g g' sprW s.x hW hag fuel 0 (by omega)]
      rcases countRun_spec g sprW s.x hW fuel 0 (by omega) (by omega) with
        ⟨r, hr, _, hr2, _, _⟩ | ⟨hr, _⟩
      · rw [hr]
        simp only
        rw [← copyRun_congr g g' sprW hW hag r s.x hr2]
      · rw [hr]
    · simp [hcmd]
  · rw [hs]

theorem rowLoop_congr (fuel : Nat) (g g' : Nat → Option Nat) (sprW : Nat)
    (hW : sprW < 4294967296) (hfuel : sprW < fuel) (hag : AgreeBelow g g' sprW) :
    ∀ n x, x ≤ sprW → rowLoop fuel g sprW n x = rowLoop fuel g' sprW n x := by
  intro n
  induction n with
  | zero => intro x _; simp [rowLoop]
  | succ n ih =>
    intro x hx
    unfold rowLoop
    rw [← rowStep_congr fuel g g' sprW x hW hfuel hx hag]
    rcases rowStep_spec fuel g sprW x hW hfuel hx with ⟨c, hc, hpost⟩ | ⟨hc, _⟩
    · rw [hc]
      simp only
      rw [ih c.x hpost.basic.2.1]
    · rw [hc]

theorem encodeRowChunks_spec (fuel : Nat) (rd : Nat → Option Nat) (w sprW sprDx sprDy y : Nat)
    (hW : sprW < 4294967296) (hfuel : sprW < fuel) :
    (∃ cs, encodeRowChunks fuel rd w sprW sprDx sprDy y = .ok cs ∧
        RowPost (rowReader rd w sprDx sprDy y) sprW 0 cs) ∨
    (encodeRowChunks fuel rd w sprW sprDx sprDy y = .outOfBounds ∧
        ∃ c, c < sprW ∧ rowReader rd w sprDx sprDy y c = none) :=
  rowLoop_spec fuel _ sprW hW hfuel fuel 0 (Nat.zero_le _) (by omega)

theorem encodeRowChunks_ok (fuel : Nat) (rd : Nat → Option Nat) (w sprW sprDx sprDy y : Nat)
    (hW : sprW < 4294967296) (hfuel : sprW < fuel)
    (hrd : Readable (rowReader rd w sprDx sprDy y) sprW) :
    ∃ cs, encodeRowChunks fuel rd w sprW sprDx sprDy y = .ok cs ∧
        RowPost (rowReader rd w sprDx sprDy y) sprW 0 cs := by
  rcases encodeRowChunks_spec fuel rd w sprW sprDx sprDy y hW hfuel with h | ⟨_, c, hc, hnone⟩
  · exact h
  · obtain ⟨p, hp⟩ := hrd c hc
    rw [hp] at hnone
    cases hnone

theorem encodeRowChunks_congr (fuel : Nat) (rd rd' : Nat → Option Nat)
    (w sprW sprDx sprDy y : Nat) (hW : sprW < 4294967296) (hfuel : sprW < fuel)
    (hag : ∀ c, c < sprW → rd (pixelIndex w sprDx sprDy y c) = rd' (pixelIndex w sprDx sprDy y c)) :
    encodeRowChunks fuel rd w sprW sprDx sprDy y = encodeRowChunks fuel rd' w sprW sprDx sprDy y :=
  rowLoop_congr fuel _ _ sprW hW hfuel (fun c hc => hag c hc) fuel 0 (Nat.zero_le _)

theorem tileRows_spec (fuel : Nat) (rd : Nat → Option Nat) (w sprW sprDx sprDy : Nat)
    (hW : sprW < 4294967296) (hfuel : sprW < fuel) :
    ∀ n y,
      (∃ rows, tileRows fuel rd w sprW sprDx sprDy n y = .ok rows ∧ rows.length = n ∧
          RowsPost fuel rd w sprW sprDx sprDy y rows) ∨
      (tileRows fuel rd w sprW sprDx sprDy n y = .outOfBounds ∧
          ∃ y' c, y ≤ y' ∧ y' < y + n ∧ c < sprW ∧ rowReader rd w sprDx sprDy y' c = none) := by
  intro n
  induction n with
  | zero => intro y; left; exact ⟨[], rfl, rfl, trivial⟩
  | succ n ih =>
    intro y
    unfold tileRows
    rcases encodeRowChunks_spec fuel rd w sprW sprDx sprDy y hW hfuel with
      ⟨cs, hcs, hrow⟩ | ⟨hcs, c, hc, hnone⟩
    · rw [hcs]
      rcases ih (y + 1) with ⟨rows, hrows, hlen, hpost⟩ | ⟨hrows, y', c, h1, h2, h3, h4⟩
      · left
        rw [hrows]
        exact ⟨cs :: rows, rfl, by simp [hlen], hcs, hrow, hpost⟩
      · right
        rw [hrows]
        exact ⟨rfl, y', c, by omega, by omega, h3, h4⟩
    · right
      rw [hcs]
      exact ⟨rfl, y, c, le_refl _, by omega, hc, hnone⟩

theorem tileRows_congr (fuel : Nat) (rd rd' : Nat → Option Nat) (w sprW sprH sprDx sprDy : Nat)
    (hW : sprW < 4294967296) (hfuel : sprW < fuel)
    (hag : AgreeOnTile rd rd' w sprW sprH sprDx sprDy) :
    ∀ n y, y + n ≤ sprH →
      tileRows fuel rd w sprW sprDx sprDy n y = tileRows fuel rd' w sprW sprDx sprDy n y := by
  intro n
  induction n with
  | zero => intro y _; simp [tileRows]
  | succ n ih =>
    intro y hy
    unfold tileRows
    rw [encodeRowChunks_congr fuel rd rd' w sprW sprDx sprDy y hW hfuel (hag y (by omega)),
      ih (y + 1) (by omega)]

/-- The rows of a whole tile and the bytes they give. -/
theorem encodeTile_spec (fuel : Nat) (rd : Nat → Option Nat) (w sprW sprH sprDx sprDy : Nat)
    (hW : sprW < 4294967296) (hfuel : sprW < fuel) :
    (∃ rows, tileRows fuel rd w sprW sprDx sprDy sprH 0 = .ok rows ∧ rows.length = sprH ∧
        RowsPost fuel rd w sprW sprDx sprDy 0 rows ∧
        encodeTile fuel rd w sprW sprH sprDx sprDy = .ok ((rows.map chunkBytes).flatten ++ [255])) ∨
    (encodeTile fuel rd w sprW sprH sprDx sprDy = .outOfBounds ∧
        ¬ TileReadable rd w sprW sprH sprDx sprDy) := by
  unfold encodeTile
  rcases tileRows_spec fuel rd w sprW sprDx sprDy hW hfuel sprH 0 with
    ⟨rows, hrows, hlen, hpost⟩ | ⟨hrows, y', c, _, h2, h3, h4⟩
  · left
    rw [hrows]
    exact ⟨rows, rfl, hlen, hpost, rfl⟩
  · right
    rw [hrows]
    refine ⟨rfl, fun hread => ?_⟩
    obtain ⟨p, hp⟩ := hread y' (by omega) c h3
    rw [hp] at h4
    cases h4

theorem encodeTile_ok (fuel : Nat) (rd : Nat → Option Nat) (w sprW sprH sprDx sprDy : Nat)
    (hW : sprW < 4294967296) (hfuel : sprW < fuel)
    (hread : TileReadable rd w sprW sprH sprDx sprDy) :
    ∃ rows, tileRows fuel rd w sprW sprDx sprDy sprH 0 = .ok rows ∧ rows.length = sprH ∧
        RowsPost fuel rd w sprW sprDx sprDy 0 rows ∧
        encodeTile fuel rd w sprW sprH sprDx sprDy = .ok ((rows.map chunkBytes).flatten ++ [255]) := by
  rcases encodeTile_spec fuel rd w sprW sprH sprDx sprDy hW hfuel with h | ⟨_, hbad⟩
  · exact h
  · exact absurd hread hbad

theorem encodeTile_congr (fuel : Nat) (rd rd' : Nat → Option Nat) (w sprW sprH sprDx sprDy : Nat)
    (hW : sprW < 4294967296) (hfuel : sprW < fuel)
    (hag : AgreeOnTile rd rd' w sprW sprH sprDx sprDy) :
    encodeTile fuel rd w sprW sprH sprDx sprDy = encodeTile fuel rd' w sprW sprH sprDx sprDy := by
  unfold encodeTile
  rw [tileRows_congr fuel rd rd' w sprW sprH sprDx sprDy hW hfuel hag sprH 0 (by omega)]

theorem encodeTile_ne_outOfFuel (fuel : Nat) (rd : Nat → Option Nat) (w sprW sprH sprDx sprDy : Nat)
    (hW : sprW < 4294967296) (hfuel : sprW < fuel) :
    encodeTile fuel rd w sprW sprH sprDx sprDy ≠ .outOfFuel := by
  rcases encodeTile_spec fuel rd w sprW sprH sprDx sprDy hW hfuel with
    ⟨_, _, _, _, h⟩ | ⟨h, _⟩ <;> rw [h] <;> simp

/-! ## The tiling loops -/

theorem lt_tilesAcross_iff (w sprW i : Nat) (hW : 0 < sprW) :
    i < tilesAcross w sprW ↔ i * sprW < w := by
  unfold tilesAcross
  rw [Nat.lt_iff_add_one_le, Nat.le_div_iff_mul_le hW, Nat.add_mul]
  omega

theorem tilesAcross_mul (n sprW : Nat) (hW : 0 < sprW) : tilesAcross (n * sprW) sprW = n := by
  apply Nat.le_antisymm
  · by_contra hcon
    have h := (lt_tilesAcross_iff (n * sprW) sprW n hW).1 (by omega)
    omega
  · by_contra hcon
    have hlt : tilesAcross (n * sprW) sprW < n := by omega
    have h := (lt_tilesAcross_iff (n * sprW) sprW (tilesAcross (n * sprW) sprW) hW).not.1 (by omega)
    have : tilesAcross (n * sprW) sprW * sprW < n * sprW := Nat.mul_lt_mul_of_pos_right hlt hW
    omega

theorem foldl_pushTile (encs : List (List Nat)) :
    ∀ s : SprState, s.sprCount < 4294967296 → encs.foldl pushTile s =
      ⟨s.sprOffsets ++ offsetsOf s.sprData.length encs, s.sprData ++ encs.flatten,
        (s.sprCount + encs.length) % 4294967296⟩ := by
  induction encs with
  | nil =>
    intro s hs
    cases s with
    | mk o d c =>
      simp only [List.foldl_nil, offsetsOf, List.append_nil, List.flatten_nil, List.length_nil,
        Nat.add_zero]
      rw [Nat.mod_eq_of_lt hs]
  | cons e es ih =>
    intro s hs
    rw [List.foldl_cons, ih _ (Nat.mod_lt _ (by norm_num))]
    simp only [pushTile, offsetsOf, List.length_append, List.append_assoc, List.singleton_append,
      List.flatten_cons, List.length_cons]
    congr 1
    omega

theorem offsetsOf_length (encs : List (List Nat)) :
    ∀ start, (offsetsOf start encs).length = encs.length := by
  induction encs with
  | nil => intro start; rfl
  | cons e es ih => intro start; simp [offsetsOf, ih]

theorem offsetsOf_getElem? (encs : List (List Nat)) :
    ∀ start k, k < encs.length →
      (offsetsOf start encs)[k]? = some ((start + ((encs.take k).flatten).length) % 4294967296) := by
  induction encs with
  | nil => intro start k hk; simp at hk
  | cons e es ih =>
    intro start k hk
    cases k with
    | zero => simp [offsetsOf]
    | succ k =>
      simp only [offsetsOf, List.getElem?_cons_succ, List.take_succ_cons, List.flatten_cons,
        List.length_append]
      rw [ih (start + e.length) k (by simpa using hk)]
      congr 2
      omega

theorem colLoop_spec (fuel : Nat) (rd : Nat → Option Nat) (w sprW sprH sprDy : Nat)
    (hW : 0 < sprW) (hwrap : tilesAcross w sprW * sprW < 4294967296)
    (hok : ∀ i, i < tilesAcross w sprW →
      ∃ b, encodeTile fuel rd w sprW sprH (i * sprW) sprDy = .ok b) :
    ∀ n i s, i ≤ tilesAcross w sprW → tilesAcross w sprW < i + n →
      colLoop fuel rd w sprW sprH sprDy n (i * sprW) s =
        .ok (((List.range' i (tilesAcross w sprW - i)).map
          (fun k => tileBytes fuel rd w sprW sprH (k * sprW) sprDy)).foldl pushTile s) := by
  intro n
  induction n with
  | zero => intro i s h1 h2; omega
  | succ n ih =>
    intro i s h1 h2
    unfold colLoop
    by_cases hlt : i * sprW < w
    · have hi : i < tilesAcross w sprW := (lt_tilesAcross_iff w sprW i hW).2 hlt
      obtain ⟨b, hb⟩ := hok i hi
      have hnext : (i * sprW + sprW) % 4294967296 = (i + 1) * sprW := by
        have hle : (i + 1) * sprW ≤ tilesAcross w sprW * sprW := Nat.mul_le_mul_right _ hi
        rw [Nat.add_mul, Nat.one_mul] at hle ⊢
        apply Nat.mod_eq_of_lt
        omega
      have hrange : tilesAcross w sprW - i = (tilesAcross w sprW - (i + 1)) + 1 := by omega
      simp only [hlt, if_true, hb, hnext]
      rw [ih (i + 1) (pushTile s b) (by omega) (by omega), hrange, List.range'_succ,
        List.map_cons, List.foldl_cons]
      simp [tileBytes, hb]
    · have hi : ¬ i < tilesAcross w sprW := fun h => hlt ((lt_tilesAcross_iff w sprW i hW).1 h)
      have : tilesAcross w sprW - i = 0 := by omega
      simp [hlt, this]

theorem colLoop_row (fuel : Nat) (rd : Nat → Option Nat) (w sprW sprH sprDy : Nat)
    (hW : 0 < sprW) (hwrap : tilesAcross w sprW * sprW < 4294967296) (hfuel : tilesAcross w sprW < fuel)
    (hok : ∀ i, i < tilesAcross w sprW →
      ∃ b, encodeTile fuel rd w sprW sprH (i * sprW) sprDy = .ok b) (s : SprState) :
    colLoop fuel rd w sprW sprH sprDy fuel 0 s =
      .ok ((tileRowBytes fuel rd w sprW sprH (tilesAcross w sprW) sprDy).foldl pushTile s) := by
  have h := colLoop_spec fuel rd w sprW sprH sprDy hW hwrap hok fuel 0 s (Nat.zero_le _) (by omega)
  rw [Nat.zero_mul] at h
  rw [h, tileRowBytes, List.range_eq_range']
  rfl

theorem tileLoop_spec (fuel : Nat) (rd : Nat → Option Nat) (w h sprW sprH : Nat)
    (hW : 0 < sprW) (hH : 0 < sprH) (hwrap : tilesAcross w sprW * sprW < 4294967296)
    (hwrapH : tilesAcross h sprH * sprH < 4294967296) (hfuel : tilesAcross w sprW < fuel)
    (hok : ∀ i j, i < tilesAcross w sprW → j < tilesAcross h sprH →
      ∃ b, encodeTile fuel rd w sprW sprH (i * sprW) (j * sprH) = .ok b) :
    ∀ n j s, j ≤ tilesAcross h sprH → tilesAcross h sprH < j + n →
      tileLoop fuel rd w h sprW sprH n (j * sprH) s =
        .ok (((List.range' j (tilesAcross h sprH - j)).flatMap
          (fun k => tileRowBytes fuel rd w sprW sprH (tilesAcross w sprW) (k * sprH))).foldl
            pushTile s) := by
  intro n
  induction n with
  | zero => intro j s h1 h2; omega
  | succ n ih =>
    intro j s h1 h2
    unfold tileLoop
    by_cases hlt : j * sprH < h
    · have hj : j < tilesAcross h sprH := (lt_tilesAcross_iff h sprH j hH).2 hlt
      have hnext : (j * sprH + sprH) % 4294967296 = (j + 1) * sprH := by
        have hle : (j + 1) * sprH ≤ tilesAcross h sprH * sprH := Nat.mul_le_mul_right _ hj
        rw [Nat.add_mul, Nat.one_mul] at hle ⊢
        apply Nat.mod_eq_of_lt
        omega
      have hrange : tilesAcross h sprH - j = (tilesAcross h sprH - (j + 1)) + 1 := by omega
      simp only [hlt, if_true, hnext]
      rw [colLoop_row fuel rd w sprW sprH (j * sprH) hW hwrap hfuel (fun i hi => hok i j hi hj) s]
      simp only
      rw [ih (j + 1) _ (by omega) (by omega), hrange, List.range'_succ, List.flatMap_cons,
        List.foldl_append]
    · have hj : ¬ j < tilesAcross h sprH := fun hh => hlt ((lt_tilesAcross_iff h sprH j hH).1 hh)
      have : tilesAcross h sprH - j = 0 := by omega
      simp [hlt, this]

/-- The whole encoding when every tile visited by the loops encodes without a fault. -/
theorem compressSprite_spec (fuel : Nat) (rd : Nat → Option Nat) (w h sprW sprH : Nat)
    (hW : 0 < sprW) (hH : 0 < sprH) (hwrap : tilesAcross w sprW * sprW < 4294967296)
    (hwrapH : tilesAcross h sprH * sprH < 4294967296) (hfuel : tilesAcross w sprW < fuel)
    (hfuelH : tilesAcross h sprH < fuel)
    (hok : ∀ i j, i < tilesAcross w sprW → j < tilesAcross h sprH →
      ∃ b, encodeTile fuel rd w sprW sprH (i * sprW) (j * sprH) = .ok b) :
    compressSprite fuel rd w h sprW sprH =
      .ok ⟨offsetsOf 0 (sheetBytes fuel rd w sprW sprH (tilesAcross w sprW) (tilesAcross h sprH)),
        (sheetBytes fuel rd w sprW sprH (tilesAcross w sprW) (tilesAcross h sprH)).flatten,
        (sheetBytes fuel rd w sprW sprH (tilesAcross w sprW) (tilesAcross h sprH)).length
          % 4294967296⟩ := by
  have hh := tileLoop_spec fuel rd w h sprW sprH hW hH hwrap hwrapH hfuel hok fuel 0 ⟨[], [], 0⟩
    (Nat.zero_le _) (by omega)
  rw [Nat.zero_mul] at hh
  rw [compressSprite, hh, foldl_pushTile _ _ (by norm_num), sheetBytes, List.range_eq_range']
  simp

theorem sheetBytes_length (fuel : Nat) (rd : Nat → Option Nat) (w sprW sprH nx ny : Nat) :
    (sheetBytes fuel rd w sprW sprH nx ny).length = nx * ny := by
  unfold sheetBytes
  induction ny with
  | zero => simp
  | succ n ih =>
    rw [List.range_succ, List.flatMap_append, List.length_append, ih]
    simp [tileRowBytes, Nat.mul_succ]

theorem tilesAcross_le (w sprW : Nat) (hW : 0 < sprW) : tilesAcross w sprW ≤ w := by
  by_contra hcon
  have h := (lt_tilesAcross_iff w sprW w hW).1 (by omega)
  have : w * 1 ≤ w * sprW := Nat.mul_le_mul_left w hW
  omega

theorem tilesAcross_of_mod (w sprW : Nat) (hW : 0 < sprW) (hw : w % sprW = 0) :
    tilesAcross w sprW = w / sprW ∧ w / sprW * sprW = w := by
  have h2 : w / sprW * sprW = w := Nat.div_mul_cancel (Nat.dvd_of_mod_eq_zero hw)
  refine ⟨?_, h2⟩
  conv_lhs => rw [← h2]
  exact tilesAcross_mul _ _ hW

/-! ## Tiles of a grid -/

theorem pixelIndex_le (w sprDx sprDy y off : Nat) :
    pixelIndex w sprDx sprDy y off ≤ (sprDy + y) * w + sprDx + off :=
  Nat.mod_le _ _

theorem tile_index_lt (w h sprW sprH sprDx sprDy y c : Nat)
    (hx : sprDx + sprW ≤ w) (hy : sprDy + sprH ≤ h) (hy' : y < sprH) (hc : c < sprW) :
    (sprDy + y) * w + sprDx + c < w * h := by
  have h2 : (sprDy + y + 1) * w ≤ h * w := Nat.mul_le_mul_right w (by omega)
  have h3 : (sprDy + y + 1) * w = (sprDy + y) * w + w := by rw [Nat.add_mul, Nat.one_mul]
  have h4 : h * w = w * h := Nat.mul_comm _ _
  omega

theorem gridTile_index_lt (w h sprW sprH i j y c : Nat)
    (hW : 0 < sprW) (hH : 0 < sprH) (hw : w % sprW = 0) (hh : h % sprH = 0)
    (hi : i < w / sprW) (hj : j < h / sprH) (hy : y < sprH) (hc : c < sprW) :
    (j * sprH + y) * w + i * sprW + c < w * h := by
  have h1 := (tilesAcross_of_mod w sprW hW hw).2
  have h2 := (tilesAcross_of_mod h sprH hH hh).2
  have h3 : (i + 1) * sprW ≤ w / sprW * sprW := Nat.mul_le_mul_right _ hi
  have h4 : (j + 1) * sprH ≤ h / sprH * sprH := Nat.mul_le_mul_right _ hj
  rw [Nat.add_mul, Nat.one_mul] at h3 h4
  exact tile_index_lt w h sprW sprH _ _ y c (by omega) (by omega) hy hc

/-- A tile that lies inside a `w × h` grid stored in a buffer of `w * h` bytes is read
inside the buffer. -/
theorem tileReadable_of_grid (data : List Nat) (w h sprW sprH sprDx sprDy : Nat)
    (hlen : data.length = w * h) (hx : sprDx + sprW ≤ w) (hy : sprDy + sprH ≤ h) :
    TileReadable (readVec data) w sprW sprH sprDx sprDy := by
  intro y hy' c hc
  have h1 := pixelIndex_le w sprDx sprDy y c
  have h2 : (sprDy + y + 1) * w ≤ h * w := Nat.mul_le_mul_right w (by omega)
  have h3 : (sprDy + y + 1) * w = (sprDy + y) * w + w := by rw [Nat.add_mul, Nat.one_mul]
  have h4 : h * w = w * h := Nat.mul_comm _ _
  have hlt : pixelIndex w sprDx sprDy y c < data.length := by omega
  exact ⟨data[pixelIndex w sprDx sprDy y c], by
    simp only [rowReader, readVec]
    exact List.getElem?_eq_getElem hlt⟩

/-- The tiles of a grid whose width and height are multiples of the tile size. -/
theorem gridTile_readable (data : List Nat) (w h sprW sprH i j : Nat)
    (hW : 0 < sprW) (hH : 0 < sprH) (hw : w % sprW = 0) (hh : h % sprH = 0)
    (hlen : data.length = w * h) (hi : i < w / sprW) (hj : j < h / sprH) :
    TileReadable (readVec data) w sprW sprH (i * sprW) (j * sprH) := by
  have h1 := (tilesAcross_of_mod w sprW hW hw).2
  have h2 := (tilesAcross_of_mod h sprH hH hh).2
  have h3 : (i + 1) * sprW ≤ w / sprW * sprW := Nat.mul_le_mul_right _ hi
  have h4 : (j + 1) * sprH ≤ h / sprH * sprH := Nat.mul_le_mul_right _ hj
  rw [Nat.add_mul, Nat.one_mul] at h3 h4
  exact tileReadable_of_grid data w h sprW sprH _ _ hlen (by omega) (by omega)

theorem tileBytes_of_ok {fuel : Nat} {rd : Nat → Option Nat} {w sprW sprH sprDx sprDy : Nat}
    {b : List Nat} (h : encodeTile fuel rd w sprW sprH sprDx sprDy = .ok b) :
    tileBytes fuel rd w sprW sprH sprDx sprDy = b := by
  simp [tileBytes, h]

/-- The run of the encoder on a grid whose width and height are multiples of the tile
size: every tile encodes, and the result is assembled from the tile encodings. -/
theorem compress_grid (fuel : Nat) (data : List Nat) (w h sprW sprH : Nat)
    (hW : 0 < sprW) (hH : 0 < sprH) (hw : w % sprW = 0) (hh : h % sprH = 0)
    (hlen : data.length = w * h) (hw32 : w < 4294967296) (hh32 : h < 4294967296)
    (hfuel : w + h + sprW < fuel) :
    (∀ i j, i < w / sprW → j < h / sprH →
      encodeTile fuel (readVec data) w sprW sprH (i * sprW) (j * sprH) =
        .ok (tileBytes fuel (readVec data) w sprW sprH (i * sprW) (j * sprH))) ∧
    CompressSpriteData fuel data w h sprW sprH =
      .ok ⟨offsetsOf 0 (sheetBytes fuel (readVec data) w sprW sprH (w / sprW) (h / sprH)),
        (sheetBytes fuel (readVec data) w sprW sprH (w / sprW) (h / sprH)).flatten,
        (w / sprW * (h / sprH)) % 4294967296⟩ := by
  obtain ⟨hnx, hnxw⟩ := tilesAcross_of_mod w sprW hW hw
  obtain ⟨hny, hnyh⟩ := tilesAcross_of_mod h sprH hH hh
  have hsw : sprW < 4294967296 ∨ w = 0 := by
    rcases Nat.eq_zero_or_pos (w / sprW) with h0 | hpos
    · right; rw [← hnxw, h0, Nat.zero_mul]
    · left
      have : 1 * sprW ≤ w / sprW * sprW := Nat.mul_le_mul_right _ hpos
      omega
  have hok : ∀ i j, i < w / sprW → j < h / sprH →
      encodeTile fuel (readVec data) w sprW sprH (i * sprW) (j * sprH) =
        .ok (tileBytes fuel (readVec data) w sprW sprH (i * sprW) (j * sprH)) := by
    intro i j hi hj
    have hsw' : sprW < 4294967296 := by
      rcases hsw with h1 | h1
      · exact h1
      · rw [h1, Nat.zero_div] at hi; omega
    obtain ⟨rows, _, _, _, henc⟩ := encodeTile_ok fuel (readVec data) w sprW sprH _ _ hsw'
      (by omega) (gridTile_readable data w h sprW sprH i j hW hH hw hh hlen hi hj)
    rw [tileBytes_of_ok henc, henc]
  refine ⟨hok, ?_⟩
  have hle1 := tilesAcross_le w sprW hW
  have hle2 := tilesAcross_le h sprH hH
  have hspec := compressSprite_spec fuel (readVec data) w h sprW sprH hW hH
    (by rw [hnx, hnxw]; exact hw32) (by rw [hny, hnyh]; exact hh32) (by omega) (by omega)
    (fun i j hi hj => ⟨_, hok i j (by rwa [hnx] at hi) (by rwa [hny] at hj)⟩)
  rw [CompressSpriteData, hspec, hnx, hny, sheetBytes_length]

/-! ## What one iteration emits, from the pixels at the cursor -/

theorem rowStep_ok (fuel : Nat) (g : Nat → Option Nat) (sprW x : Nat)
    (hW : sprW < 4294967296) (hfuel : sprW < fuel) (hx : x ≤ sprW) (hrd : Readable g sprW) :
    ∃ c, rowStep fuel g sprW x = .ok c ∧ ChunkPost g sprW x c := by
  rcases rowStep_spec fuel g sprW x hW hfuel hx with h | ⟨_, c, hc, hnone⟩
  · exact h
  · obtain ⟨p, hp⟩ := hrd c hc
    rw [hp] at hnone
    cases hnone

/-- Transparent pixels up to the end of the row, at most 200 of them: opcode 201. -/
theorem rowStep_end (fuel : Nat) (g : Nat → Option Nat) (sprW x : Nat)
    (hW : sprW < 4294967296) (hfuel : sprW < fuel) (hx : x ≤ sprW) (hrd : Readable g sprW)
    (hz : ∀ i, x ≤ i → i < sprW → g i = some 0) (h200 : sprW ≤ x + 200) :
    rowStep fuel g sprW x = .ok ⟨201, [201], sprW, false⟩ := by
  obtain ⟨c, hc, hpost⟩ := rowStep_ok fuel g sprW x hW hfuel hx hrd
  rw [hc]
  rcases hpost with ⟨h1, h2, h3, h4, _, _⟩ | ⟨_, _, _, h4, h5, _⟩ |
    ⟨_, _, r, hr, _, h4, h5, _, h7, _⟩
  · cases c; simp only at h1 h2 h3 h4; subst h1 h2 h3 h4; rfl
  · omega
  · obtain ⟨p, hp, hp0⟩ := h7 (x + c.sprCmd) (le_refl _) (by omega)
    rw [hz _ (by omega) (by omega)] at hp
    exact absurd (Option.some.inj hp).symm hp0

/-- Two hundred transparent pixels and the row goes on: opcode 200, whatever the
pixel after them is. -/
theorem rowStep_skip200 (fuel : Nat) (g : Nat → Option Nat) (sprW x : Nat)
    (hW : sprW < 4294967296) (hfuel : sprW < fuel) (hrd : Readable g sprW)
    (hz : ∀ i, x ≤ i → i < x + 200 → g i = some 0) (h200 : x + 200 < sprW) :
    rowStep fuel g sprW x = .ok ⟨200, [200], x + 200, true⟩ := by
  obtain ⟨c, hc, hpost⟩ := rowStep_ok fuel g sprW x hW hfuel (by omega) hrd
  rw [hc]
  rcases hpost with ⟨_, _, _, _, h5, _⟩ | ⟨h1, h2, h3, h4, _, _⟩ |
    ⟨h1, _, r, hr, _, h4, h5, _, h7, _⟩
  · omega
  · cases c; simp only at h1 h2 h3 h4; subst h1 h2 h3 h4; rfl
  · obtain ⟨p, hp, hp0⟩ := h7 (x + c.sprCmd) (le_refl _) (by omega)
    rw [hz _ (by omega) (by omega)] at hp
    exact absurd (Option.some.inj hp).symm hp0

/-- After `s ≤ 199` transparent pixels a run of `r ≥ 1` opaque pixels that ends at a
transparent pixel or at the end of the row: opcode `s`, the byte `r % 256`, the run. -/
theorem rowStep_run (fuel : Nat) (g : Nat → Option Nat) (sprW x s r : Nat)
    (hW : sprW < 4294967296) (hfuel : sprW < fuel) (hrd : Readable g sprW)
    (hs : s < 200) (hr : 1 ≤ r) (hend : x + s + r ≤ sprW)
    (hz : ∀ i, x ≤ i → i < x + s → g i = some 0)
    (hrun : ∀ i, x + s ≤ i → i < x + s + r → ∃ p, g i = some p ∧ p ≠ 0)
    (hstop : x + s + r < sprW → g (x + s + r) = some 0) :
    rowStep fuel g sprW x =
      .ok ⟨s, s :: (r % 256) :: rowPixels g (x + s) r, x + s + r, true⟩ := by
  obtain ⟨c, hc, hpost⟩ := rowStep_ok fuel g sprW x hW hfuel (by omega) hrd
  rw [hc]
  obtain ⟨p0, hp0, hp0ne⟩ := hrun (x + s) (le_refl _) (by omega)
  rcases hpost with ⟨_, _, _, _, _, h6⟩ | ⟨_, _, _, h4, _, h6⟩ |
    ⟨h1, h2, r', hr', h3, h4, h5, h6, h7, h8⟩
  · rw [h6 _ (by omega) (by omega)] at hp0
    exact absurd (Option.some.inj hp0).symm hp0ne
  · rw [h6 _ (by omega) (by omega)] at hp0
    exact absurd (Option.some.inj hp0).symm hp0ne
  · have hcmd : c.sprCmd = s := by
      rcases Nat.lt_trichotomy c.sprCmd s with hlt | heq | hgt
      · obtain ⟨p, hp, hpne⟩ := h7 (x + c.sprCmd) (le_refl _) (by omega)
        rw [hz _ (by omega) (by omega)] at hp
        exact absurd (Option.some.inj hp).symm hpne
      · exact heq
      · rw [h6 _ (by omega) (by omega)] at hp0
        exact absurd (Option.some.inj hp0).symm hp0ne
    have hrr : r' = r := by
      rcases Nat.lt_trichotomy r' r with hlt | heq | hgt
      · obtain ⟨p, hp, hpne⟩ := hrun c.x (by omega) (by omega)
        rw [h8 (by omega)] at hp
        exact absurd (Option.some.inj hp).symm hpne
      · exact heq
      · obtain ⟨p, hp, hpne⟩ := h7 (x + s + r) (by omega) (by omega)
        rw [hstop (by omega)] at hp
        exact absurd (Option.some.inj hp).symm hpne
    subst hrr
    cases c
    simp only at hcmd h2 h3 h4
    subst hcmd h2 h3 h4
    rfl

theorem rowLoop_cons (fuel : Nat) (g : Nat → Option Nat) (sprW n x : Nat) (c : Chunk)
    (cs : List Chunk) (hstep : rowStep fuel g sprW x = .ok c) (hb : c.bLoop = true)
    (hrest : rowLoop fuel g sprW n c.x = .ok cs) :
    rowLoop fuel g sprW (n + 1) x = .ok (c :: cs) := by
  rw [rowLoop, hstep]
  simp [hb, hrest]

theorem rowLoop_last (fuel : Nat) (g : Nat → Option Nat) (sprW n x : Nat) (c : Chunk)
    (hstep : rowStep fuel g sprW x = .ok c) (hb : c.bLoop = false) :
    rowLoop fuel g sprW (n + 1) x = .ok [c] := by
  rw [rowLoop, hstep]
  simp [hb]

/-! ## Rows with a known shape -/

theorem rowReader_eq_gridPixel (data : List Nat) (w sprDx sprDy y c : Nat) :
    rowReader (readVec data) w sprDx sprDy y c = gridPixel data w (sprDx + c) (sprDy + y) := by
  simp [rowReader, readVec, pixelIndex, gridPixel, Nat.add_assoc]

theorem chunkBytes_cons (c : Chunk) (cs : List Chunk) :
    chunkBytes (c :: cs) = c.bytes ++ chunkBytes cs := by
  simp [chunkBytes]

/-- A row that is transparent from the cursor on: one opcode 200 for every full 200
pixels that do not reach the end of the row, then 201. -/
theorem rowLoop_transparent (fuel : Nat) (g : Nat → Option Nat) (sprW : Nat)
    (hW : sprW < 4294967296) (hfuel : sprW < fuel) (hrd : Readable g sprW) :
    ∀ n x, x ≤ sprW → sprW < x + n → (∀ i, x ≤ i → i < sprW → g i = some 0) →
      ∃ cs, rowLoop fuel g sprW n x = .ok cs ∧
        chunkBytes cs = List.replicate ((sprW - x - 1) / 200) 200 ++ [201] ∧
        cs.map Chunk.sprCmd = List.replicate ((sprW - x - 1) / 200) 200 ++ [201] := by
  intro n
  induction n with
  | zero => intro x h1 h2; omega
  | succ n ih =>
    intro x h1 h2 hz
    by_cases h200 : sprW ≤ x + 200
    · have hstep := rowStep_end fuel g sprW x hW hfuel h1 hrd hz h200
      have hcount : (sprW - x - 1) / 200 = 0 := by omega
      refine ⟨_, rowLoop_last fuel g sprW n x _ hstep rfl, ?_, ?_⟩ <;> simp [chunkBytes, hcount]
    · have hstep := rowStep_skip200 fuel g sprW x hW hfuel hrd
        (fun i hi1 hi2 => hz i hi1 (by omega)) (by omega)
      obtain ⟨cs, hcs, hbytes, hcmds⟩ := ih (x + 200) (by omega) (by omega)
        (fun i hi1 hi2 => hz i (by omega) hi2)
      have hcount : (sprW - x - 1) / 200 = (sprW - (x + 200) - 1) / 200 + 1 := by omega
      refine ⟨_, rowLoop_cons fuel g sprW n x _ cs hstep rfl hcs, ?_, ?_⟩
      · rw [chunkBytes_cons, hbytes, hcount, List.replicate_succ]
        simp
      · rw [List.map_cons, hcmds, hcount, List.replicate_succ]
        simp

/-- A row of `s ≤ 199` transparent pixels, then `r ≥ 1` opaque pixels, then `t ≤ 200`
transparent pixels: opcode `s`, the byte `r % 256`, the run, opcode 201. -/
theorem rowLoop_single_run (fuel m : Nat) (g : Nat → Option Nat) (sprW s r t : Nat)
    (hW : sprW < 4294967296) (hfuel : sprW < fuel) (hm : 2 ≤ m) (hrd : Readable g sprW)
    (hs : s < 200) (hr : 1 ≤ r) (ht : t ≤ 200) (hsum : s + r + t = sprW)
    (hz : ∀ i, i < s → g i = some 0)
    (hrun : ∀ i, s ≤ i → i < s + r → ∃ p, g i = some p ∧ p ≠ 0)
    (hz2 : ∀ i, s + r ≤ i → i < sprW → g i = some 0) :
    rowLoop fuel g sprW m 0 =
      .ok [⟨s, s :: (r % 256) :: rowPixels g s r, s + r, true⟩, ⟨201, [201], sprW, false⟩] := by
  obtain ⟨n, rfl⟩ : ∃ n, m = n + 2 := ⟨m - 2, by omega⟩
  have hstep1 := rowStep_run fuel g sprW 0 s r hW hfuel hrd hs hr (by omega)
    (fun i _ hi => hz i (by omega)) (fun i hi1 hi2 => hrun i (by omega) (by omega))
    (fun hlt => hz2 _ (by omega) (by omega))
  have hstep2 := rowStep_end fuel g sprW (s + r) hW hfuel (by omega) hrd
    (fun i hi1 hi2 => hz2 i hi1 hi2) (by omega)
  simp only [Nat.zero_add] at hstep1
  exact rowLoop_cons fuel g sprW (n + 1) 0 _ _ hstep1 rfl
    (rowLoop_last fuel g sprW n (s + r) _ hstep2 rfl)

theorem tileRows_of_rows (fuel : Nat) (rd : Nat → Option Nat) (w sprW sprDx sprDy : Nat)
    (f : Nat → List Chunk) :
    ∀ n y, (∀ i, y ≤ i → i < y + n → encodeRowChunks fuel rd w sprW sprDx sprDy i = .ok (f i)) →
      tileRows fuel rd w sprW sprDx sprDy n y = .ok ((List.range' y n).map f) := by
  intro n
  induction n with
  | zero => intro y _; rfl
  | succ n ih =>
    intro y hrows
    rw [tileRows, hrows y (le_refl _) (by omega),
      ih (y + 1) (fun i hi1 hi2 => hrows i (by omega) (by omega))]
    simp [List.range'_succ]

/-- A tile whose rows are known: the rows in order, then 255. -/
theorem encodeTile_of_rows (fuel : Nat) (rd : Nat → Option Nat) (w sprW sprH sprDx sprDy : Nat)
    (f : Nat → List Nat)
    (hrows : ∀ y, y < sprH → encodeRow fuel rd w sprW sprDx sprDy y = .ok (f y)) :
    encodeTile fuel rd w sprW sprH sprDx sprDy = .ok ((List.range sprH).flatMap f ++ [255]) := by
  have hch : ∀ y, y < sprH → ∃ cs, encodeRowChunks fuel rd w sprW sprDx sprDy y = .ok cs ∧
      chunkBytes cs = f y := by
    intro y hy
    have h := hrows y hy
    unfold encodeRow at h
    cases hc : encodeRowChunks fuel rd w sprW sprDx sprDy y with
    | ok cs =>
      rw [hc] at h
      exact ⟨cs, rfl, Outcome.ok.inj h⟩
    | outOfBounds => rw [hc] at h; cases h
    | outOfFuel => rw [hc] at h; cases h
  let F : Nat → List Chunk := fun y =>
    match encodeRowChunks fuel rd w sprW sprDx sprDy y with
    | .ok cs => cs
    | _ => []
  have hF : ∀ y, y < sprH → encodeRowChunks fuel rd w sprW sprDx sprDy y = .ok (F y) ∧
      chunkBytes (F y) = f y := by
    intro y hy
    obtain ⟨cs, hcs, hb⟩ := hch y hy
    have : F y = cs := by simp only [F, hcs]
    rw [this]
    exact ⟨hcs, hb⟩
  have ht := tileRows_of_rows fuel rd w sprW sprDx sprDy F sprH 0
    (fun i _ hi => (hF i (by omega)).1)
  rw [encodeTile, ht]
  simp only [List.map_map]
  congr 2
  rw [List.flatMap_def, List.range_eq_range']
  congr 1
  apply List.map_congr_left
  intro y hy
  have hy' : y < sprH := by
    have := (List.mem_range'_1.1 hy).2
    omega
  exact (hF y hy').2

/-! ## What a finished row and a finished run tell -/

theorem ChunkPost.covered {g : Nat → Option Nat} {sprW x : Nat} {c : Chunk}
    (h : ChunkPost g sprW x c) : ∀ i, x ≤ i → i < c.x → ∃ p, g i = some p := by
  intro i hi1 hi2
  rcases h with ⟨_, _, _, h4, _, h6⟩ | ⟨_, _, _, _, _, h6⟩ | ⟨_, _, r, _, _, _, _, h6, h7, _⟩
  · exact ⟨0, h6 i hi1 (by omega)⟩
  · exact ⟨0, h6 i hi1 hi2⟩
  · by_cases hlt : i < x + c.sprCmd
    · exact ⟨0, h6 i hi1 hlt⟩
    · obtain ⟨p, hp, _⟩ := h7 i (by omega) hi2
      exact ⟨p, hp⟩

theorem ChunkPost.last {g : Nat → Option Nat} {sprW x : Nat} {c : Chunk}
    (h : ChunkPost g sprW x c) (hb : c.bLoop = false) :
    c.sprCmd = 201 ∧ c.bytes = [201] ∧ c.x = sprW := by
  rcases h with ⟨h1, _, h3, h4, _, _⟩ | ⟨_, h2, _⟩ | ⟨_, h2, _⟩
  · exact ⟨h1, h3, h4⟩
  · rw [h2] at hb; cases hb
  · rw [h2] at hb; cases hb

theorem ChunkPost.notLast {g : Nat → Option Nat} {sprW x : Nat} {c : Chunk}
    (h : ChunkPost g sprW x c) (hb : c.bLoop = true) :
    c.sprCmd ≤ 200 ∧ x < c.x ∧ c.x ≤ sprW ∧ c.bytes ≠ [] := by
  rcases h with ⟨_, h2, _⟩ | ⟨h1, _, h3, h4, h5, _⟩ | ⟨h1, _, r, hr, h3, h4, h5, _⟩
  · rw [h2] at hb; cases hb
  · exact ⟨by omega, by omega, by omega, by simp [h3]⟩
  · exact ⟨by omega, by omega, h5, by simp [h3]⟩

/-- A finished row has read every pixel from the cursor to the end of the row. -/
theorem RowPost.covers {g : Nat → Option Nat} {sprW x : Nat} {cs : List Chunk}
    (h : RowPost g sprW x cs) : ∀ i, x ≤ i → i < sprW → ∃ p, g i = some p := by
  induction h with
  | last hpost hb =>
    intro i hi1 hi2
    exact hpost.covered i hi1 (by rw [(hpost.last hb).2.2]; exact hi2)
  | @cons x' c' cs' hpost _ _ ih =>
    intro i hi1 hi2
    by_cases hlt : i < c'.x
    · exact hpost.covered i hi1 hlt
    · exact ih i (by omega) hi2

/-- In a finished row opcode 201 is chosen once, by the last iteration, and it is the
last byte of the row. -/
theorem RowPost.opcodes {g : Nat → Option Nat} {sprW x : Nat} {cs : List Chunk}
    (h : RowPost g sprW x cs) :
    (cs.map Chunk.sprCmd).count 201 = 1 ∧ (cs.map Chunk.sprCmd).getLast? = some 201 ∧
      (chunkBytes cs).getLast? = some 201 ∧ ∀ c ∈ cs, c.bytes.head? = some c.sprCmd := by
  induction h with
  | last hpost hb =>
    obtain ⟨h1, h2, _⟩ := hpost.last hb
    refine ⟨by simp [h1], by simp [h1], by simp [chunkBytes, h2], ?_⟩
    intro c hc
    rw [List.mem_singleton] at hc
    subst hc
    exact hpost.basic.1
  | @cons x' c' cs' hpost hb hrest ih =>
    obtain ⟨h1, h2, h3, h4⟩ := ih
    obtain ⟨hle, _, _, _⟩ := hpost.notLast hb
    have hne : c'.sprCmd ≠ 201 := by omega
    have hcs' : cs' ≠ [] := by
      cases hrest <;> simp
    refine ⟨?_, ?_, ?_, ?_⟩
    · rw [List.map_cons, List.count_cons_of_ne hne.symm]
      exact h1
    · obtain ⟨d, ds, hds⟩ := List.exists_cons_of_ne_nil hcs'
      rw [hds] at h2 ⊢
      simpa [List.getLast?_cons_cons] using h2
    · have hb' : chunkBytes cs' ≠ [] := by
        intro hnil
        rw [hnil] at h3
        simp at h3
      rw [chunkBytes_cons, List.getLast?_append_of_ne_nil _ hb']
      exact h3
    · intro c hc
      rcases List.mem_cons.1 hc with rfl | hc
      · exact hpost.basic.1
      · exact h4 c hc

theorem RowsPost.rowsReadable {fuel : Nat} {rd : Nat → Option Nat} {w sprW sprDx sprDy : Nat} :
    ∀ (rows : List (List Chunk)) (y : Nat), RowsPost fuel rd w sprW sprDx sprDy y rows →
      ∀ i, y ≤ i → i < y + rows.length → Readable (rowReader rd w sprDx sprDy i) sprW := by
  intro rows
  induction rows with
  | nil => intro y _ i h1 h2; simp at h2; omega
  | cons cs rest ih =>
    intro y hpost i h1 h2
    obtain ⟨_, hrow, hrest⟩ := hpost
    by_cases hi : i = y
    · subst hi
      intro c hc
      exact hrow.covers c (Nat.zero_le _) hc
    · exact ih (y + 1) hrest i (by omega) (by simp at h2; omega)

/-- A tile that encodes without a fault has all its pixels inside the buffer. -/
theorem encodeTile_ok_readable (fuel : Nat) (rd : Nat → Option Nat)
    (w sprW sprH sprDx sprDy : Nat) (hW : sprW < 4294967296) (hfuel : sprW < fuel)
    (b : List Nat) (h : encodeTile fuel rd w sprW sprH sprDx sprDy = .ok b) :
    TileReadable rd w sprW sprH sprDx sprDy := by
  rcases encodeTile_spec fuel rd w sprW sprH sprDx sprDy hW hfuel with
    ⟨rows, _, hlen, hpost, _⟩ | ⟨hbad, _⟩
  · intro y hy
    exact RowsPost.rowsReadable rows 0 hpost y (Nat.zero_le _) (by omega)
  · rw [hbad] at h; cases h

theorem colLoop_ok_inv (fuel : Nat) (rd : Nat → Option Nat) (w sprW sprH sprDy : Nat)
    (hW : 0 < sprW) (hwrap : tilesAcross w sprW * sprW < 4294967296) :
    ∀ n i s s', i ≤ tilesAcross w sprW →
      colLoop fuel rd w sprW sprH sprDy n (i * sprW) s = .ok s' →
      ∀ k, i ≤ k → k < tilesAcross w sprW →
        ∃ b, encodeTile fuel rd w sprW sprH (k * sprW) sprDy = .ok b := by
  intro n
  induction n with
  | zero => intro i s s' _ h; simp [colLoop] at h
  | succ n ih =>
    intro i s s' hi h k hk1 hk2
    unfold colLoop at h
    have hlt : i * sprW < w := (lt_tilesAcross_iff w sprW i hW).1 (by omega)
    have hnext : (i * sprW + sprW) % 4294967296 = (i + 1) * sprW := by
      have hle : (i + 1) * sprW ≤ tilesAcross w sprW * sprW :=
        Nat.mul_le_mul_right _ (by omega)
      rw [Nat.add_mul, Nat.one_mul] at hle ⊢
      apply Nat.mod_eq_of_lt
      omega
    simp only [hlt, if_true, hnext] at h
    cases hb : encodeTile fuel rd w sprW sprH (i * sprW) sprDy with
    | ok b =>
      rw [hb] at h
      by_cases hki : k = i
      · subst hki; exact ⟨b, hb⟩
      · exact ih (i + 1) _ s' (by omega) h k (by omega) hk2
    | outOfBounds => rw [hb] at h; cases h
    | outOfFuel => rw [hb] at h; cases h

theorem tileLoop_ok_inv (fuel : Nat) (rd : Nat → Option Nat) (w h sprW sprH : Nat)
    (hW : 0 < sprW) (hH : 0 < sprH) (hwrap : tilesAcross w sprW * sprW < 4294967296)
    (hwrapH : tilesAcross h sprH * sprH < 4294967296) :
    ∀ n j s s', j ≤ tilesAcross h sprH →
      tileLoop fuel rd w h sprW sprH n (j * sprH) s = .ok s' →
      ∀ k i, j ≤ k → k < tilesAcross h sprH → i < tilesAcross w sprW →
        ∃ b, encodeTile fuel rd w sprW sprH (i * sprW) (k * sprH) = .ok b := by
  intro n
  induction n with
  | zero => intro j s s' _ hh; simp [tileLoop] at hh
  | succ n ih =>
    intro j s s' hj hh k i hk1 hk2 hi
    unfold tileLoop at hh
    have hlt : j * sprH < h := (lt_tilesAcross_iff h sprH j hH).1 (by omega)
    have hnext : (j * sprH + sprH) % 4294967296 = (j + 1) * sprH := by
      have hle : (j + 1) * sprH ≤ tilesAcross h sprH * sprH :=
        Nat.mul_le_mul_right _ (by omega)
      rw [Nat.add_mul, Nat.one_mul] at hle ⊢
      apply Nat.mod_eq_of_lt
      omega
    simp only [hlt, if_true, hnext] at hh
    cases hc : colLoop fuel rd w sprW sprH (j * sprH) fuel 0 s with
    | ok s1 =>
      rw [hc] at hh
      by_cases hkj : k = j
      · subst hkj
        have hc' := hc
        rw [← Nat.zero_mul sprW] at hc'
        exact colLoop_ok_inv fuel rd w sprW sprH (k * sprH) hW hwrap fuel 0 s s1
          (Nat.zero_le _) hc' i (Nat.zero_le _) hi
      · exact ih (j + 1) s1 s' (by omega) hh k i (by omega) hk2 hi
    | outOfBounds => rw [hc] at hh; cases hh
    | outOfFuel => rw [hc] at hh; cases hh

/-- A run that returns a result encoded every tile the loops visit. -/
theorem compressSprite_ok_inv (fuel : Nat) (rd : Nat → Option Nat) (w h sprW sprH : Nat)
    (hW : 0 < sprW) (hH : 0 < sprH) (hwrap : tilesAcross w sprW * sprW < 4294967296)
    (hwrapH : tilesAcross h sprH * sprH < 4294967296) (res : SprState)
    (hres : compressSprite fuel rd w h sprW sprH = .ok res) :
    ∀ i j, i < tilesAcross w sprW → j < tilesAcross h sprH →
      ∃ b, encodeTile fuel rd w sprW sprH (i * sprW) (j * sprH) = .ok b := by
  intro i j hi hj
  unfold compressSprite at hres
  rw [← Nat.zero_mul sprH] at hres
  exact tileLoop_ok_inv fuel rd w h sprW sprH hW hH hwrap hwrapH fuel 0 _ res (Nat.zero_le _)
    hres j i (Nat.zero_le _) hj hi

theorem colLoop_ne_outOfFuel (fuel : Nat) (rd : Nat → Option Nat) (w sprW sprH sprDy : Nat)
    (hW : 0 < sprW) (hW32 : sprW < 4294967296) (hfuel : sprW < fuel)
    (hwrap : tilesAcross w sprW * sprW < 4294967296) :
    ∀ n i s, i ≤ tilesAcross w sprW → tilesAcross w sprW < i + n →
      colLoop fuel rd w sprW sprH sprDy n (i * sprW) s ≠ .outOfFuel := by
  intro n
  induction n with
  | zero => intro i s h1 h2; omega
  | succ n ih =>
    intro i s h1 h2
    unfold colLoop
    by_cases hlt : i * sprW < w
    · have hi : i < tilesAcross w sprW := (lt_tilesAcross_iff w sprW i hW).2 hlt
      have hnext : (i * sprW + sprW) % 4294967296 = (i + 1) * sprW := by
        have hle : (i + 1) * sprW ≤ tilesAcross w sprW * sprW := Nat.mul_le_mul_right _ hi
        rw [Nat.add_mul, Nat.one_mul] at hle ⊢
        apply Nat.mod_eq_of_lt
        omega
      simp only [hlt, if_true, hnext]
      cases hb : encodeTile fuel rd w sprW sprH (i * sprW) sprDy with
      | ok b => exact ih (i + 1) _ (by omega) (by omega)
      | outOfBounds => simp
      | outOfFuel => exact absurd hb (encodeTile_ne_outOfFuel fuel rd w sprW sprH _ _ hW32 hfuel)
    · simp [hlt]

theorem tileLoop_ne_outOfFuel (fuel : Nat) (rd : Nat → Option Nat) (w h sprW sprH : Nat)
    (hW : 0 < sprW) (hH : 0 < sprH) (hW32 : sprW < 4294967296) (hfuel : sprW < fuel)
    (hfuelW : tilesAcross w sprW < fuel)
    (hwrap : tilesAcross w sprW * sprW < 4294967296)
    (hwrapH : tilesAcross h sprH * sprH < 4294967296) :
    ∀ n j s, j ≤ tilesAcross h sprH → tilesAcross h sprH < j + n →
      tileLoop fuel rd w h sprW sprH n (j * sprH) s ≠ .outOfFuel := by
  intro n
  induction n with
  | zero => intro j s h1 h2; omega
  | succ n ih =>
    intro j s h1 h2
    unfold tileLoop
    by_cases hlt : j * sprH < h
    · have hj : j < tilesAcross h sprH := (lt_tilesAcross_iff h sprH j hH).2 hlt
      have hnext : (j * sprH + sprH) % 4294967296 = (j + 1) * sprH := by
        have hle : (j + 1) * sprH ≤ tilesAcross h sprH * sprH := Nat.mul_le_mul_right _ hj
        rw [Nat.add_mul, Nat.one_mul] at hle ⊢
        apply Nat.mod_eq_of_lt
        omega
      simp only [hlt, if_true, hnext]
      cases hc : colLoop fuel rd w sprW sprH (j * sprH) fuel 0 s with
      | ok s1 => exact ih (j + 1) _ (by omega) (by omega)
      | outOfBounds => simp
      | outOfFuel =>
        have := colLoop_ne_outOfFuel fuel rd w sprW sprH (j * sprH) hW hW32 hfuel hwrap fuel 0 s
          (Nat.zero_le _) (by omega)
        rw [Nat.zero_mul] at this
        exact absurd hc this
    · simp [hlt]

/-! ## Lemmas behind the statements about the whole sheet -/

theorem sheetBytes_succ (fuel : Nat) (rd : Nat → Option Nat) (w sprW sprH nx ny : Nat) :
    sheetBytes fuel rd w sprW sprH nx (ny + 1) =
      sheetBytes fuel rd w sprW sprH nx ny ++ tileRowBytes fuel rd w sprW sprH nx (ny * sprH) := by
  simp [sheetBytes, List.range_succ, List.flatMap_append]

/-- Tile-scan order: entry `k` of the sheet is the tile in column `k % nx` of tile row
`k / nx`. -/
theorem sheetBytes_getElem? (fuel : Nat) (rd : Nat → Option Nat) (w sprW sprH nx : Nat) :
    ∀ ny k, k < nx * ny →
      (sheetBytes fuel rd w sprW sprH nx ny)[k]? =
        some (tileBytes fuel rd w sprW sprH (k % nx * sprW) (k / nx * sprH)) := by
  intro ny
  induction ny with
  | zero => intro k hk; simp at hk
  | succ n ih =>
    intro k hk
    rw [sheetBytes_succ]
    have hlen := sheetBytes_length fuel rd w sprW sprH nx n
    have hnx : 0 < nx := by
      rcases Nat.eq_zero_or_pos nx with h0 | h0
      · rw [h0, Nat.zero_mul] at hk; omega
      · exact h0
    by_cases hlt : k < nx * n
    · rw [List.getElem?_append_left (by rw [hlen]; exact hlt)]
      exact ih k hlt
    · rw [List.getElem?_append_right (by rw [hlen]; omega), hlen]
      have hr : k - nx * n < nx := by rw [Nat.mul_succ] at hk; omega
      have hk' : k = k - nx * n + nx * n := by omega
      have hmod : k % nx = k - nx * n := by
        conv_lhs => rw [hk']
        rw [Nat.add_mul_mod_self_left]
        exact Nat.mod_eq_of_lt hr
      have hdiv : k / nx = n := by
        conv_lhs => rw [hk']
        rw [Nat.add_mul_div_left _ _ hnx, Nat.div_eq_of_lt hr, Nat.zero_add]
      rw [hmod, hdiv]
      simp [tileRowBytes, hr]

theorem inTile_pixelIndex (w sprW sprH sprDx sprDy y c : Nat) (hy : y < sprH) (hc : c < sprW)
    (hlt : (sprDy + y) * w + sprDx + c < 4294967296) :
    inTile w sprW sprH sprDx sprDy (pixelIndex w sprDx sprDy y c) = true := by
  simp only [inTile, List.any_eq_true, List.mem_range, beq_iff_eq]
  exact ⟨y, hy, c, hc, (Nat.mod_eq_of_lt hlt).symm⟩

/-- When the addresses of a tile are below 2^32, the encoder reads the tile at its
own addresses: making every other address unreadable changes none of its reads. -/
theorem restrictToTile_agree (rd : Nat → Option Nat) (w sprW sprH sprDx sprDy : Nat)
    (hlt : ∀ y, y < sprH → ∀ c, c < sprW → (sprDy + y) * w + sprDx + c < 4294967296) :
    AgreeOnTile (restrictToTile rd w sprW sprH sprDx sprDy) rd w sprW sprH sprDx sprDy := by
  intro y hy c hc
  simp [restrictToTile, inTile_pixelIndex w sprW sprH sprDx sprDy y c hy hc (hlt y hy c hc)]

theorem RowsPost.getElem? {fuel : Nat} {rd : Nat → Option Nat} {w sprW sprDx sprDy : Nat} :
    ∀ (rows : List (List Chunk)) (y0 : Nat), RowsPost fuel rd w sprW sprDx sprDy y0 rows →
      ∀ y cs, rows[y]? = some cs →
        encodeRowChunks fuel rd w sprW sprDx sprDy (y0 + y) = .ok cs ∧
        RowPost (rowReader rd w sprDx sprDy (y0 + y)) sprW 0 cs := by
  intro rows
  induction rows with
  | nil => intro y0 _ y cs h; simp at h
  | cons r rest ih =>
    intro y0 hpost y cs h
    obtain ⟨h1, h2, h3⟩ := hpost
    cases y with
    | zero =>
      simp only [List.getElem?_cons_zero, Option.some.injEq] at h
      subst h
      exact ⟨h1, h2⟩
    | succ y =>
      simp only [List.getElem?_cons_succ] at h
      have := ih (y0 + 1) h3 y cs h
      have heq : y0 + 1 + y = y0 + (y + 1) := by omega
      rw [heq] at this
      exact this

theorem encodeRow_of_chunks {fuel : Nat} {rd : Nat → Option Nat} {w sprW sprDx sprDy y : Nat}
    {cs : List Chunk} (h : encodeRowChunks fuel rd w sprW sprDx sprDy y = .ok cs) :
    encodeRow fuel rd w sprW sprDx sprDy y = .ok (chunkBytes cs) := by
  simp [encodeRow, h]

theorem flatten_take_length_of_const (n : Nat) (L : List (List Nat))
    (hL : ∀ e ∈ L, e.length = n) :
    ∀ k, k ≤ L.length → ((L.take k).flatten).length = n * k := by
  induction L with
  | nil => intro k hk; simp at hk; subst hk; simp
  | cons e es ih =>
    intro k hk
    cases k with
    | zero => simp
    | succ k =>
      rw [List.take_succ_cons, List.flatten_cons, List.length_append,
        ih (fun x hx => hL x (List.mem_cons_of_mem _ hx)) k (by simpa using hk),
        hL e (List.mem_cons_self _ _), Nat.mul_succ]
      omega

theorem gridPixel_readable (data : List Nat) (w sprW sprDx sprDy y : Nat) (px : Nat → Nat)
    (hpx : ∀ c, c < sprW → gridPixel data w (sprDx + c) (sprDy + y) = some (px c)) :
    Readable (rowReader (readVec data) w sprDx sprDy y) sprW := by
  intro c hc
  exact ⟨px c, by rw [rowReader_eq_gridPixel]; exact hpx c hc⟩

theorem rowPixels_eq_map (data : List Nat) (w sprDx sprDy y a n : Nat) (px : Nat → Nat)
    (hpx : ∀ c, a ≤ c → c < a + n → gridPixel data w (sprDx + c) (sprDy + y) = some (px c)) :
    rowPixels (rowReader (readVec data) w sprDx sprDy y) a n = (List.range' a n).map px := by
  unfold rowPixels
  apply List.map_congr_left
  intro c hc
  have hc' := List.mem_range'_1.1 hc
  rw [rowReader_eq_gridPixel, hpx c hc'.1 hc'.2]
  rfl

/-- The row of a tile made of `s ≤ 199` transparent, `r ≥ 1` opaque and `t ≤ 200`
transparent pixels. -/
theorem encodeRow_single_run (fuel : Nat) (data : List Nat) (w sprW sprDx sprDy y s r t : Nat)
    (px : Nat → Nat) (hW : sprW < 4294967296) (hfuel : sprW < fuel)
    (hs : s < 200) (hr : 1 ≤ r) (ht : t ≤ 200) (hsum : s + r + t = sprW)
    (hz : ∀ c, c < s → gridPixel data w (sprDx + c) (sprDy + y) = some 0)
    (hrun : ∀ c, s ≤ c → c < s + r →
      gridPixel data w (sprDx + c) (sprDy + y) = some (px c) ∧ px c ≠ 0)
    (hz2 : ∀ c, s + r ≤ c → c < sprW → gridPixel data w (sprDx + c) (sprDy + y) = some 0) :
    encodeRow fuel (readVec data) w sprW sprDx sprDy y =
      .ok (s :: (r % 256) :: ((List.range' s r).map px ++ [201])) := by
  have hrd : Readable (rowReader (readVec data) w sprDx sprDy y) sprW := by
    intro c hc
    rw [rowReader_eq_gridPixel]
    by_cases h1 : c < s
    · exact ⟨0, hz c h1⟩
    · by_cases h2 : c < s + r
      · exact ⟨px c, (hrun c (by omega) h2).1⟩
      · exact ⟨0, hz2 c (by omega) hc⟩
  have hloop := rowLoop_single_run fuel fuel (rowReader (readVec data) w sprDx sprDy y) sprW s r t
    hW hfuel (by omega) hrd hs hr ht hsum
    (fun i hi => by rw [rowReader_eq_gridPixel]; exact hz i hi)
    (fun i hi1 hi2 => ⟨px i, by rw [rowReader_eq_gridPixel]; exact (hrun i hi1 hi2).1,
      (hrun i hi1 hi2).2⟩)
    (fun i hi1 hi2 => by rw [rowReader_eq_gridPixel]; exact hz2 i hi1 hi2)
  rw [encodeRow_of_chunks hloop,
    rowPixels_eq_map data w sprDx sprDy y s r px (fun c h1 h2 => (hrun c h1 h2).1)]
  simp [chunkBytes]

/-- The row of a tile whose pixels are all transparent. -/
theorem encodeRow_transparent (fuel : Nat) (data : List Nat) (w sprW sprDx sprDy y : Nat)
    (hW : sprW < 4294967296) (hfuel : sprW < fuel)
    (hz : ∀ c, c < sprW → gridPixel data w (sprDx + c) (sprDy + y) = some 0) :
    encodeRow fuel (readVec data) w sprW sprDx sprDy y =
      .ok (List.replicate ((sprW - 1) / 200) 200 ++ [201]) := by
  have hrd := gridPixel_readable data w sprW sprDx sprDy y (fun _ => 0) hz
  obtain ⟨cs, hcs, hbytes, _⟩ := rowLoop_transparent fuel
    (rowReader (readVec data) w sprDx sprDy y) sprW hW hfuel hrd fuel 0 (Nat.zero_le _)
    (by omega) (fun i _ hi => by rw [rowReader_eq_gridPixel]; exact hz i hi)
  rw [encodeRow_of_chunks hcs, hbytes]
  simp

/-- A tile whose pixels are all opaque, at most 255 wide. -/
theorem encodeTile_solid (fuel : Nat) (data : List Nat) (w sprW sprH sprDx sprDy : Nat)
    (px : Nat → Nat → Nat) (h1 : 1 ≤ sprW) (h255 : sprW ≤ 255) (hfuel : sprW < fuel)
    (hpx : ∀ y, y < sprH → ∀ c, c < sprW →
      gridPixel data w (sprDx + c) (sprDy + y) = some (px y c) ∧ px y c ≠ 0) :
    (∀ y, y < sprH → encodeRow fuel (readVec data) w sprW sprDx sprDy y =
        .ok (0 :: sprW :: ((List.range sprW).map (px y) ++ [201]))) ∧
    encodeTile fuel (readVec data) w sprW sprH sprDx sprDy =
      .ok ((List.range sprH).flatMap
        (fun y => 0 :: sprW :: ((List.range sprW).map (px y) ++ [201])) ++ [255]) := by
  have hrows : ∀ y, y < sprH → encodeRow fuel (readVec data) w sprW sprDx sprDy y =
      .ok (0 :: sprW :: ((List.range sprW).map (px y) ++ [201])) := by
    intro y hy
    have h := encodeRow_single_run fuel data w sprW sprDx sprDy y 0 sprW 0 (px y) (by omega)
      hfuel (by omega) h1 (by omega) (by omega) (fun c hc => by omega)
      (fun c _ hc => hpx y hy c (by omega)) (fun c hc1 hc2 => by omega)
    rw [h, Nat.mod_eq_of_lt (by omega), List.range_eq_range']
  exact ⟨hrows, encodeTile_of_rows fuel (readVec data) w sprW sprH sprDx sprDy _ hrows⟩

theorem gridPixel_replicate (n a w x y : Nat) (h : (y * w + x) % 4294967296 < n) :
    gridPixel (List.replicate n a) w x y = some a := by
  simp [gridPixel, List.getElem?_replicate, h]

/-- A strip of `n` opaque pixels cut into `1 × 1` tiles: five bytes a tile, so the
offset of tile `k` is `5 * k` reduced to 32 bits. -/
theorem solidStrip (n fuel : Nat) (hn : n < 4294967296) (hfuel : n + 2 < fuel) :
    ∃ res, CompressSpriteData fuel (List.replicate n 1) n 1 1 1 = .ok res ∧
      ∀ k, k < n → res.sprOffsets[k]? = some ((5 * k) % 4294967296) ∧
        (((sheetBytes fuel (readVec (List.replicate n 1)) n 1 1 n 1).take k).flatten).length
          = 5 * k := by
  obtain ⟨_, hrun⟩ := compress_grid fuel (List.replicate n 1) n 1 1 1 (by omega) (by omega)
    (Nat.mod_one n) (Nat.mod_one 1) (by simp) hn (by omega) (by omega)
  rw [Nat.div_one, Nat.div_one] at hrun
  refine ⟨_, hrun, ?_⟩
  intro k hk
  have hlen := sheetBytes_length fuel (readVec (List.replicate n 1)) n 1 1 n 1
  have hconst : ∀ e ∈ sheetBytes fuel (readVec (List.replicate n 1)) n 1 1 n 1,
      e.length = 5 := by
    intro e he
    obtain ⟨m, hm⟩ := List.mem_iff_getElem?.1 he
    have hmlt : m < n * 1 := by
      rw [← hlen]
      exact (List.getElem?_eq_some_iff.1 hm).1
    rw [sheetBytes_getElem? fuel _ n 1 1 n 1 m hmlt] at hm
    have hdiv : m / n = 0 := Nat.div_eq_of_lt (by omega)
    have hmod : m % n = m := Nat.mod_eq_of_lt (by omega)
    have htile := (encodeTile_solid fuel (List.replicate n 1) n 1 1 (m % n * 1) (m / n * 1)
      (fun _ _ => 1) (le_refl _) (by omega) (by omega) (fun y hy c hc => by
        refine ⟨gridPixel_replicate n 1 n _ _ ?_, Nat.one_ne_zero⟩
        have hy0 : y = 0 := by omega
        have hc0 : c = 0 := by omega
        subst hy0 hc0
        rw [hdiv, hmod]
        simp only [Nat.zero_mul, Nat.add_zero, Nat.mul_one, Nat.zero_add]
        rw [Nat.mod_eq_of_lt (by omega)]
        omega)).2
    rw [tileBytes_of_ok htile] at hm
    rw [← Option.some.inj hm]
    rfl
  have htake := flatten_take_length_of_const 5 _ hconst k (by rw [hlen]; omega)
  refine ⟨?_, htake⟩
  rw [offsetsOf_getElem? _ 0 k (by rw [hlen]; omega), htake, Nat.zero_add]

theorem transparent_tile_encoding_aux :
    encodeRow 201 (readVec (List.replicate 200 0)) 200 200 0 0 0 = .ok [201] ∧
    encodeTile 201 (readVec (List.replicate 200 0)) 200 200 1 0 0 = .ok [201, 255] := by
  have hz : ∀ y, y < 1 → ∀ c, c < 200 →
      gridPixel (List.replicate 200 0) 200 (0 + c) (0 + y) = some 0 := by
    intro y hy c hc
    apply gridPixel_replicate
    have hy0 : y = 0 := by omega
    subst hy0
    omega
  have hrow := encodeRow_transparent 201 (List.replicate 200 0) 200 200 0 0 0 (by norm_num)
    (by norm_num) (hz 0 (by norm_num))
  have hrows : ∀ y, y < 1 → encodeRow 201 (readVec (List.replicate 200 0)) 200 200 0 0 y =
      .ok [201] := by
    intro y hy
    have hy0 : y = 0 := by omega
    subst hy0
    exact hrow
  exact ⟨hrow, encodeTile_of_rows 201 _ 200 200 1 0 0 (fun _ => [201]) hrows⟩

/-- With a zero width and the height 4294967295 the counter of the outer tiling loop,
stepping by 2, stays even and so below the height for ever. -/
theorem tileLoop_zero_width (fuel : Nat) (hfuel : 0 < fuel) :
    ∀ n sprDy s, sprDy % 2 = 0 → sprDy < 4294967296 →
      tileLoop fuel (readVec []) 0 4294967295 1 2 n sprDy s = .outOfFuel := by
  obtain ⟨m, rfl⟩ : ∃ m, fuel = m + 1 := ⟨fuel - 1, by omega⟩
  intro n
  induction n with
  | zero => intro sprDy s _ _; rfl
  | succ n ih =>
    intro sprDy s h1 h2
    have hlt : sprDy < 4294967295 := by omega
    have hcol : colLoop (m + 1) (readVec []) 0 1 2 sprDy (m + 1) 0 s = .ok s := by
      simp [colLoop]
    rw [tileLoop]
    simp only [hlt, if_true, hcol]
    exact ih _ s (by omega) (by omega)

theorem compress_zero_width (fuel : Nat) :
    CompressSpriteData fuel [] 0 4294967295 1 2 = .outOfFuel := by
  rcases Nat.eq_zero_or_pos fuel with h0 | hpos
  · subst h0; rfl
  · exact tileLoop_zero_width fuel hpos fuel 0 _ (by norm_num) (by norm_num)

theorem compress_ne_outOfFuel (fuel : Nat) (data : List Nat) (w h sprW sprH : Nat)
    (hW : 0 < sprW) (hH : 0 < sprH) (hW32 : sprW < 4294967296)
    (hwrap : tilesAcross w sprW * sprW < 4294967296)
    (hwrapH : tilesAcross h sprH * sprH < 4294967296)
    (hfuel : w + h + sprW < fuel) :
    CompressSpriteData fuel data w h sprW sprH ≠ .outOfFuel := by
  have hle1 := tilesAcross_le w sprW hW
  have hle2 := tilesAcross_le h sprH hH
  have := tileLoop_ne_outOfFuel fuel (readVec data) w h sprW sprH hW hH hW32 (by omega)
    (by omega) hwrap hwrapH fuel 0 ⟨[], [], 0⟩ (Nat.zero_le _) (by omega)
  rw [Nat.zero_mul] at this
  exact this

theorem sheet_index (nx i j : Nat) (hi : i < nx) :
    (j * nx + i) % nx = i ∧ (j * nx + i) / nx = j := by
  constructor
  · rw [Nat.add_comm, Nat.add_mul_mod_self_right]
    exact Nat.mod_eq_of_lt hi
  · rw [Nat.add_comm, Nat.add_mul_div_right _ _ (by omega), Nat.div_eq_of_lt hi, Nat.zero_add]

/-! ## Pixels of a row-major grid and the bytes read for them -/

theorem gridPixel_eq_pixelAt (data : List Nat) (w x y : Nat) (h : y * w + x < 4294967296) :
    gridPixel data w x y = pixelAt data w x y := by
  rw [gridPixel, pixelAt, Nat.mod_eq_of_lt h]

/-- In a buffer of at most 2^32 bytes the encoder reads a pixel at its own address. -/
theorem pixelAt_read (data : List Nat) (w x y p : Nat) (hsize : data.length ≤ 4294967296)
    (h : pixelAt data w x y = some p) : gridPixel data w x y = some p := by
  have hlt : y * w + x < data.length := by
    unfold pixelAt at h
    exact (List.getElem?_eq_some_iff.1 h).1
  rw [gridPixel_eq_pixelAt data w x y (by omega)]
  exact h

theorem pixelAt_replicate (n a w x y : Nat) (h : y * w + x < n) :
    pixelAt (List.replicate n a) w x y = some a := by
  simp [pixelAt, List.getElem?_replicate, h]

/-- The pixels of a tile of a grid of at most 2^32 bytes are read at their own
addresses. -/
theorem gridTile_read_eq (data : List Nat) (w h sprW sprH i j y c : Nat)
    (hW : 0 < sprW) (hH : 0 < sprH) (hw : w % sprW = 0) (hh : h % sprH = 0)
    (hsize : w * h ≤ 4294967296)
    (hi : i < w / sprW) (hj : j < h / sprH) (hy : y < sprH) (hc : c < sprW) :
    gridPixel data w (i * sprW + c) (j * sprH + y) =
      pixelAt data w (i * sprW + c) (j * sprH + y) := by
  have hlt := gridTile_index_lt w h sprW sprH i j y c hW hH hw hh hi hj hy hc
  exact gridPixel_eq_pixelAt data w _ _ (by omega)

/-- A tile whose bytes are all read as 0. -/
theorem encodeTile_transparent (fuel : Nat) (data : List Nat) (w sprW sprH sprDx sprDy : Nat)
    (hW32 : sprW < 4294967296) (hfuel : sprW < fuel)
    (hpx : ∀ y, y < sprH → ∀ c, c < sprW →
      gridPixel data w (sprDx + c) (sprDy + y) = some 0) :
    (∀ y, y < sprH → encodeRow fuel (readVec data) w sprW sprDx sprDy y =
        .ok (List.replicate ((sprW - 1) / 200) 200 ++ [201])) ∧
    encodeTile fuel (readVec data) w sprW sprH sprDx sprDy =
      .ok ((List.range sprH).flatMap
        (fun _ => List.replicate ((sprW - 1) / 200) 200 ++ [201]) ++ [255]) := by
  have hrows : ∀ y, y < sprH → encodeRow fuel (readVec data) w sprW sprDx sprDy y =
      .ok (List.replicate ((sprW - 1) / 200) 200 ++ [201]) :=
    fun y hy => encodeRow_transparent fuel data w sprW sprDx sprDy y hW32 hfuel (hpx y hy)
  exact ⟨hrows, encodeTile_of_rows fuel (readVec data) w sprW sprH sprDx sprDy _ hrows⟩

/-! ## A grid of more than 2^32 bytes -/

theorem wrapGrid_length (lo hi : Nat) : (wrapGrid lo hi).length = 65536 * 65538 := by
  rw [wrapGrid, List.length_append, List.length_replicate, List.length_replicate]

/-- The pixels of row 65536 of `wrapGrid lo hi` are `hi`. -/
theorem wrapGrid_pixelAt (lo hi c : Nat) (hc : c < 65536) :
    pixelAt (wrapGrid lo hi) 65536 c 65536 = some hi := by
  rw [pixelAt, wrapGrid, List.getElem?_append_right (by rw [List.length_replicate]; omega),
    List.length_replicate, List.getElem?_replicate]
  simp
  omega

/-- The bytes read for the pixels of row 65536 of `wrapGrid lo hi` are those of row 0,
which are `lo`. -/
theorem wrapGrid_read (lo hi c : Nat) (hc : c < 65536) :
    gridPixel (wrapGrid lo hi) 65536 c 65536 = some lo := by
  have hidx : (65536 * 65536 + c) % 4294967296 = c := by omega
  rw [gridPixel, hidx, wrapGrid, List.getElem?_append_left (by rw [List.length_replicate]; omega),
    List.getElem?_replicate]
  simp
  omega

/-- The `1 × 1` tile at the start of row 65536 of `wrapGrid 0 hi` is encoded as a
transparent tile. -/
theorem wrapGrid_tile_transparent (hi fuel : Nat) (hfuel : 1 < fuel) :
    encodeRow fuel (readVec (wrapGrid 0 hi)) 65536 1 0 65536 0 = .ok [201] ∧
    encodeTile fuel (readVec (wrapGrid 0 hi)) 65536 1 1 0 65536 = .ok [201, 255] := by
  have h := encodeTile_transparent fuel (wrapGrid 0 hi) 65536 1 1 0 65536 (by norm_num) hfuel
    (fun y hy c hc => by
      have hy0 : y = 0 := by omega
      have hc0 : c = 0 := by omega
      subst hy0 hc0
      exact wrapGrid_read 0 hi 0 (by norm_num))
  exact ⟨h.1 0 (by norm_num), h.2⟩

/-- The `1 × 1` tile at the start of row 65536 of `wrapGrid lo hi`, `lo` opaque, is
encoded as the opaque pixel `lo`. -/
theorem wrapGrid_tile_solid (lo hi fuel : Nat) (hlo : lo ≠ 0) (hfuel : 1 < fuel) :
    encodeRow fuel (readVec (wrapGrid lo hi)) 65536 1 0 65536 0 = .ok [0, 1, lo, 201] ∧
    encodeTile fuel (readVec (wrapGrid lo hi)) 65536 1 1 0 65536 = .ok [0, 1, lo, 201, 255] := by
  have h := encodeTile_solid fuel (wrapGrid lo hi) 65536 1 1 0 65536 (fun _ _ => lo)
    (le_refl _) (by norm_num) hfuel
    (fun y hy c hc => by
      have hy0 : y = 0 := by omega
      have hc0 : c = 0 := by omega
      subst hy0 hc0
      exact ⟨wrapGrid_read lo hi 0 (by norm_num), hlo⟩)
  exact ⟨h.1 0 (by norm_num), h.2⟩

/-! ## Reading without a bounds check -/

theorem readUnchecked_readable (data : List Nat) (mem : Nat → Nat)
    (w sprW sprH sprDx sprDy : Nat) :
    TileReadable (readUnchecked data mem) w sprW sprH sprDx sprDy :=
  fun _ _ _ _ => ⟨_, rfl⟩

/-- Where the vector can be read, reading it without a bounds check gives the same. -/
theorem readUnchecked_eq (data : List Nat) (mem : Nat → Nat) (i p : Nat)
    (h : readVec data i = some p) : readUnchecked data mem i = some p := by
  unfold readVec at h
  simp [readUnchecked, h]

theorem sheetBytes_congr (fuel : Nat) (rd rd' : Nat → Option Nat) (w sprW sprH nx ny : Nat)
    (h : ∀ i j, i < nx → j < ny →
      tileBytes fuel rd w sprW sprH (i * sprW) (j * sprH) =
        tileBytes fuel rd' w sprW sprH (i * sprW) (j * sprH)) :
    sheetBytes fuel rd w sprW sprH nx ny = sheetBytes fuel rd' w sprW sprH nx ny := by
  apply List.ext_getElem?
  intro k
  by_cases hk : k < nx * ny
  · have hnx : 0 < nx := by
      rcases Nat.eq_zero_or_pos nx with h0 | h0
      · rw [h0, Nat.zero_mul] at hk; omega
      · exact h0
    rw [sheetBytes_getElem? fuel rd w sprW sprH nx ny k hk,
      sheetBytes_getElem? fuel rd' w sprW sprH nx ny k hk,
      h _ _ (Nat.mod_lt _ hnx) ((Nat.div_lt_iff_lt_mul hnx).2 (by rw [Nat.mul_comm]; exact hk))]
  · rw [List.getElem?_eq_none (by rw [sheetBytes_length]; omega),
      List.getElem?_eq_none (by rw [sheetBytes_length]; omega)]

/-- The run of the encoder when the vector is read without a bounds check: for tiling
counters that do not wrap it ends, with one offset for every tile. -/
theorem compress_unchecked (fuel : Nat) (data : List Nat) (mem : Nat → Nat)
    (w h sprW sprH : Nat) (hW : 0 < sprW) (hH : 0 < sprH)
    (hwrap : tilesAcross w sprW * sprW < 4294967296)
    (hwrapH : tilesAcross h sprH * sprH < 4294967296)
    (hfuel : w + h + sprW < fuel) :
    ∃ res, compressSprite fuel (readUnchecked data mem) w h sprW sprH = .ok res ∧
      res.sprOffsets.length = tilesAcross w sprW * tilesAcross h sprH ∧
      res.sprCount = (tilesAcross w sprW * tilesAcross h sprH) % 4294967296 := by
  have hle1 := tilesAcross_le w sprW hW
  have hle2 := tilesAcross_le h sprH hH
  have hok : ∀ i j, i < tilesAcross w sprW → j < tilesAcross h sprH →
      ∃ b, encodeTile fuel (readUnchecked data mem) w sprW sprH (i * sprW) (j * sprH) = .ok b := by
    intro i j hi _
    have hsw : sprW < 4294967296 := by
      have : 1 * sprW ≤ tilesAcross w sprW * sprW := Nat.mul_le_mul_right _ (by omega)
      omega
    obtain ⟨rows, _, _, _, henc⟩ := encodeTile_ok fuel (readUnchecked data mem) w sprW sprH
      (i * sprW) (j * sprH) hsw (by omega) (readUnchecked_readable data mem w sprW sprH _ _)
    exact ⟨_, henc⟩
  have hspec := compressSprite_spec fuel (readUnchecked data mem) w h sprW sprH hW hH hwrap
    hwrapH (by omega) (by omega) hok
  refine ⟨_, hspec, ?_, ?_⟩
  · simp only [offsetsOf_length, sheetBytes_length]
  · simp only [sheetBytes_length]

/-- A run on the vector that ends without a fault is the run without bounds checks. -/
theorem compress_unchecked_eq (fuel : Nat) (data : List Nat) (mem : Nat → Nat)
    (w h sprW sprH : Nat) (hW : 0 < sprW) (hH : 0 < sprH)
    (hwrap : tilesAcross w sprW * sprW < 4294967296)
    (hwrapH : tilesAcross h sprH * sprH < 4294967296)
    (hfuel : w + h + sprW < fuel) (res : SprState)
    (hres : CompressSpriteData fuel data w h sprW sprH = .ok res) :
    compressSprite fuel (readUnchecked data mem) w h sprW sprH = .ok res := by
  have hle1 := tilesAcross_le w sprW hW
  have hle2 := tilesAcross_le h sprH hH
  have hok := compressSprite_ok_inv fuel (readVec data) w h sprW sprH hW hH hwrap hwrapH res hres
  have hspec := compressSprite_spec fuel (readVec data) w h sprW sprH hW hH hwrap hwrapH
    (by omega) (by omega) hok
  have hsame : ∀ i j, i < tilesAcross w sprW → j < tilesAcross h sprH →
      encodeTile fuel (readVec data) w sprW sprH (i * sprW) (j * sprH) =
        encodeTile fuel (readUnchecked data mem) w sprW sprH (i * sprW) (j * sprH) := by
    intro i j hi hj
    have hsw : sprW < 4294967296 := by
      have : 1 * sprW ≤ tilesAcross w sprW * sprW := Nat.mul_le_mul_right _ (by omega)
      omega
    obtain ⟨b, hb⟩ := hok i j hi hj
    have hread := encodeTile_ok_readable fuel (readVec data) w sprW sprH _ _ hsw (by omega) b hb
    apply encodeTile_congr fuel _ _ w sprW sprH _ _ hsw (by omega)
    intro y hy c hc
    obtain ⟨p, hp⟩ := hread y hy c hc
    have hp' : readVec data (pixelIndex w (i * sprW) (j * sprH) y c) = some p := hp
    rw [hp', readUnchecked_eq data mem _ p hp']
  have hok' : ∀ i j, i < tilesAcross w sprW → j < tilesAcross h sprH →
      ∃ b, encodeTile fuel (readUnchecked data mem) w sprW sprH (i * sprW) (j * sprH) = .ok b := by
    intro i j hi hj
    obtain ⟨b, hb⟩ := hok i j hi hj
    exact ⟨b, by rw [← hsame i j hi hj]; exact hb⟩
  have hspec' := compressSprite_spec fuel (readUnchecked data mem) w h sprW sprH hW hH hwrap
    hwrapH (by omega) (by omega) hok'
  have hsheet := sheetBytes_congr fuel (readVec data) (readUnchecked data mem) w sprW sprH
    (tilesAcross w sprW) (tilesAcross h sprH) (fun i j hi hj => by
      unfold tileBytes
      rw [hsame i j hi hj])
  rw [hspec', ← hsheet, ← hspec]
  exact hres

/-- With a zero width and the height 4294967294 the counter of the outer tiling loop,
stepping by 4, stays a multiple of 4 and so below the height for ever. -/
theorem tileLoop_step_four (fuel : Nat) (hfuel : 0 < fuel) :
    ∀ n sprDy s, sprDy % 4 = 0 → sprDy < 4294967296 →
      tileLoop fuel (readVec []) 0 4294967294 1 4 n sprDy s = .outOfFuel := by
  obtain ⟨m, rfl⟩ : ∃ m, fuel = m + 1 := ⟨fuel - 1, by omega⟩
  intro n
  induction n with
  | zero => intro sprDy s _ _; rfl
  | succ n ih =>
    intro sprDy s h1 h2
    have hlt : sprDy < 4294967294 := by omega
    have hcol : colLoop (m + 1) (readVec []) 0 1 4 sprDy (m + 1) 0 s = .ok s := by
      simp [colLoop]
    rw [tileLoop]
    simp only [hlt, if_true, hcol]
    exact ih _ s (by omega) (by omega)

theorem compress_step_four (fuel : Nat) :
    CompressSpriteData fuel [] 0 4294967294 1 4 = .outOfFuel := by
  rcases Nat.eq_zero_or_pos fuel with h0 | hpos
  · subst h0; rfl
  · exact tileLoop_step_four fuel hpos fuel 0 _ (by norm_num) (by norm_num)

/-- A transparent grid of 65536 x 65536 pixels cut into `1 × 1` tiles: 2^32 entries in
the offset table and the counter `sprCount` back at 0. -/
theorem compress_count_wrap :
    ∃ res, CompressSpriteData 131075 (List.replicate 4294967296 0) 65536 65536 1 1 = .ok res ∧
      res.sprOffsets.length = 4294967296 ∧ res.sprCount = 0 := by
  obtain ⟨_, hrun⟩ := compress_grid 131075 (List.replicate 4294967296 0) 65536 65536 1 1
    (by norm_num) (by norm_num) (by norm_num) (by norm_num) (by rw [List.length_replicate])
    (by norm_num) (by norm_num) (by norm_num)
  refine ⟨_, hrun, ?_, ?_⟩
  · simp only [offsetsOf_length, sheetBytes_length]
  · rfl


/-- A tile with a pixel address that cannot be read: the encoder faults. -/
theorem encodeTile_unreadable (fuel : Nat) (rd : Nat → Option Nat)
    (w sprW sprH sprDx sprDy y c : Nat) (hW : sprW < 4294967296) (hfuel : sprW < fuel)
    (hy : y < sprH) (hc : c < sprW) (hnone : rd (pixelIndex w sprDx sprDy y c) = none) :
    encodeTile fuel rd w sprW sprH sprDx sprDy = .outOfBounds := by
  rcases encodeTile_spec fuel rd w sprW sprH sprDx sprDy hW hfuel with
    ⟨rows, _, _, _, henc⟩ | ⟨hbad, _⟩
  · obtain ⟨p, hp⟩ := encodeTile_ok_readable fuel rd w sprW sprH sprDx sprDy hW hfuel _ henc
      y hy c hc
    have hp' : rd (pixelIndex w sprDx sprDy y c) = some p := hp
    rw [hnone] at hp'
    cases hp'
  · exact hbad


/-! ## The sprite tile encoder: results -/

/-- C1 (amended). For a grid whose width and height are multiples of the tile size
(tile sizes positive), `CompressSpriteData` returns a result whose opcode stream is
the concatenation of the tile encodings in tile-scan order (`gridSheet`: tile rows
outermost, entry `k` being the tile in column `k % (w / sprW)` of tile row
`k / (w / sprW)`), and the offset table has one entry per tile, entry `k` being the
length of the stream before tile `k`, that is the sum of the lengths of the
encodings of tiles `0 .. k - 1`, reduced modulo 2^32. -/
theorem compress_stream_and_offsets (fuel : Nat) (data : List Nat) (w h sprW sprH : Nat)
    (hW : 0 < sprW) (hH : 0 < sprH) (hw : w % sprW = 0) (hh : h % sprH = 0)
    (hlen : data.length = w * h) (hw32 : w < 4294967296) (hh32 : h < 4294967296)
    (hfuel : w + h + sprW < fuel) :
    ∃ res, CompressSpriteData fuel data w h sprW sprH = .ok res ∧
      res.sprData = (gridSheet fuel data w h sprW sprH).flatten ∧
      (gridSheet fuel data w h sprW sprH).length = w / sprW * (h / sprH) ∧
      res.sprOffsets.length = w / sprW * (h / sprH) ∧
      ∀ k, k < w / sprW * (h / sprH) →
        (∃ b, gridTile fuel data w sprW sprH k = .ok b ∧
          (gridSheet fuel data w h sprW sprH)[k]? = some b) ∧
        res.sprOffsets[k]? =
          some ((((gridSheet fuel data w h sprW sprH).take k).flatten).length % 4294967296) := by
  obtain ⟨hok, hrun⟩ := compress_grid fuel data w h sprW sprH hW hH hw hh hlen hw32 hh32 hfuel
  have hlenS : (gridSheet fuel data w h sprW sprH).length = w / sprW * (h / sprH) :=
    sheetBytes_length _ _ _ _ _ _ _
  refine ⟨_, hrun, rfl, hlenS, ?_, ?_⟩
  · show (offsetsOf 0 (gridSheet fuel data w h sprW sprH)).length = _
    rw [offsetsOf_length, hlenS]
  · intro k hk
    have hnx : 0 < w / sprW := by
      rcases Nat.eq_zero_or_pos (w / sprW) with h0 | h0
      · rw [h0, Nat.zero_mul] at hk; omega
      · exact h0
    refine ⟨⟨_, hok _ _ (Nat.mod_lt _ hnx) ((Nat.div_lt_iff_lt_mul hnx).2
      (by rw [Nat.mul_comm]; exact hk)), ?_⟩, ?_⟩
    · exact sheetBytes_getElem? fuel (readVec data) w sprW sprH (w / sprW) (h / sprH) k hk
    · show (offsetsOf 0 (gridSheet fuel data w h sprW sprH))[k]? = _
      rw [offsetsOf_getElem? _ 0 k (by rw [hlenS]; exact hk), Nat.zero_add]

/-- Witness for C1: a 4 x 2 grid cut into 2 x 1 tiles. -/
theorem compress_stream_and_offsets_witness :
    (0 < 2 ∧ 0 < 1 ∧ 4 % 2 = 0 ∧ 2 % 1 = 0 ∧ [1, 2, 3, 4, 5, 6, 7, 8].length = 4 * 2 ∧
      4 < 4294967296 ∧ 2 < 4294967296 ∧ 4 + 2 + 2 < 20) ∧
    ∃ res, CompressSpriteData 20 [1, 2, 3, 4, 5, 6, 7, 8] 4 2 2 1 = .ok res ∧
      res.sprData = (gridSheet 20 [1, 2, 3, 4, 5, 6, 7, 8] 4 2 2 1).flatten ∧
      (gridSheet 20 [1, 2, 3, 4, 5, 6, 7, 8] 4 2 2 1).length = 4 / 2 * (2 / 1) ∧
      res.sprOffsets.length = 4 / 2 * (2 / 1) ∧
      ∀ k, k < 4 / 2 * (2 / 1) →
        (∃ b, gridTile 20 [1, 2, 3, 4, 5, 6, 7, 8] 4 2 1 k = .ok b ∧
          (gridSheet 20 [1, 2, 3, 4, 5, 6, 7, 8] 4 2 2 1)[k]? = some b) ∧
        res.sprOffsets[k]? =
          some ((((gridSheet 20 [1, 2, 3, 4, 5, 6, 7, 8] 4 2 2 1).take k).flatten).length
            % 4294967296) :=
  ⟨by decide, compress_stream_and_offsets 20 [1, 2, 3, 4, 5, 6, 7, 8] 4 2 2 1 (by decide)
    (by decide) (by decide) (by decide) (by decide) (by decide) (by decide) (by decide)⟩

/-- Counterexample to C1 as stated: a strip of 858993461 opaque pixels cut into 1 x 1
tiles. Every tile takes five bytes, so 4294967300 bytes precede tile 858993460, but
its entry in the offset table is 4. -/
theorem offsets_wrap_counterexample :
    ∃ res, CompressSpriteData 858993464 (List.replicate 858993461 1) 858993461 1 1 1 = .ok res ∧
      res.sprOffsets[858993460]? = some 4 ∧
      (((gridSheet 858993464 (List.replicate 858993461 1) 858993461 1 1 1).take
        858993460).flatten).length = 4294967300 := by
  obtain ⟨res, hres, hk⟩ := solidStrip 858993461 858993464 (by norm_num) (by norm_num)
  obtain ⟨h1, h2⟩ := hk 858993460 (by norm_num)
  refine ⟨res, hres, ?_, ?_⟩
  · rw [h1]
  · rw [gridSheet, Nat.div_one, Nat.div_one]
    exact h2

/-- C2 (amended). Take tile sizes that are positive and tiling counters that do not
wrap (`tilesAcross w sprW * sprW` and `tilesAcross h sprH * sprH` below 2^32, where
`tilesAcross` is the quotient rounded up). `CompressSpriteData`, reading the vector
without a bounds check as the source does, so that a tile that reaches past the grid
reads whatever bytes `mem` lie at the computed addresses, returns a result whose offset
table has exactly `tilesAcross w sprW * tilesAcross h sprH` entries, and `sprCount` is
this number modulo 2^32. A run that never reads outside the vector is this run, with
these counts; there is one for a buffer of `w * h` bytes when `w` and `h` are
multiples of the tile size, with `(w / sprW) * (h / sprH)` entries. The 3 x 1 grid
`1 1 1` cut into 2 x 1 tiles, a transparent byte lying behind it, gives the offsets
0 and 6 and the count 2. -/
theorem offset_table_length (fuel : Nat) (data : List Nat) (mem : Nat → Nat)
    (w h sprW sprH : Nat) (hW : 0 < sprW) (hH : 0 < sprH)
    (hwrap : tilesAcross w sprW * sprW < 4294967296)
    (hwrapH : tilesAcross h sprH * sprH < 4294967296)
    (hfuel : w + h + sprW < fuel) :
    (∃ res, compressSprite fuel (readUnchecked data mem) w h sprW sprH = .ok res ∧
      res.sprOffsets.length = tilesAcross w sprW * tilesAcross h sprH ∧
      res.sprCount = (tilesAcross w sprW * tilesAcross h sprH) % 4294967296) ∧
    (∀ res, CompressSpriteData fuel data w h sprW sprH = .ok res →
      compressSprite fuel (readUnchecked data mem) w h sprW sprH = .ok res ∧
      res.sprOffsets.length = tilesAcross w sprW * tilesAcross h sprH ∧
      res.sprCount = (tilesAcross w sprW * tilesAcross h sprH) % 4294967296) ∧
    (w % sprW = 0 → h % sprH = 0 → data.length = w * h →
      tilesAcross w sprW = w / sprW ∧ tilesAcross h sprH = h / sprH ∧
      ∃ res, CompressSpriteData fuel data w h sprW sprH = .ok res) ∧
    compressSprite 20 (readUnchecked [1, 1, 1] (fun _ => 0)) 3 1 2 1 =
      .ok ⟨[0, 6], [0, 2, 1, 1, 201, 255, 0, 1, 1, 201, 255], 2⟩ := by
  have hun := compress_unchecked fuel data mem w h sprW sprH hW hH hwrap hwrapH hfuel
  refine ⟨hun, ?_, ?_, by decide⟩
  · intro res hres
    have heq := compress_unchecked_eq fuel data mem w h sprW sprH hW hH hwrap hwrapH hfuel
      res hres
    obtain ⟨res', hres', h1, h2⟩ := hun
    rw [heq] at hres'
    have := Outcome.ok.inj hres'
    subst this
    exact ⟨heq, h1, h2⟩
  · intro hw hh hlen
    obtain ⟨hnx, hnxw⟩ := tilesAcross_of_mod w sprW hW hw
    obtain ⟨hny, hnyh⟩ := tilesAcross_of_mod h sprH hH hh
    refine ⟨hnx, hny, _, (compress_grid fuel data w h sprW sprH hW hH hw hh hlen
      (by rw [← hnxw, ← hnx]; exact hwrap) (by rw [← hnyh, ← hny]; exact hwrapH) hfuel).2⟩

/-- Witness for C2: the 3 x 1 grid `1 1 1` cut into 2 x 1 tiles, the second of which
reaches one pixel past the grid. -/
theorem offset_table_length_witness :
    (0 < 2 ∧ 0 < 1 ∧ tilesAcross 3 2 * 2 < 4294967296 ∧ tilesAcross 1 1 * 1 < 4294967296 ∧
      3 + 1 + 2 < 20) ∧
    ((∃ res, compressSprite 20 (readUnchecked [1, 1, 1] (fun _ => 0)) 3 1 2 1 = .ok res ∧
      res.sprOffsets.length = tilesAcross 3 2 * tilesAcross 1 1 ∧
      res.sprCount = (tilesAcross 3 2 * tilesAcross 1 1) % 4294967296) ∧
    (∀ res, CompressSpriteData 20 [1, 1, 1] 3 1 2 1 = .ok res →
      compressSprite 20 (readUnchecked [1, 1, 1] (fun _ => 0)) 3 1 2 1 = .ok res ∧
      res.sprOffsets.length = tilesAcross 3 2 * tilesAcross 1 1 ∧
      res.sprCount = (tilesAcross 3 2 * tilesAcross 1 1) % 4294967296) ∧
    (3 % 2 = 0 → 1 % 1 = 0 → [1, 1, 1].length = 3 * 1 →
      tilesAcross 3 2 = 3 / 2 ∧ tilesAcross 1 1 = 1 / 1 ∧
      ∃ res, CompressSpriteData 20 [1, 1, 1] 3 1 2 1 = .ok res) ∧
    compressSprite 20 (readUnchecked [1, 1, 1] (fun _ => 0)) 3 1 2 1 =
      .ok ⟨[0, 6], [0, 2, 1, 1, 201, 255, 0, 1, 1, 201, 255], 2⟩) :=
  ⟨by decide, offset_table_length 20 [1, 1, 1] (fun _ => 0) 3 1 2 1 (by decide) (by decide)
    (by decide) (by decide) (by decide)⟩

/-- Counterexample to C2 as stated. A transparent grid of 65536 x 65536 pixels cut
into 1 x 1 tiles has 2^32 tiles: the offset table has 2^32 entries and the tile count
`sprCount` is 0. For the empty grid of width 0 and height 4294967294 and 1 x 4 tiles
the counter of the outer tiling loop wraps from 4294967292 to 0, the loop never ends
and no offset table (of `0 * ceil(4294967294 / 4) = 0` entries or any other) is
produced. -/
theorem offset_table_wrap_counterexample :
    (∃ res, CompressSpriteData 131075 (List.replicate 4294967296 0) 65536 65536 1 1 = .ok res ∧
      res.sprOffsets.length = 4294967296 ∧ res.sprCount = 0) ∧
    ¬ ∃ fuel, CompressSpriteData fuel [] 0 4294967294 1 4 ≠ .outOfFuel := by
  refine ⟨compress_count_wrap, ?_⟩
  rintro ⟨fuel, h⟩
  exact h (compress_step_four fuel)

/-- C3. For every tile of a grid whose width and height are multiples of the tile size
(tile sizes positive) the encoding is the concatenation of exactly `sprH` row
encodings followed by the byte 255; every row encoding ends with the opcode 201, and
among the opcodes chosen by the iterations of the row loop (the first byte of each
chunk) 201 occurs exactly once, in the last iteration. -/
theorem tile_is_rows_then_sentinel (fuel : Nat) (data : List Nat) (w h sprW sprH i j : Nat)
    (hW : 0 < sprW) (hH : 0 < sprH) (hw : w % sprW = 0) (hh : h % sprH = 0)
    (hlen : data.length = w * h) (hw32 : w < 4294967296)
    (hi : i < w / sprW) (hj : j < h / sprH) (hfuel : sprW < fuel) :
    ∃ rows : List (List Chunk), rows.length = sprH ∧
      encodeTile fuel (readVec data) w sprW sprH (i * sprW) (j * sprH) =
        .ok ((rows.map chunkBytes).flatten ++ [255]) ∧
      ∀ y cs, rows[y]? = some cs →
        encodeRowChunks fuel (readVec data) w sprW (i * sprW) (j * sprH) y = .ok cs ∧
        encodeRow fuel (readVec data) w sprW (i * sprW) (j * sprH) y = .ok (chunkBytes cs) ∧
        (chunkBytes cs).getLast? = some 201 ∧
        (cs.map Chunk.sprCmd).getLast? = some 201 ∧
        (cs.map Chunk.sprCmd).count 201 = 1 ∧
        ∀ c ∈ cs, c.bytes.head? = some c.sprCmd := by
  have hsw : sprW < 4294967296 := by
    have h1 := (tilesAcross_of_mod w sprW hW hw).2
    have h2 : 1 * sprW ≤ w / sprW * sprW := Nat.mul_le_mul_right _ (by omega)
    omega
  obtain ⟨rows, _, hlenr, hpost, henc⟩ := encodeTile_ok fuel (readVec data) w sprW sprH _ _ hsw
    hfuel (gridTile_readable data w h sprW sprH i j hW hH hw hh hlen hi hj)
  refine ⟨rows, hlenr, henc, ?_⟩
  intro y cs hy
  obtain ⟨h1, h2⟩ := RowsPost.getElem? rows 0 hpost y cs hy
  rw [Nat.zero_add] at h1 h2
  obtain ⟨h3, h4, h5, h6⟩ := h2.opcodes
  exact ⟨h1, encodeRow_of_chunks h1, h5, h4, h3, h6⟩

/-- Witness for C3: the lower right 2 x 1 tile of a 4 x 2 grid. -/
theorem tile_is_rows_then_sentinel_witness :
    (0 < 2 ∧ 0 < 1 ∧ 4 % 2 = 0 ∧ 2 % 1 = 0 ∧ [1, 2, 3, 4, 5, 6, 0, 8].length = 4 * 2 ∧
      4 < 4294967296 ∧ 1 < 4 / 2 ∧ 1 < 2 / 1 ∧ 2 < 20) ∧
    ∃ rows : List (List Chunk), rows.length = 1 ∧
      encodeTile 20 (readVec [1, 2, 3, 4, 5, 6, 0, 8]) 4 2 1 (1 * 2) (1 * 1) =
        .ok ((rows.map chunkBytes).flatten ++ [255]) ∧
      ∀ y cs, rows[y]? = some cs →
        encodeRowChunks 20 (readVec [1, 2, 3, 4, 5, 6, 0, 8]) 4 2 (1 * 2) (1 * 1) y = .ok cs ∧
        encodeRow 20 (readVec [1, 2, 3, 4, 5, 6, 0, 8]) 4 2 (1 * 2) (1 * 1) y =
          .ok (chunkBytes cs) ∧
        (chunkBytes cs).getLast? = some 201 ∧
        (cs.map Chunk.sprCmd).getLast? = some 201 ∧
        (cs.map Chunk.sprCmd).count 201 = 1 ∧
        ∀ c ∈ cs, c.bytes.head? = some c.sprCmd :=
  ⟨by decide, tile_is_rows_then_sentinel 20 [1, 2, 3, 4, 5, 6, 0, 8] 4 2 2 1 1 1 (by decide)
    (by decide) (by decide) (by decide) (by decide) (by decide) (by decide) (by decide)
    (by decide)⟩

/-- C4 (amended). For a tile, in a pixel buffer of at most 2^32 bytes, whose pixels
are all opaque (`px y c ≠ 0` in column `c` of row `y`) and whose width is between 1
and 255, every row is encoded as the byte 0, the byte `sprW`, the `sprW` pixels of the
row in order and the byte 201, and the tile as these rows in order followed by 255. -/
theorem solid_tile_encoding (fuel : Nat) (data : List Nat) (w sprW sprH sprDx sprDy : Nat)
    (px : Nat → Nat → Nat) (h1 : 1 ≤ sprW) (h255 : sprW ≤ 255) (hfuel : sprW < fuel)
    (hsize : data.length ≤ 4294967296)
    (hpx : ∀ y, y < sprH → ∀ c, c < sprW →
      pixelAt data w (sprDx + c) (sprDy + y) = some (px y c) ∧ px y c ≠ 0) :
    (∀ y, y < sprH → encodeRow fuel (readVec data) w sprW sprDx sprDy y =
        .ok (0 :: sprW :: ((List.range sprW).map (px y) ++ [201]))) ∧
    encodeTile fuel (readVec data) w sprW sprH sprDx sprDy =
      .ok ((List.range sprH).flatMap
        (fun y => 0 :: sprW :: ((List.range sprW).map (px y) ++ [201])) ++ [255]) :=
  encodeTile_solid fuel data w sprW sprH sprDx sprDy px h1 h255 hfuel
    (fun y hy c hc => ⟨pixelAt_read data w _ _ _ hsize (hpx y hy c hc).1, (hpx y hy c hc).2⟩)

/-- Witness for C4: the right 2 x 2 tile of the 4 x 2 grid
`1 2 3 4 / 5 6 7 8`, whose pixel in column `c` of row `y` is `3 + 4 * y + c`. -/
theorem solid_tile_encoding_witness :
    (1 ≤ 2 ∧ 2 ≤ 255 ∧ 2 < 20 ∧ [1, 2, 3, 4, 5, 6, 7, 8].length ≤ 4294967296 ∧
      ∀ y, y < 2 → ∀ c, c < 2 →
        pixelAt [1, 2, 3, 4, 5, 6, 7, 8] 4 (2 + c) (0 + y) = some (3 + 4 * y + c) ∧
          3 + 4 * y + c ≠ 0) ∧
    ((∀ y, y < 2 → encodeRow 20 (readVec [1, 2, 3, 4, 5, 6, 7, 8]) 4 2 2 0 y =
        .ok (0 :: 2 :: ((List.range 2).map (fun c => 3 + 4 * y + c) ++ [201]))) ∧
    encodeTile 20 (readVec [1, 2, 3, 4, 5, 6, 7, 8]) 4 2 2 2 0 =
      .ok ((List.range 2).flatMap
        (fun y => 0 :: 2 :: ((List.range 2).map (fun c => 3 + 4 * y + c) ++ [201])) ++ [255])) :=
  ⟨by decide, solid_tile_encoding 20 [1, 2, 3, 4, 5, 6, 7, 8] 4 2 2 2 0
    (fun y c => 3 + 4 * y + c) (by decide) (by decide) (by decide) (by decide) (by decide)⟩

/-- Counterexample to C4 as stated: in the grid `wrapGrid 0 7` of 65538 rows of 65536
pixels, 2^32 + 131072 bytes, the 1 x 1 tile at the start of row 65536 holds the opaque
pixel 7, at the address 2^32. The encoder computes the address in `uint32_t`, reads
the byte 0 at the address 0 and encodes the tile as 201, 255 and not as
0, 1, 7, 201, 255. -/
theorem solid_tile_wrap_counterexample :
    (wrapGrid 0 7).length = 65536 * 65538 ∧
    (∀ y, y < 1 → ∀ c, c < 1 → pixelAt (wrapGrid 0 7) 65536 (0 + c) (65536 + y) = some 7) ∧
    encodeRow 2 (readVec (wrapGrid 0 7)) 65536 1 0 65536 0 = .ok [201] ∧
    encodeTile 2 (readVec (wrapGrid 0 7)) 65536 1 1 0 65536 = .ok [201, 255] ∧
    [201, 255] ≠ (List.range 1).flatMap
      (fun _ => 0 :: 1 :: ((List.range 1).map (fun _ => 7) ++ [201])) ++ [255] := by
  have h := wrapGrid_tile_transparent 7 2 (by norm_num)
  refine ⟨wrapGrid_length 0 7, ?_, h.1, h.2, by decide⟩
  intro y hy c hc
  have hy0 : y = 0 := by omega
  have hc0 : c = 0 := by omega
  subst hy0 hc0
  exact wrapGrid_pixelAt 0 7 0 (by norm_num)

/-- C5 (amended). For a tile, in a pixel buffer of at most 2^32 bytes, whose pixels
are all transparent and whose width is positive, every row is encoded as exactly
`(sprW - 1) / 200` bytes 200 followed by one byte 201, and the tile as these rows
followed by 255. -/
theorem transparent_tile_encoding (fuel : Nat) (data : List Nat) (w sprW sprH sprDx sprDy : Nat)
    (_hW : 0 < sprW) (hW32 : sprW < 4294967296) (hfuel : sprW < fuel)
    (hsize : data.length ≤ 4294967296)
    (hpx : ∀ y, y < sprH → ∀ c, c < sprW →
      pixelAt data w (sprDx + c) (sprDy + y) = some 0) :
    (∀ y, y < sprH → encodeRow fuel (readVec data) w sprW sprDx sprDy y =
        .ok (List.replicate ((sprW - 1) / 200) 200 ++ [201])) ∧
    encodeTile fuel (readVec data) w sprW sprH sprDx sprDy =
      .ok ((List.range sprH).flatMap
        (fun _ => List.replicate ((sprW - 1) / 200) 200 ++ [201]) ++ [255]) :=
  encodeTile_transparent fuel data w sprW sprH sprDx sprDy hW32 hfuel
    (fun y hy c hc => pixelAt_read data w _ _ _ hsize (hpx y hy c hc))

/-- Witness for C5: a transparent tile of 450 x 2 pixels, each row of which is
encoded as 200, 200, 201. -/
theorem transparent_tile_encoding_witness :
    (0 < 450 ∧ 450 < 4294967296 ∧ 450 < 500 ∧ (List.replicate 900 0).length ≤ 4294967296 ∧
      ∀ y, y < 2 → ∀ c, c < 450 →
        pixelAt (List.replicate 900 0) 450 (0 + c) (0 + y) = some 0) ∧
    ((∀ y, y < 2 → encodeRow 500 (readVec (List.replicate 900 0)) 450 450 0 0 y =
        .ok (List.replicate ((450 - 1) / 200) 200 ++ [201])) ∧
    encodeTile 500 (readVec (List.replicate 900 0)) 450 450 2 0 0 =
      .ok ((List.range 2).flatMap
        (fun _ => List.replicate ((450 - 1) / 200) 200 ++ [201]) ++ [255])) :=
  have hsize : (List.replicate 900 0).length ≤ 4294967296 := by
    rw [List.length_replicate]
    decide
  have hpx : ∀ y, y < 2 → ∀ c, c < 450 →
      pixelAt (List.replicate 900 0) 450 (0 + c) (0 + y) = some 0 :=
    fun y hy c hc => pixelAt_replicate 900 0 450 (0 + c) (0 + y) (by omega)
  ⟨⟨by decide, by decide, by decide, hsize, hpx⟩,
    transparent_tile_encoding 500 (List.replicate 900 0) 450 450 2 0 0 (by decide) (by decide)
      (by decide) hsize hpx⟩

/-- Counterexample to C5 as stated. A transparent row of width 200 is encoded as the
single byte 201, with no byte 200 before it, although `200 / 200 = 1`. And in the
grid `wrapGrid 7 0` of 65538 rows of 65536 pixels, 2^32 + 131072 bytes, the 1 x 1 tile
at the start of row 65536 holds the transparent pixel 0, at the address 2^32, but the
encoder, computing the address in `uint32_t`, reads the byte 7 at the address 0 and
encodes the tile as 0, 1, 7, 201, 255. -/
theorem transparent_width_200_counterexample :
    (encodeRow 201 (readVec (List.replicate 200 0)) 200 200 0 0 0 = .ok [201] ∧
      encodeTile 201 (readVec (List.replicate 200 0)) 200 200 1 0 0 = .ok [201, 255] ∧
      List.replicate (200 / 200) 200 ++ [201] ≠ [201]) ∧
    ((wrapGrid 7 0).length = 65536 * 65538 ∧
      (∀ y, y < 1 → ∀ c, c < 1 → pixelAt (wrapGrid 7 0) 65536 (0 + c) (65536 + y) = some 0) ∧
      encodeRow 2 (readVec (wrapGrid 7 0)) 65536 1 0 65536 0 = .ok [0, 1, 7, 201] ∧
      encodeTile 2 (readVec (wrapGrid 7 0)) 65536 1 1 0 65536 = .ok [0, 1, 7, 201, 255] ∧
      [0, 1, 7, 201] ≠ List.replicate ((1 - 1) / 200) 200 ++ [201]) := by
  have h := transparent_tile_encoding_aux
  have hs := wrapGrid_tile_solid 7 0 2 (by norm_num) (by norm_num)
  refine ⟨⟨h.1, h.2, by decide⟩, wrapGrid_length 7 0, ?_, hs.1, hs.2, by decide⟩
  intro y hy c hc
  have hy0 : y = 0 := by omega
  have hc0 : c = 0 := by omega
  subst hy0 hc0
  exact wrapGrid_pixelAt 7 0 0 (by norm_num)

/-- C6 (amended). A tile row, in a pixel buffer of at most 2^32 bytes, made of
`s ≤ 199` transparent pixels, then `r` opaque pixels (`1 ≤ r ≤ 255`, the pixel at
offset `c` being `px c ≠ 0`), then `t ≤ 200` transparent pixels, with
`s + r + t = sprW`, is encoded as the bytes `s`, `r`, the `r` pixels of the run and
201: the trailing transparent pixels cost no skip opcode. The 4 x 2 tile with the rows
`0 0 5 5` and `5 5 0 0` is encoded as `02 02 05 05 C9 00 02 05 05 C9 FF`, with the
offset table `[0]`. -/
theorem single_run_row_encoding (fuel : Nat) (data : List Nat)
    (w sprW sprDx sprDy y s r t : Nat) (px : Nat → Nat)
    (hs : s ≤ 199) (hr1 : 1 ≤ r) (hr : r ≤ 255) (ht : t ≤ 200) (hsum : s + r + t = sprW)
    (hfuel : sprW < fuel) (hsize : data.length ≤ 4294967296)
    (hz : ∀ c, c < s → pixelAt data w (sprDx + c) (sprDy + y) = some 0)
    (hrun : ∀ c, s ≤ c → c < s + r →
      pixelAt data w (sprDx + c) (sprDy + y) = some (px c) ∧ px c ≠ 0)
    (hz2 : ∀ c, s + r ≤ c → c < sprW → pixelAt data w (sprDx + c) (sprDy + y) = some 0) :
    encodeRow fuel (readVec data) w sprW sprDx sprDy y =
      .ok (s :: r :: ((List.range' s r).map px ++ [201])) ∧
    CompressSpriteData 12 [0, 0, 5, 5, 5, 5, 0, 0] 4 2 4 2 =
      .ok ⟨[0], [0x02, 0x02, 0x05, 0x05, 0xC9, 0x00, 0x02, 0x05, 0x05, 0xC9, 0xFF], 1⟩ := by
  have h := encodeRow_single_run fuel data w sprW sprDx sprDy y s r t px (by omega) hfuel
    (by omega) hr1 ht hsum (fun c hc => pixelAt_read data w _ _ _ hsize (hz c hc))
    (fun c h1 h2 => ⟨pixelAt_read data w _ _ _ hsize (hrun c h1 h2).1, (hrun c h1 h2).2⟩)
    (fun c h1 h2 => pixelAt_read data w _ _ _ hsize (hz2 c h1 h2))
  rw [Nat.mod_eq_of_lt (by omega)] at h
  exact ⟨h, by decide⟩

/-- Witness for C6: the first row `0 0 5 5` of the 4 x 2 tile. -/
theorem single_run_row_encoding_witness :
    (2 ≤ 199 ∧ 1 ≤ 2 ∧ 2 ≤ 255 ∧ 0 ≤ 200 ∧ 2 + 2 + 0 = 4 ∧ 4 < 12 ∧
      [0, 0, 5, 5, 5, 5, 0, 0].length ≤ 4294967296 ∧
      (∀ c, c < 2 → pixelAt [0, 0, 5, 5, 5, 5, 0, 0] 4 (0 + c) (0 + 0) = some 0) ∧
      (∀ c, 2 ≤ c → c < 2 + 2 →
        pixelAt [0, 0, 5, 5, 5, 5, 0, 0] 4 (0 + c) (0 + 0) = some 5 ∧ 5 ≠ 0) ∧
      (∀ c, 2 + 2 ≤ c → c < 4 → pixelAt [0, 0, 5, 5, 5, 5, 0, 0] 4 (0 + c) (0 + 0) = some 0)) ∧
    (encodeRow 12 (readVec [0, 0, 5, 5, 5, 5, 0, 0]) 4 4 0 0 0 =
      .ok (2 :: 2 :: ((List.range' 2 2).map (fun _ => 5) ++ [201])) ∧
    CompressSpriteData 12 [0, 0, 5, 5, 5, 5, 0, 0] 4 2 4 2 =
      .ok ⟨[0], [0x02, 0x02, 0x05, 0x05, 0xC9, 0x00, 0x02, 0x05, 0x05, 0xC9, 0xFF], 1⟩) :=
  have hz : ∀ c, c < 2 → pixelAt [0, 0, 5, 5, 5, 5, 0, 0] 4 (0 + c) (0 + 0) = some 0 := by
    decide
  have hrun : ∀ c, 2 ≤ c → c < 2 + 2 →
      pixelAt [0, 0, 5, 5, 5, 5, 0, 0] 4 (0 + c) (0 + 0) = some 5 ∧ 5 ≠ 0 := by
    intro c h1 h2
    interval_cases c <;> decide
  have hz2 : ∀ c, 2 + 2 ≤ c → c < 4 →
      pixelAt [0, 0, 5, 5, 5, 5, 0, 0] 4 (0 + c) (0 + 0) = some 0 := by
    intro c h1 h2
    omega
  ⟨⟨by decide, by decide, by decide, by decide, by decide, by decide, by decide, hz, hrun,
      hz2⟩,
    single_run_row_encoding 12 [0, 0, 5, 5, 5, 5, 0, 0] 4 4 0 0 0 2 2 0 (fun _ => 5)
      (by decide) (by decide) (by decide) (by decide) (by decide) (by decide) (by decide)
      hz hrun hz2⟩

/-- Counterexample to C6 as stated: in the grid `wrapGrid 0 7` of 65538 rows of 65536
pixels, 2^32 + 131072 bytes, the row of the 1 x 1 tile at the start of row 65536 is
made of no transparent pixel, the opaque pixel 7 and no transparent pixel
(`s = 0`, `r = 1`, `t = 0`). The encoder computes its address in `uint32_t`, reads
the byte 0 at the address 0 and encodes the row as 201 and not as 0, 1, 7, 201. -/
theorem single_run_wrap_counterexample :
    (wrapGrid 0 7).length = 65536 * 65538 ∧
    (∀ c, 0 ≤ c → c < 0 + 1 →
      pixelAt (wrapGrid 0 7) 65536 (0 + c) (65536 + 0) = some 7 ∧ 7 ≠ 0) ∧
    0 + 1 + 0 = 1 ∧
    encodeRow 2 (readVec (wrapGrid 0 7)) 65536 1 0 65536 0 = .ok [201] ∧
    [201] ≠ 0 :: 1 :: ((List.range' 0 1).map (fun _ => 7) ++ [201]) := by
  refine ⟨wrapGrid_length 0 7, ?_, rfl, (wrapGrid_tile_transparent 7 2 (by norm_num)).1,
    by decide⟩
  intro c _ hc
  have hc0 : c = 0 := by omega
  subst hc0
  exact ⟨wrapGrid_pixelAt 0 7 0 (by norm_num), by decide⟩

/-- C7 (amended). Tiles are encoded independently. For two grids of the same
dimensions (multiples of the tile size), of at most 2^32 pixels, that hold the same
pixel at every position of the tile in column `i` of tile row `j`, the bytes emitted
for that tile, entry `j * (w / sprW) + i` of the stream in tile-scan order, are the
same, whatever the pixels outside the tile are. -/
theorem tiles_encoded_independently (fuel : Nat) (data data' : List Nat)
    (w h sprW sprH i j : Nat)
    (hW : 0 < sprW) (hH : 0 < sprH) (hw : w % sprW = 0) (hh : h % sprH = 0)
    (hlen : data.length = w * h) (_hlen' : data'.length = w * h) (hw32 : w < 4294967296)
    (hsize : w * h ≤ 4294967296)
    (hi : i < w / sprW) (hj : j < h / sprH) (hfuel : sprW < fuel)
    (hsame : ∀ y, y < sprH → ∀ c, c < sprW →
      pixelAt data w (i * sprW + c) (j * sprH + y) =
        pixelAt data' w (i * sprW + c) (j * sprH + y)) :
    ∃ b, encodeTile fuel (readVec data) w sprW sprH (i * sprW) (j * sprH) = .ok b ∧
      encodeTile fuel (readVec data') w sprW sprH (i * sprW) (j * sprH) = .ok b ∧
      (gridSheet fuel data w h sprW sprH)[j * (w / sprW) + i]? = some b ∧
      (gridSheet fuel data' w h sprW sprH)[j * (w / sprW) + i]? = some b := by
  have hsw : sprW < 4294967296 := by
    have h1 := (tilesAcross_of_mod w sprW hW hw).2
    have h2 : 1 * sprW ≤ w / sprW * sprW := Nat.mul_le_mul_right _ (by omega)
    omega
  obtain ⟨rows, _, _, _, henc⟩ := encodeTile_ok fuel (readVec data) w sprW sprH _ _ hsw
    hfuel (gridTile_readable data w h sprW sprH i j hW hH hw hh hlen hi hj)
  have hag : AgreeOnTile (readVec data) (readVec data') w sprW sprH (i * sprW) (j * sprH) := by
    intro y hy c hc
    have := hsame y hy c hc
    rw [← gridTile_read_eq data w h sprW sprH i j y c hW hH hw hh hsize hi hj hy hc,
      ← gridTile_read_eq data' w h sprW sprH i j y c hW hH hw hh hsize hi hj hy hc,
      ← rowReader_eq_gridPixel, ← rowReader_eq_gridPixel] at this
    exact this
  have henc' := encodeTile_congr fuel (readVec data) (readVec data') w sprW sprH _ _ hsw hfuel hag
  rw [henc] at henc'
  have hk : j * (w / sprW) + i < w / sprW * (h / sprH) := by
    have : (j + 1) * (w / sprW) ≤ h / sprH * (w / sprW) := Nat.mul_le_mul_right _ hj
    rw [Nat.add_mul, Nat.one_mul, Nat.mul_comm (h / sprH)] at this
    omega
  obtain ⟨hmod, hdiv⟩ := sheet_index (w / sprW) i j hi
  refine ⟨_, henc, henc'.symm, ?_, ?_⟩
  · rw [gridSheet, sheetBytes_getElem? _ _ _ _ _ _ _ _ hk, hmod, hdiv, tileBytes_of_ok henc]
  · rw [gridSheet, sheetBytes_getElem? _ _ _ _ _ _ _ _ hk, hmod, hdiv,
      tileBytes_of_ok henc'.symm]

/-- Witness for C7: two 4 x 1 grids that differ only right of the first 2 x 1 tile. -/
theorem tiles_encoded_independently_witness :
    (0 < 2 ∧ 0 < 1 ∧ 4 % 2 = 0 ∧ 1 % 1 = 0 ∧ [0, 7, 0, 0].length = 4 * 1 ∧
      [0, 7, 9, 9].length = 4 * 1 ∧ 4 < 4294967296 ∧ 4 * 1 ≤ 4294967296 ∧
      0 < 4 / 2 ∧ 0 < 1 / 1 ∧ 2 < 10 ∧
      ∀ y, y < 1 → ∀ c, c < 2 →
        pixelAt [0, 7, 0, 0] 4 (0 * 2 + c) (0 * 1 + y) =
          pixelAt [0, 7, 9, 9] 4 (0 * 2 + c) (0 * 1 + y)) ∧
    ∃ b, encodeTile 10 (readVec [0, 7, 0, 0]) 4 2 1 (0 * 2) (0 * 1) = .ok b ∧
      encodeTile 10 (readVec [0, 7, 9, 9]) 4 2 1 (0 * 2) (0 * 1) = .ok b ∧
      (gridSheet 10 [0, 7, 0, 0] 4 1 2 1)[0 * (4 / 2) + 0]? = some b ∧
      (gridSheet 10 [0, 7, 9, 9] 4 1 2 1)[0 * (4 / 2) + 0]? = some b :=
  ⟨by decide, tiles_encoded_independently 10 [0, 7, 0, 0] [0, 7, 9, 9] 4 1 2 1 0 0 (by decide)
    (by decide) (by decide) (by decide) (by decide) (by decide) (by decide) (by decide)
    (by decide) (by decide) (by decide) (by decide)⟩

/-- Counterexample to C7 as stated: the grids `wrapGrid 0 7` and `wrapGrid 5 7`, both
of 65538 rows of 65536 pixels, 2^32 + 131072 bytes, cut into 1 x 1 tiles, hold the
same pixel 7 in the tile at the start of row 65536 and differ in rows 0 to 65535. The
encoder computes the address of the tile in `uint32_t` and reads the address 0, so it
emits 201, 255 for the tile in the first grid and 0, 1, 5, 201, 255 in the second. -/
theorem tiles_wrap_counterexample :
    (wrapGrid 0 7).length = 65536 * 65538 ∧ (wrapGrid 5 7).length = 65536 * 65538 ∧
    65536 % 1 = 0 ∧ 65538 % 1 = 0 ∧ 0 < 65536 / 1 ∧ 65536 < 65538 / 1 ∧
    (∀ y, y < 1 → ∀ c, c < 1 →
      pixelAt (wrapGrid 0 7) 65536 (0 * 1 + c) (65536 * 1 + y) =
        pixelAt (wrapGrid 5 7) 65536 (0 * 1 + c) (65536 * 1 + y)) ∧
    encodeTile 2 (readVec (wrapGrid 0 7)) 65536 1 1 (0 * 1) (65536 * 1) = .ok [201, 255] ∧
    encodeTile 2 (readVec (wrapGrid 5 7)) 65536 1 1 (0 * 1) (65536 * 1) =
      .ok [0, 1, 5, 201, 255] := by
  refine ⟨wrapGrid_length 0 7, wrapGrid_length 5 7, by decide, by decide, by decide, by decide,
    ?_, (wrapGrid_tile_transparent 7 2 (by norm_num)).2,
    (wrapGrid_tile_solid 5 7 2 (by norm_num) (by norm_num)).2⟩
  intro y hy c hc
  have hy0 : y = 0 := by omega
  have hc0 : c = 0 := by omega
  subst hy0 hc0
  show pixelAt (wrapGrid 0 7) 65536 0 65536 = pixelAt (wrapGrid 5 7) 65536 0 65536
  rw [wrapGrid_pixelAt 0 7 0 (by norm_num), wrapGrid_pixelAt 5 7 0 (by norm_num)]

/-- C8 (amended). For a grid buffer of `w * h` bytes, positive tile sizes and `w`, `h`
multiples of them, every index read for a pixel of a tile is below `w * h`, and the
run never takes the out-of-bounds branch: it returns a result. For a buffer of at most
2^32 bytes every such index is `row * w + column` with the row and the column inside
the tile being encoded, and encoding a tile with every address outside that tile made
unreadable gives the same bytes as encoding it on the whole buffer: every index read
by the scan loop and the two run loops is the address of a pixel of that tile. -/
theorem reads_stay_inside_tile (fuel : Nat) (data : List Nat) (w h sprW sprH : Nat)
    (hW : 0 < sprW) (hH : 0 < sprH) (hw : w % sprW = 0) (hh : h % sprH = 0)
    (hlen : data.length = w * h) (hw32 : w < 4294967296) (hh32 : h < 4294967296)
    (hfuel : w + h + sprW < fuel) :
    (∀ i j, i < w / sprW → j < h / sprH →
      (∀ y, y < sprH → ∀ c, c < sprW → pixelIndex w (i * sprW) (j * sprH) y c < w * h ∧
        (w * h ≤ 4294967296 →
          pixelIndex w (i * sprW) (j * sprH) y c = (j * sprH + y) * w + i * sprW + c ∧
          inTile w sprW sprH (i * sprW) (j * sprH)
            (pixelIndex w (i * sprW) (j * sprH) y c) = true)) ∧
      ∃ b, encodeTile fuel (readVec data) w sprW sprH (i * sprW) (j * sprH) = .ok b ∧
        (w * h ≤ 4294967296 →
          encodeTile fuel (restrictToTile (readVec data) w sprW sprH (i * sprW) (j * sprH))
            w sprW sprH (i * sprW) (j * sprH) = .ok b)) ∧
    (∃ res, CompressSpriteData fuel data w h sprW sprH = .ok res) ∧
    CompressSpriteData fuel data w h sprW sprH ≠ .outOfBounds := by
  obtain ⟨hok, hrun⟩ := compress_grid fuel data w h sprW sprH hW hH hw hh hlen hw32 hh32 hfuel
  refine ⟨?_, ⟨_, hrun⟩, by rw [hrun]; simp⟩
  intro i j hi hj
  have hsw : sprW < 4294967296 := by
    have h1 := (tilesAcross_of_mod w sprW hW hw).2
    have h2 : 1 * sprW ≤ w / sprW * sprW := Nat.mul_le_mul_right _ (by omega)
    omega
  constructor
  · intro y hy c hc
    have hlt := gridTile_index_lt w h sprW sprH i j y c hW hH hw hh hi hj hy hc
    have hle := pixelIndex_le w (i * sprW) (j * sprH) y c
    refine ⟨by omega, fun hsmall => ⟨Nat.mod_eq_of_lt (by omega), ?_⟩⟩
    exact inTile_pixelIndex w sprW sprH (i * sprW) (j * sprH) y c hy hc (by omega)
  · refine ⟨_, hok i j hi hj, fun hsmall => ?_⟩
    rw [encodeTile_congr fuel _ (readVec data) w sprW sprH _ _ hsw (by omega)
      (restrictToTile_agree (readVec data) w sprW sprH (i * sprW) (j * sprH)
        (fun y hy c hc => by
          have hlt := gridTile_index_lt w h sprW sprH i j y c hW hH hw hh hi hj hy hc
          omega))]
    exact hok i j hi hj

/-- Witness for C8: a 4 x 2 grid cut into 2 x 1 tiles. -/
theorem reads_stay_inside_tile_witness :
    (0 < 2 ∧ 0 < 1 ∧ 4 % 2 = 0 ∧ 2 % 1 = 0 ∧ [1, 0, 3, 4, 0, 6, 7, 0].length = 4 * 2 ∧
      4 < 4294967296 ∧ 2 < 4294967296 ∧ 4 + 2 + 2 < 20) ∧
    ((∀ i j, i < 4 / 2 → j < 2 / 1 →
      (∀ y, y < 1 → ∀ c, c < 2 → pixelIndex 4 (i * 2) (j * 1) y c < 4 * 2 ∧
        (4 * 2 ≤ 4294967296 →
          pixelIndex 4 (i * 2) (j * 1) y c = (j * 1 + y) * 4 + i * 2 + c ∧
          inTile 4 2 1 (i * 2) (j * 1) (pixelIndex 4 (i * 2) (j * 1) y c) = true)) ∧
      ∃ b, encodeTile 20 (readVec [1, 0, 3, 4, 0, 6, 7, 0]) 4 2 1 (i * 2) (j * 1) = .ok b ∧
        (4 * 2 ≤ 4294967296 →
          encodeTile 20 (restrictToTile (readVec [1, 0, 3, 4, 0, 6, 7, 0]) 4 2 1 (i * 2) (j * 1))
            4 2 1 (i * 2) (j * 1) = .ok b)) ∧
    (∃ res, CompressSpriteData 20 [1, 0, 3, 4, 0, 6, 7, 0] 4 2 2 1 = .ok res) ∧
    CompressSpriteData 20 [1, 0, 3, 4, 0, 6, 7, 0] 4 2 2 1 ≠ .outOfBounds) :=
  ⟨by decide, reads_stay_inside_tile 20 [1, 0, 3, 4, 0, 6, 7, 0] 4 2 2 1 (by decide) (by decide)
    (by decide) (by decide) (by decide) (by decide) (by decide) (by decide)⟩

/-- Counterexample to C8 as stated: the grid `wrapGrid 0 7` of 65538 rows of 65536
pixels, a buffer of `65536 * 65538` bytes, cut into 1 x 1 tiles. For the tile at the
start of row 65536 the index read is 0, which is not the address 2^32 of the pixel of
the tile but that of the first pixel of the grid: with every address outside the tile
made unreadable the encoder faults, and on the whole buffer it encodes the byte at the
address 0. -/
theorem reads_wrap_counterexample :
    (wrapGrid 0 7).length = 65536 * 65538 ∧
    65536 % 1 = 0 ∧ 65538 % 1 = 0 ∧ 0 < 65536 / 1 ∧ 65536 < 65538 / 1 ∧
    pixelIndex 65536 (0 * 1) (65536 * 1) 0 0 = 0 ∧
    inTile 65536 1 1 (0 * 1) (65536 * 1) 0 = false ∧
    inTile 65536 1 1 (0 * 1) (65536 * 1) 4294967296 = true ∧
    encodeTile 2 (restrictToTile (readVec (wrapGrid 0 7)) 65536 1 1 (0 * 1) (65536 * 1))
      65536 1 1 (0 * 1) (65536 * 1) = .outOfBounds ∧
    encodeTile 2 (readVec (wrapGrid 0 7)) 65536 1 1 (0 * 1) (65536 * 1) = .ok [201, 255] := by
  have hidx : pixelIndex 65536 (0 * 1) (65536 * 1) 0 0 = 0 := by decide
  have hout : inTile 65536 1 1 (0 * 1) (65536 * 1) 0 = false := by decide
  refine ⟨wrapGrid_length 0 7, by decide, by decide, by decide, by decide, hidx, hout,
    by decide, ?_, (wrapGrid_tile_transparent 7 2 (by norm_num)).2⟩
  apply encodeTile_unreadable 2 _ 65536 1 1 (0 * 1) (65536 * 1) 0 0 (by norm_num) (by norm_num)
    (by norm_num) (by norm_num)
  rw [hidx]
  show (if inTile 65536 1 1 (0 * 1) (65536 * 1) 0 = true then readVec (wrapGrid 0 7) 0
    else none) = none
  rw [hout]
  rfl

/-- C9 (amended). Take positive tile sizes, a tile width below 2^32 and tiling
counters that do not wrap (`tilesAcross w sprW * sprW` and `tilesAcross h sprH * sprH`
below 2^32, which holds whenever `w` and `h` are multiples of the tile size). Then
the encoding loop of `CompressSpriteData` terminates for every buffer: with a loop
budget above `w + h + sprW` the budget never runs out. For a buffer of `w * h` bytes
with `w`, `h` multiples of the tile size it returns a result. Within a row, from a
cursor `x ≤ sprW`, an iteration of the row loop that stays inside the buffer leaves
the cursor at most `sprW`, and either emits 201 and ends the row or strictly
increases the cursor and goes on. -/
theorem encoder_terminates (fuel : Nat) (data : List Nat) (w h sprW sprH : Nat)
    (hW : 0 < sprW) (hH : 0 < sprH) (hW32 : sprW < 4294967296)
    (hwrap : tilesAcross w sprW * sprW < 4294967296)
    (hwrapH : tilesAcross h sprH * sprH < 4294967296)
    (hfuel : w + h + sprW < fuel) :
    CompressSpriteData fuel data w h sprW sprH ≠ .outOfFuel ∧
    (w % sprW = 0 → h % sprH = 0 → data.length = w * h →
      ∃ res, CompressSpriteData fuel data w h sprW sprH = .ok res) ∧
    ∀ (g : Nat → Option Nat) (x : Nat), x ≤ sprW →
      rowStep fuel g sprW x = .outOfBounds ∨
      ∃ c, rowStep fuel g sprW x = .ok c ∧ c.x ≤ sprW ∧
        ((c.sprCmd = 201 ∧ c.bytes = [201] ∧ c.bLoop = false) ∨ (x < c.x ∧ c.bLoop = true)) := by
  refine ⟨compress_ne_outOfFuel fuel data w h sprW sprH hW hH hW32 hwrap hwrapH hfuel, ?_, ?_⟩
  · intro hw hh hlen
    obtain ⟨hnx, hnxw⟩ := tilesAcross_of_mod w sprW hW hw
    obtain ⟨hny, hnyh⟩ := tilesAcross_of_mod h sprH hH hh
    exact ⟨_, (compress_grid fuel data w h sprW sprH hW hH hw hh hlen
      (by rw [← hnxw, ← hnx]; exact hwrap) (by rw [← hnyh, ← hny]; exact hwrapH) hfuel).2⟩
  · intro g x hx
    rcases rowStep_spec fuel g sprW x hW32 (by omega) hx with ⟨c, hc, hpost⟩ | ⟨hc, _⟩
    · right
      refine ⟨c, hc, hpost.basic.2.1, ?_⟩
      rcases hpost.basic.2.2 with ⟨_, hb⟩ | ⟨_, hb, hlt⟩
      · obtain ⟨h1, h2, _⟩ := hpost.last hb
        exact Or.inl ⟨h1, h2, hb⟩
      · exact Or.inr ⟨hlt, hb⟩
    · left; exact hc

/-- Witness for C9: a 4 x 2 grid cut into 2 x 1 tiles. -/
theorem encoder_terminates_witness :
    (0 < 2 ∧ 0 < 1 ∧ 2 < 4294967296 ∧ tilesAcross 4 2 * 2 < 4294967296 ∧
      tilesAcross 2 1 * 1 < 4294967296 ∧ 4 + 2 + 2 < 20) ∧
    (CompressSpriteData 20 [1, 0, 3, 4, 0, 6, 7, 0] 4 2 2 1 ≠ .outOfFuel ∧
    (4 % 2 = 0 → 2 % 1 = 0 → [1, 0, 3, 4, 0, 6, 7, 0].length = 4 * 2 →
      ∃ res, CompressSpriteData 20 [1, 0, 3, 4, 0, 6, 7, 0] 4 2 2 1 = .ok res) ∧
    ∀ (g : Nat → Option Nat) (x : Nat), x ≤ 2 →
      rowStep 20 g 2 x = .outOfBounds ∨
      ∃ c, rowStep 20 g 2 x = .ok c ∧ c.x ≤ 2 ∧
        ((c.sprCmd = 201 ∧ c.bytes = [201] ∧ c.bLoop = false) ∨ (x < c.x ∧ c.bLoop = true))) :=
  ⟨by decide, encoder_terminates 20 [1, 0, 3, 4, 0, 6, 7, 0] 4 2 2 1 (by decide) (by decide)
    (by decide) (by decide) (by decide) (by decide)⟩

/-- Counterexample to C9 as stated: for the empty grid of width 0 and height
4294967295 and 1 x 2 tiles the counter of the outer tiling loop wraps from 4294967294
to 0, so the loop never ends: every loop budget runs out. -/
theorem zero_width_counterexample :
    ¬ ∃ fuel, CompressSpriteData fuel [] 0 4294967295 1 2 ≠ .outOfFuel := by
  rintro ⟨fuel, h⟩
  exact h (compress_zero_width fuel)

theorem lor_shift_eq_add (a b k : Nat) (ha : a < 2 ^ k) : a ||| (b <<< k) = a + b * 2 ^ k := by
  rw [Nat.shiftLeft_eq, Nat.or_comm, Nat.mul_comm b, ← Nat.mul_add_lt_is_or ha, Nat.add_comm]

theorem paletteWord_eq (i r g b : Nat) (hi : i < 256) (hr : r < 256) (hg : g < 256)
    (hb : b < 256) :
    paletteWord i ⟨r, g, b⟩ = i + r * 256 + g * 65536 + b * 16777216 := by
  unfold paletteWord
  simp only
  rw [lor_shift_eq_add i r 8 (by omega), lor_shift_eq_add _ g 16 (by norm_num; omega),
    lor_shift_eq_add _ b 24 (by norm_num; omega)]
  norm_num
  omega

theorem le32_paletteWord (i r g b : Nat) (hi : i < 256) (hr : r < 256) (hg : g < 256)
    (hb : b < 256) : le32 (paletteWord i ⟨r, g, b⟩) = [i, r, g, b] := by
  rw [paletteWord_eq i r g b hi hr hg hb]
  simp only [le32]
  refine congrArg₂ _ (by omega) (congrArg₂ _ (by omega) (congrArg₂ _ (by omega)
    (congrArg₂ _ (by omega) rfl)))

theorem le32_length (v : Nat) : (le32 v).length = 4 := rfl

theorem savePaletteLoop_length (palette : List PngColor) :
    ∀ nIndex, (savePaletteLoop palette nIndex).length = 4 * palette.length := by
  induction palette with
  | nil => intro _; rfl
  | cons c cs ih =>
    intro nIndex
    simp only [savePaletteLoop, List.length_append, le32_length, ih, List.length_cons]
    omega

/-- The colour at position `i` is written as the bytes `i % 256`, red, green, blue. -/
theorem savePaletteLoop_eq (palette : List PngColor)
    (hbytes : ∀ c ∈ palette, c.red < 256 ∧ c.green < 256 ∧ c.blue < 256) :
    ∀ k, savePaletteLoop palette (k % 256) =
      (palette.enumFrom k).flatMap (fun p => [p.1 % 256, p.2.red, p.2.green, p.2.blue]) := by
  induction palette with
  | nil => intro _; rfl
  | cons c cs ih =>
    intro k
    obtain ⟨h1, h2, h3⟩ := hbytes c (List.mem_cons_self _ _)
    have hnext : (k % 256 + 1) % 256 = (k + 1) % 256 := by omega
    rw [savePaletteLoop, hnext, ih (fun x hx => hbytes x (List.mem_cons_of_mem _ hx)) (k + 1),
      List.enumFrom_cons, List.flatMap_cons]
    cases c with
    | mk r g b => rw [le32_paletteWord (k % 256) r g b (Nat.mod_lt _ (by norm_num)) h1 h2 h3]

theorem le32_decode (v : Nat) (hv : v < 4294967296) :
    v % 256 + 256 * (v / 256 % 256) + 65536 * (v / 65536 % 256)
      + 16777216 * (v / 16777216 % 256) = v := by
  omega

/-! ## The merge loop -/

theorem toByteOffset_mod (start : Nat) : toByteOffset start % 4 = 0 := by
  unfold toByteOffset
  omega

theorem toByteOffset_lt (start : Nat) : toByteOffset start < 4294967296 := by
  unfold toByteOffset
  omega

theorem toByteOffset_small (start : Nat) (h : (start + 1) * 4 < 4294967296) :
    toByteOffset start = (start + 1) * 4 := by
  unfold toByteOffset
  omega

theorem copyByte_ok {paletteFrom paletteTo p : List Nat} {ti fi : Nat}
    (h : copyByte paletteFrom paletteTo ti fi = .ok p) :
    ∃ v, paletteFrom[fi]? = some v ∧ ti < paletteTo.length ∧ p = paletteTo.set ti v := by
  unfold copyByte at h
  cases hv : paletteFrom[fi]? with
  | none => rw [hv] at h; cases h
  | some v =>
    rw [hv] at h
    by_cases hlt : ti < paletteTo.length
    · simp only [hlt, if_true] at h
      exact ⟨v, rfl, hlt, (Outcome.ok.inj h).symm⟩
    · simp only [hlt, if_false] at h
      cases h

theorem copyByte_of_lt (paletteFrom paletteTo : List Nat) (ti fi : Nat)
    (hti : ti < paletteTo.length) (hfi : fi < paletteFrom.length) :
    copyByte paletteFrom paletteTo ti fi = .ok (paletteTo.set ti (paletteFrom[fi])) := by
  unfold copyByte
  rw [List.getElem?_eq_getElem hfi]
  simp [hti]

/-- What one iteration of the merge loop that stays inside the vectors does. -/
theorem mergeStep_ok {paletteFrom paletteTo p : List Nat} {T F i : Nat}
    (h : mergeStep paletteFrom T F i paletteTo = .ok p) :
    p.length = paletteTo.length ∧
    (T + i * 4 + 3) % 4294967296 < paletteTo.length ∧
    (T + i * 4 + 2) % 4294967296 < paletteTo.length ∧
    (T + i * 4 + 1) % 4294967296 < paletteTo.length ∧
    (F + i * 4 + 3) % 4294967296 < paletteFrom.length ∧
    (F + i * 4 + 2) % 4294967296 < paletteFrom.length ∧
    (F + i * 4 + 1) % 4294967296 < paletteFrom.length ∧
    ∀ k, p[k]? =
      if k = (T + i * 4 + 3) % 4294967296 then paletteFrom[(F + i * 4 + 3) % 4294967296]?
      else if k = (T + i * 4 + 2) % 4294967296 then paletteFrom[(F + i * 4 + 2) % 4294967296]?
      else if k = (T + i * 4 + 1) % 4294967296 then paletteFrom[(F + i * 4 + 1) % 4294967296]?
      else paletteTo[k]? := by
  unfold mergeStep at h
  cases h1 : copyByte paletteFrom paletteTo ((T + i * 4 + 1) % 4294967296)
      ((F + i * 4 + 1) % 4294967296) with
  | outOfBounds => rw [h1] at h; cases h
  | outOfFuel => rw [h1] at h; cases h
  | ok p1 =>
    rw [h1] at h
    simp only at h
    cases h2 : copyByte paletteFrom p1 ((T + i * 4 + 2) % 4294967296)
        ((F + i * 4 + 2) % 4294967296) with
    | outOfBounds => rw [h2] at h; cases h
    | outOfFuel => rw [h2] at h; cases h
    | ok p2 =>
      rw [h2] at h
      simp only at h
      obtain ⟨v1, hv1, hl1, rfl⟩ := copyByte_ok h1
      obtain ⟨v2, hv2, hl2, rfl⟩ := copyByte_ok h2
      obtain ⟨v3, hv3, hl3, rfl⟩ := copyByte_ok h
      simp only [List.length_set] at hl2 hl3 ⊢
      refine ⟨trivial, hl3, hl2, hl1, ?_, ?_, ?_, ?_⟩
      · exact (List.getElem?_eq_some_iff.1 hv3).1
      · exact (List.getElem?_eq_some_iff.1 hv2).1
      · exact (List.getElem?_eq_some_iff.1 hv1).1
      · intro k
        rw [List.getElem?_set, List.getElem?_set, List.getElem?_set]
        simp only [List.length_set, hl3, hl2, hl1, if_true, hv1, hv2, hv3]
        by_cases e3 : (T + i * 4 + 3) % 4294967296 = k
        · simp [e3]
        · by_cases e2 : (T + i * 4 + 2) % 4294967296 = k
          · simp [e3, e2, Ne.symm e3]
          · by_cases e1 : (T + i * 4 + 1) % 4294967296 = k
            · simp [e3, e2, e1, Ne.symm e3, Ne.symm e2]
            · simp [e3, e2, e1, Ne.symm e3, Ne.symm e2, Ne.symm e1]

theorem mergeStep_of_lt (paletteFrom paletteTo : List Nat) (T F i : Nat)
    (ht : ∀ c, 1 ≤ c → c ≤ 3 → (T + i * 4 + c) % 4294967296 < paletteTo.length)
    (hf : ∀ c, 1 ≤ c → c ≤ 3 → (F + i * 4 + c) % 4294967296 < paletteFrom.length) :
    ∃ p, mergeStep paletteFrom T F i paletteTo = .ok p := by
  unfold mergeStep
  have t1 := ht 1 (by omega) (by omega)
  have t2 := ht 2 (by omega) (by omega)
  have t3 := ht 3 (by omega) (by omega)
  rw [copyByte_of_lt _ _ _ _ t1 (hf 1 (by omega) (by omega))]
  simp only
  rw [copyByte_of_lt _ _ _ _ (by rw [List.length_set]; exact t2) (hf 2 (by omega) (by omega))]
  simp only
  rw [copyByte_of_lt _ _ _ _ (by rw [List.length_set, List.length_set]; exact t3)
    (hf 3 (by omega) (by omega))]
  exact ⟨_, rfl⟩

theorem mergeLoop_length (paletteFrom : List Nat) (T F : Nat) :
    ∀ n i paletteTo p, mergeLoop paletteFrom T F n i paletteTo = .ok p →
      p.length = paletteTo.length := by
  intro n
  induction n with
  | zero =>
    intro i paletteTo p h
    rw [mergeLoop] at h
    rw [← Outcome.ok.inj h]
  | succ n ih =>
    intro i paletteTo p h
    rw [mergeLoop] at h
    cases hs : mergeStep paletteFrom T F i paletteTo with
    | outOfBounds => rw [hs] at h; cases h
    | outOfFuel => rw [hs] at h; cases h
    | ok p1 =>
      rw [hs] at h
      rw [ih (i + 1) p1 p h, (mergeStep_ok hs).1]

/-- A byte at an address that no iteration writes keeps its value. -/
theorem mergeLoop_frame (paletteFrom : List Nat) (T F : Nat) :
    ∀ n i paletteTo p, mergeLoop paletteFrom T F n i paletteTo = .ok p →
      ∀ k, (∀ j c, i ≤ j → j < i + n → 1 ≤ c → c ≤ 3 → (T + j * 4 + c) % 4294967296 ≠ k) →
        p[k]? = paletteTo[k]? := by
  intro n
  induction n with
  | zero =>
    intro i paletteTo p h k _
    rw [mergeLoop] at h
    rw [← Outcome.ok.inj h]
  | succ n ih =>
    intro i paletteTo p h k hk
    rw [mergeLoop] at h
    cases hs : mergeStep paletteFrom T F i paletteTo with
    | outOfBounds => rw [hs] at h; cases h
    | outOfFuel => rw [hs] at h; cases h
    | ok p1 =>
      rw [hs] at h
      rw [ih (i + 1) p1 p h k (fun j c h1 h2 h3 h4 => hk j c (by omega) (by omega) h3 h4),
        (mergeStep_ok hs).2.2.2.2.2.2.2 k]
      have e3 := hk i 3 (le_refl _) (by omega) (by omega) (by omega)
      have e2 := hk i 2 (le_refl _) (by omega) (by omega) (by omega)
      have e1 := hk i 1 (le_refl _) (by omega) (by omega) (by omega)
      simp [Ne.symm e3, Ne.symm e2, Ne.symm e1]

/-- A loop that ends without a fault in vectors shorter than 2^32 bytes never
wrapped an index: the copied range lies inside both vectors. -/
theorem mergeLoop_no_wrap (paletteFrom : List Nat) (T F : Nat) (hT : T % 4 = 0)
    (hF : F % 4 = 0) :
    ∀ n i paletteTo p, mergeLoop paletteFrom T F (n + 1) i paletteTo = .ok p →
      paletteTo.length < 4294967296 → paletteFrom.length < 4294967296 →
      T + i * 4 < 4294967296 → F + i * 4 < 4294967296 →
      T + (i + (n + 1)) * 4 ≤ paletteTo.length ∧ F + (i + (n + 1)) * 4 ≤ paletteFrom.length := by
  intro n
  induction n with
  | zero =>
    intro i paletteTo p h hlt hlf hTi hFi
    rw [mergeLoop] at h
    cases hs : mergeStep paletteFrom T F i paletteTo with
    | outOfBounds => rw [hs] at h; cases h
    | outOfFuel => rw [hs] at h; cases h
    | ok p1 =>
      obtain ⟨_, h3, _, _, g3, _, _, _⟩ := mergeStep_ok hs
      constructor <;> omega
  | succ n ih =>
    intro i paletteTo p h hlt hlf hTi hFi
    rw [mergeLoop] at h
    cases hs : mergeStep paletteFrom T F i paletteTo with
    | outOfBounds => rw [hs] at h; cases h
    | outOfFuel => rw [hs] at h; cases h
    | ok p1 =>
      rw [hs] at h
      obtain ⟨hl, h3, _, _, g3, _, _, _⟩ := mergeStep_ok hs
      have := ih (i + 1) p1 p h (by rw [hl]; exact hlt) hlf (by omega) (by omega)
      rw [hl] at this
      constructor <;> omega

/-- Without wrapping, the byte at offset `c` of entry `j` of the destination range
holds, after the loop, the byte at offset `c` of entry `j` of the source range. -/
theorem mergeLoop_written (paletteFrom : List Nat) (T F : Nat) :
    ∀ n i paletteTo p, mergeLoop paletteFrom T F n i paletteTo = .ok p →
      T + (i + n) * 4 ≤ 4294967296 → F + (i + n) * 4 ≤ 4294967296 →
      ∀ j c, i ≤ j → j < i + n → 1 ≤ c → c ≤ 3 →
        p[T + j * 4 + c]? = paletteFrom[F + j * 4 + c]? := by
  intro n
  induction n with
  | zero => intro i paletteTo p _ _ _ j c h1 h2; omega
  | succ n ih =>
    intro i paletteTo p h hT hF j c h1 h2 h3 h4
    rw [mergeLoop] at h
    cases hs : mergeStep paletteFrom T F i paletteTo with
    | outOfBounds => rw [hs] at h; cases h
    | outOfFuel => rw [hs] at h; cases h
    | ok p1 =>
      rw [hs] at h
      by_cases hj : j = i
      · subst hj
        rw [mergeLoop_frame paletteFrom T F n (j + 1) p1 p h (T + j * 4 + c)
          (fun j' c' g1 g2 g3 g4 => by omega), (mergeStep_ok hs).2.2.2.2.2.2.2]
        have m1 : (T + j * 4 + 1) % 4294967296 = T + j * 4 + 1 := by omega
        have m2 : (T + j * 4 + 2) % 4294967296 = T + j * 4 + 2 := by omega
        have m3 : (T + j * 4 + 3) % 4294967296 = T + j * 4 + 3 := by omega
        have f1 : (F + j * 4 + 1) % 4294967296 = F + j * 4 + 1 := by omega
        have f2 : (F + j * 4 + 2) % 4294967296 = F + j * 4 + 2 := by omega
        have f3 : (F + j * 4 + 3) % 4294967296 = F + j * 4 + 3 := by omega
        rw [m1, m2, m3, f1, f2, f3]
        have hc : c = 1 ∨ c = 2 ∨ c = 3 := by omega
        rcases hc with rfl | rfl | rfl <;> simp
      · exact ih (i + 1) p1 p h (by omega) (by omega) j c (by omega) (by omega) h3 h4

theorem mergeLoop_of_lt (paletteFrom : List Nat) (T F : Nat) :
    ∀ n i paletteTo,
      (∀ j c, i ≤ j → j < i + n → 1 ≤ c → c ≤ 3 →
        (T + j * 4 + c) % 4294967296 < paletteTo.length ∧
        (F + j * 4 + c) % 4294967296 < paletteFrom.length) →
      ∃ p, mergeLoop paletteFrom T F n i paletteTo = .ok p := by
  intro n
  induction n with
  | zero => intro i paletteTo _; exact ⟨paletteTo, rfl⟩
  | succ n ih =>
    intro i paletteTo hin
    obtain ⟨p1, hp1⟩ := mergeStep_of_lt paletteFrom paletteTo T F i
      (fun c h1 h2 => (hin i c (le_refl _) (by omega) h1 h2).1)
      (fun c h1 h2 => (hin i c (le_refl _) (by omega) h1 h2).2)
    rw [mergeLoop, hp1]
    simp only
    exact ih (i + 1) p1 (fun j c h1 h2 h3 h4 => by
      rw [(mergeStep_ok hp1).1]
      exact hin j c (by omega) (by omega) h3 h4)

/-! ## `MergePalettes` as a whole -/

theorem savePaletteLoop_entry :
    ∀ (palette : List PngColor) (k i : Nat) (c : PngColor), palette[i]? = some c →
      ((savePaletteLoop palette (k % 256)).drop (4 * i)).take 4 =
        le32 (paletteWord ((k + i) % 256) c) := by
  intro palette
  induction palette with
  | nil => intro k i c h; simp at h
  | cons d ds ih =>
    intro k i c h
    have hnext : (k % 256 + 1) % 256 = (k + 1) % 256 := by omega
    cases i with
    | zero =>
      simp only [List.getElem?_cons_zero, Option.some.injEq] at h
      subst h
      simp [savePaletteLoop, le32]
    | succ i =>
      simp only [List.getElem?_cons_succ] at h
      have := ih (k + 1) i c h
      rw [savePaletteLoop, hnext]
      have h4 : 4 * (i + 1) = (le32 (paletteWord (k % 256) d)).length + 4 * i := by
        rw [le32_length]; omega
      rw [h4, List.drop_append, this]
      congr 3
      omega

/-- The two ways a call of `MergePalettes` that stays inside the vectors can end. -/
theorem mergePalettes_cases (paletteTo paletteFrom : List Nat) (ToStart FromStart FromSize : Nat)
    (out : MergeOut)
    (h : MergePalettes paletteTo paletteFrom ToStart FromStart FromSize = .ok out) :
    out.paletteFrom = paletteFrom ∧
    ((out.result = false ∧ out.paletteTo = paletteTo ∧
        (paletteTo.length ≠ paletteFrom.length ∨ toByteOffset ToStart > paletteTo.length ∨
          toByteOffset FromStart > paletteFrom.length ∨ FromSize > paletteFrom.length)) ∨
      (out.result = true ∧ paletteTo.length = paletteFrom.length ∧
        toByteOffset ToStart ≤ paletteTo.length ∧ toByteOffset FromStart ≤ paletteFrom.length ∧
        FromSize ≤ paletteFrom.length ∧
        mergeLoop paletteFrom (toByteOffset ToStart) (toByteOffset FromStart) FromSize 0
          paletteTo = .ok out.paletteTo)) := by
  unfold MergePalettes at h
  by_cases h1 : paletteTo.length ≠ paletteFrom.length
  · rw [if_pos h1] at h
    rw [← Outcome.ok.inj h]
    exact ⟨rfl, Or.inl ⟨rfl, rfl, Or.inl h1⟩⟩
  · rw [if_neg h1] at h
    by_cases h2 : toByteOffset ToStart > paletteTo.length ∨
        toByteOffset FromStart > paletteFrom.length
    · rw [if_pos h2] at h
      rw [← Outcome.ok.inj h]
      refine ⟨rfl, Or.inl ⟨rfl, rfl, ?_⟩⟩
      rcases h2 with h2 | h2
      · exact Or.inr (Or.inl h2)
      · exact Or.inr (Or.inr (Or.inl h2))
    · rw [if_neg h2] at h
      by_cases h3 : FromSize > paletteFrom.length
      · rw [if_pos h3] at h
        rw [← Outcome.ok.inj h]
        exact ⟨rfl, Or.inl ⟨rfl, rfl, Or.inr (Or.inr (Or.inr h3))⟩⟩
      · rw [if_neg h3] at h
        cases hl : mergeLoop paletteFrom (toByteOffset ToStart) (toByteOffset FromStart)
            FromSize 0 paletteTo with
        | outOfBounds => rw [hl] at h; cases h
        | outOfFuel => rw [hl] at h; cases h
        | ok p =>
          rw [hl] at h
          rw [← Outcome.ok.inj h]
          refine ⟨rfl, Or.inr ⟨rfl, by omega, by omega, by omega, by omega, rfl⟩⟩

theorem mergePalettes_rejects (paletteTo paletteFrom : List Nat)
    (ToStart FromStart FromSize : Nat)
    (h : paletteTo.length ≠ paletteFrom.length ∨ toByteOffset ToStart > paletteTo.length ∨
      toByteOffset FromStart > paletteFrom.length ∨ FromSize > paletteFrom.length) :
    MergePalettes paletteTo paletteFrom ToStart FromStart FromSize =
      .ok ⟨false, paletteTo, paletteFrom⟩ := by
  unfold MergePalettes
  by_cases h1 : paletteTo.length ≠ paletteFrom.length
  · rw [if_pos h1]
  · rw [if_neg h1]
    by_cases h2 : toByteOffset ToStart > paletteTo.length ∨
        toByteOffset FromStart > paletteFrom.length
    · rw [if_pos h2]
    · rw [if_neg h2]
      have h3 : FromSize > paletteFrom.length := by
        rcases h with h | h | h | h
        · exact absurd h h1
        · exact absurd (Or.inl h) h2
        · exact absurd (Or.inr h) h2
        · exact h
      rw [if_pos h3]

theorem mergePalettes_accepts (paletteTo paletteFrom p : List Nat)
    (ToStart FromStart FromSize : Nat)
    (h1 : paletteTo.length = paletteFrom.length)
    (h2 : toByteOffset ToStart ≤ paletteTo.length)
    (h3 : toByteOffset FromStart ≤ paletteFrom.length) (h4 : FromSize ≤ paletteFrom.length)
    (hl : mergeLoop paletteFrom (toByteOffset ToStart) (toByteOffset FromStart) FromSize 0
      paletteTo = .ok p) :
    MergePalettes paletteTo paletteFrom ToStart FromStart FromSize =
      .ok ⟨true, p, paletteFrom⟩ := by
  unfold MergePalettes
  have n1 : ¬ paletteTo.length ≠ paletteFrom.length := by simp [h1]
  have n2 : ¬ (toByteOffset ToStart > paletteTo.length ∨
      toByteOffset FromStart > paletteFrom.length) := by omega
  have n3 : ¬ FromSize > paletteFrom.length := by omega
  rw [if_neg n1, if_neg n2, if_neg n3, hl]

/-- The copy of a range that lies inside two vectors of at most 2^32 bytes. -/
theorem mergePalettes_range (paletteTo paletteFrom : List Nat) (ts fs n : Nat)
    (hlen : paletteTo.length = paletteFrom.length)
    (hto : (ts + 1 + n) * 4 ≤ paletteTo.length) (hfrom : (fs + 1 + n) * 4 ≤ paletteFrom.length)
    (hsmall : paletteTo.length ≤ 4294967296) :
    ∃ out, MergePalettes paletteTo paletteFrom ts fs n = .ok out ∧ out.result = true ∧
      out.paletteFrom = paletteFrom ∧ out.paletteTo.length = paletteTo.length ∧
      (∀ i c, i < n → 1 ≤ c → c ≤ 3 →
        out.paletteTo[(ts + 1 + i) * 4 + c]? = paletteFrom[(fs + 1 + i) * 4 + c]?) ∧
      (∀ k, (∀ i c, i < n → 1 ≤ c → c ≤ 3 → k ≠ (ts + 1 + i) * 4 + c) →
        out.paletteTo[k]? = paletteTo[k]?) := by
  rcases Nat.eq_zero_or_pos n with h0 | hpos
  · subst h0
    have hT : toByteOffset ts ≤ paletteTo.length := by unfold toByteOffset; omega
    have hF : toByteOffset fs ≤ paletteFrom.length := by unfold toByteOffset; omega
    refine ⟨⟨true, paletteTo, paletteFrom⟩, mergePalettes_accepts _ _ _ _ _ _ hlen hT hF
      (Nat.zero_le _) rfl, rfl, rfl, rfl, ?_, fun _ _ => rfl⟩
    intro i c hi; omega
  · have hT : toByteOffset ts = (ts + 1) * 4 := toByteOffset_small ts (by omega)
    have hF : toByteOffset fs = (fs + 1) * 4 := toByteOffset_small fs (by omega)
    obtain ⟨p, hp⟩ := mergeLoop_of_lt paletteFrom (toByteOffset ts) (toByteOffset fs) n 0
      paletteTo (fun j c h1 h2 h3 h4 => by rw [hT, hF]; constructor <;> omega)
    refine ⟨⟨true, p, paletteFrom⟩, mergePalettes_accepts _ _ _ _ _ _ hlen (by omega) (by omega)
      (by omega) hp, rfl, rfl, mergeLoop_length _ _ _ _ _ _ _ hp, ?_, ?_⟩
    · intro i c hi h1 h2
      have := mergeLoop_written paletteFrom _ _ n 0 paletteTo p hp (by rw [hT]; omega)
        (by rw [hF]; omega) i c (Nat.zero_le _) (by omega) h1 h2
      rw [hT, hF] at this
      have e1 : (ts + 1 + i) * 4 + c = (ts + 1) * 4 + i * 4 + c := by omega
      have e2 : (fs + 1 + i) * 4 + c = (fs + 1) * 4 + i * 4 + c := by omega
      rw [e1, e2]
      exact this
    · intro k hk
      apply mergeLoop_frame paletteFrom _ _ n 0 paletteTo p hp k
      intro j c h1 h2 h3 h4
      rw [hT]
      have := hk j c (by omega) h3 h4
      omega

/-- A single entry copied by a call whose destination offset is 4. -/
theorem mergePalettes_one (paletteTo paletteFrom : List Nat) (ts : Nat)
    (hlen : paletteTo.length = paletteFrom.length) (hT : toByteOffset ts = 4)
    (h8 : 8 ≤ paletteTo.length) :
    ∃ out, MergePalettes paletteTo paletteFrom ts 0 1 = .ok out ∧ out.result = true ∧
      ∀ k, out.paletteTo[k]? =
        if k = 7 then paletteFrom[7]? else if k = 6 then paletteFrom[6]?
        else if k = 5 then paletteFrom[5]? else paletteTo[k]? := by
  have hF : toByteOffset 0 = 4 := by decide
  obtain ⟨p, hp⟩ := mergeStep_of_lt paletteFrom paletteTo 4 4 0
    (fun c h1 h2 => by omega) (fun c h1 h2 => by omega)
  have hl : mergeLoop paletteFrom (toByteOffset ts) (toByteOffset 0) 1 0 paletteTo = .ok p := by
    rw [hT, hF, mergeLoop, hp]
    rfl
  refine ⟨_, mergePalettes_accepts _ _ _ _ _ _ hlen (by omega) (by omega) (by omega) hl, rfl, ?_⟩
  intro k
  have := (mergeStep_ok hp).2.2.2.2.2.2.2 k
  simpa using this

/-! ## The sprite file and the merge tool -/

theorem flatMap_le32_length (l : List Nat) : (l.flatMap le32).length = 4 * l.length := by
  induction l with
  | nil => rfl
  | cons v vs ih =>
    rw [List.flatMap_cons, List.length_append, ih, le32_length, List.length_cons]
    omega

theorem flatMap_le32_entry :
    ∀ (l : List Nat) (k v : Nat), l[k]? = some v →
      ((l.flatMap le32).drop (4 * k)).take 4 = le32 v := by
  intro l
  induction l with
  | nil => intro k v h; simp at h
  | cons d ds ih =>
    intro k v h
    cases k with
    | zero =>
      simp only [List.getElem?_cons_zero, Option.some.injEq] at h
      subst h
      simp [le32]
    | succ k =>
      simp only [List.getElem?_cons_succ] at h
      have h4 : 4 * (k + 1) = (le32 d).length + 4 * k := by rw [le32_length]; omega
      rw [List.flatMap_cons, h4, List.drop_append, ih k v h]

theorem offsetsOf_lt (encs : List (List Nat)) :
    ∀ start, ∀ v ∈ offsetsOf start encs, v < 4294967296 := by
  induction encs with
  | nil => intro start v hv; simp [offsetsOf] at hv
  | cons e es ih =>
    intro start v hv
    simp only [offsetsOf, List.mem_cons] at hv
    rcases hv with rfl | hv
    · exact Nat.mod_lt _ (by norm_num)
    · exact ih _ v hv

/-- The file written for a grid whose width and height are multiples of the tile
size. -/
theorem compressFile_grid (fuel : Nat) (data : List Nat) (w h sprW sprH : Nat)
    (hW : 0 < sprW) (hH : 0 < sprH) (hw : w % sprW = 0) (hh : h % sprH = 0)
    (hlen : data.length = w * h) (hw32 : w < 4294967296) (hh32 : h < 4294967296)
    (hfuel : w + h + sprW < fuel) :
    ∃ res, CompressSpriteData fuel data w h sprW sprH = .ok res ∧
      CompressSpriteDataFile fuel data w h sprW sprH = .ok (spriteFileBytes res sprW sprH) ∧
      res.sprOffsets.length = w / sprW * (h / sprH) ∧
      res.sprCount = (w / sprW * (h / sprH)) % 4294967296 ∧
      ∀ v ∈ res.sprOffsets, v < 4294967296 := by
  obtain ⟨_, hrun⟩ := compress_grid fuel data w h sprW sprH hW hH hw hh hlen hw32 hh32 hfuel
  refine ⟨_, hrun, ?_, ?_, rfl, ?_⟩
  · rw [CompressSpriteDataFile, hrun]
  · show (offsetsOf 0 _).length = _
    rw [offsetsOf_length, sheetBytes_length]
  · exact offsetsOf_lt _ 0

/-- With exactly four arguments `main` of AmigaPaletteMerge passes the test on
`argc` and reaches `argv[5]`. -/
theorem paletteMergeMain_four (stoi : List Char → Option Int)
    (files : List Char → Option (List Nat)) (canSave : List Char → Bool)
    (p a1 a2 a3 a4 : List Char) :
    paletteMergeMain stoi files canSave [p, a1, a2, a3, a4] =
      (match stoi a3 with
        | none => ⟨.stoiThrew, [], none⟩
        | some _ =>
          match stoi a4 with
          | none => ⟨.stoiThrew, [], none⟩
          | some _ => ⟨.nullArgument, [], none⟩) := by
  unfold paletteMergeMain
  cases h3 : stoi a3 with
  | none => simp [h3]
  | some t =>
    cases h4 : stoi a4 with
    | none => simp [h3, h4]
    | some f => simp [h3, h4]

/-- The paths of `main` of AmigaPaletteMerge that do return: fewer than four
arguments give the usage text and `EXIT_FAILURE`; a returned `EXIT_FAILURE` comes
with a message and without a written file; and the destination file is written only
by a run that returns `EXIT_SUCCESS`, after `MergePalettes` returned true, with the
merged `paletteTo`. -/
theorem paletteMergeMain_paths (stoi : List Char → Option Int)
    (files : List Char → Option (List Nat)) (canSave : List Char → Bool)
    (argv : List (List Char)) :
    (argv.length < 5 →
      paletteMergeMain stoi files canSave argv = ⟨.returned 1, [.usage], none⟩) ∧
    (∀ code, (paletteMergeMain stoi files canSave argv).ending = .returned code →
      code ≠ 0 →
      code = 1 ∧ (paletteMergeMain stoi files canSave argv).printed ≠ [] ∧
        (paletteMergeMain stoi files canSave argv).saved = none) ∧
    (∀ name bytes, (paletteMergeMain stoi files canSave argv).saved = some (name, bytes) →
      (paletteMergeMain stoi files canSave argv).ending = .returned 0 ∧
      ∃ paletteTo paletteFrom ts fs n out, files name = some paletteTo ∧
        MergePalettes paletteTo paletteFrom ts fs n = .ok out ∧ out.result = true ∧
        bytes = out.paletteTo) := by
  refine ⟨?_, ?_, ?_⟩
  · intro h
    unfold paletteMergeMain
    rw [if_pos h]
  · intro code hend hne
    generalize hr : paletteMergeMain stoi files canSave argv = r at hend ⊢
    unfold paletteMergeMain at hr
    repeat' split at hr
    all_goals (subst hr; simp_all)
  · intro name bytes hs
    generalize hr : paletteMergeMain stoi files canSave argv = r at hs ⊢
    unfold paletteMergeMain at hr
    repeat' split at hr
    all_goals (subst hr; simp only [reduceCtorEq, Option.some.injEq, Prod.mk.injEq] at hs)
    rename_i _ pt hpt _ pf hpf _ out hout hres hsave
    obtain ⟨rfl, rfl⟩ := hs
    exact ⟨rfl, pt, pf, _, _, _, out, hpt, hout, by simpa using hres, rfl⟩

/-! ## The palette record codec: results -/

/-- C11. For a list of `n < 2^32` colours whose channels are bytes,
`Save_ApolloV4_Palette` writes the four bytes of `n` as a little-endian 32-bit word
and then, for the colour at position `i` (from 0, in input order), the four bytes
`i % 256`, red, green, blue, which are the little-endian bytes of the word
`index | red << 8 | green << 16 | blue << 24` with `index = i % 256`. The colours
(10,20,30), (40,50,60), (70,80,90) give
`03 00 00 00 00 0A 14 1E 01 28 32 3C 02 46 50 5A`. -/
theorem save_palette_bytes (palette : List PngColor) (hn : palette.length < 4294967296)
    (hbytes : ∀ c ∈ palette, c.red < 256 ∧ c.green < 256 ∧ c.blue < 256) :
    Save_ApolloV4_Palette palette =
      le32 palette.length ++
        palette.enum.flatMap (fun p => [p.1 % 256, p.2.red, p.2.green, p.2.blue]) ∧
    (Save_ApolloV4_Palette palette).take 4 = le32 palette.length ∧
    palette.length % 256 + 256 * (palette.length / 256 % 256)
      + 65536 * (palette.length / 65536 % 256)
      + 16777216 * (palette.length / 16777216 % 256) = palette.length ∧
    (∀ i c, palette[i]? = some c →
      ((Save_ApolloV4_Palette palette).drop (4 + 4 * i)).take 4 =
        [i % 256, c.red, c.green, c.blue] ∧
      le32 (paletteWord (i % 256) c) = [i % 256, c.red, c.green, c.blue] ∧
      (i ≤ 255 → i % 256 = i)) ∧
    Save_ApolloV4_Palette [⟨10, 20, 30⟩, ⟨40, 50, 60⟩, ⟨70, 80, 90⟩] =
      [0x03, 0x00, 0x00, 0x00, 0x00, 0x0A, 0x14, 0x1E, 0x01, 0x28, 0x32, 0x3C,
        0x02, 0x46, 0x50, 0x5A] := by
  have hmod : palette.length % 4294967296 = palette.length := Nat.mod_eq_of_lt hn
  have hloop := savePaletteLoop_eq palette hbytes 0
  rw [Nat.zero_mod] at hloop
  refine ⟨?_, ?_, le32_decode _ hn, ?_, by decide⟩
  · rw [Save_ApolloV4_Palette, hmod, hloop]
    rfl
  · rw [Save_ApolloV4_Palette, hmod]
    simp [le32]
  · intro i c hc
    obtain ⟨h1, h2, h3⟩ := hbytes c (List.mem_iff_getElem?.2 ⟨i, hc⟩)
    have hw : le32 (paletteWord (i % 256) c) = [i % 256, c.red, c.green, c.blue] := by
      cases c with
      | mk r g b => exact le32_paletteWord (i % 256) r g b (Nat.mod_lt _ (by norm_num)) h1 h2 h3
    refine ⟨?_, hw, fun hi => Nat.mod_eq_of_lt (by omega)⟩
    have hentry := savePaletteLoop_entry palette 0 i c hc
    rw [Nat.zero_mod, Nat.zero_add] at hentry
    rw [Save_ApolloV4_Palette, ← hw, ← hentry]
    have h4 : 4 + 4 * i = (le32 (palette.length % 4294967296)).length + 4 * i := by
      rw [le32_length]
    rw [h4, List.drop_append]

/-- Witness for C11: the three colours of the scenario. -/
theorem save_palette_bytes_witness :
    ([⟨10, 20, 30⟩, ⟨40, 50, 60⟩, (⟨70, 80, 90⟩ : PngColor)].length < 4294967296 ∧
      ∀ c ∈ [⟨10, 20, 30⟩, ⟨40, 50, 60⟩, (⟨70, 80, 90⟩ : PngColor)],
        c.red < 256 ∧ c.green < 256 ∧ c.blue < 256) ∧
    Save_ApolloV4_Palette [⟨10, 20, 30⟩, ⟨40, 50, 60⟩, ⟨70, 80, 90⟩] =
      [0x03, 0x00, 0x00, 0x00, 0x00, 0x0A, 0x14, 0x1E, 0x01, 0x28, 0x32, 0x3C,
        0x02, 0x46, 0x50, 0x5A] :=
  ⟨by decide, (save_palette_bytes [⟨10, 20, 30⟩, ⟨40, 50, 60⟩, ⟨70, 80, 90⟩] (by decide)
    (by decide)).2.2.2.2⟩

/-- C12. The length of a palette buffer is kept by both operations: the file written
by `Save_ApolloV4_Palette` for `n` colours has exactly `4 * (n + 1)` bytes, a multiple
of 4, and a call of `MergePalettes`, whether it returns true or false, leaves
`paletteTo` with the length it had. -/
theorem palette_length_kept (palette : List PngColor) (paletteTo paletteFrom : List Nat)
    (ToStart FromStart FromSize : Nat) :
    (Save_ApolloV4_Palette palette).length = 4 * (palette.length + 1) ∧
    (Save_ApolloV4_Palette palette).length % 4 = 0 ∧
    ∀ out, MergePalettes paletteTo paletteFrom ToStart FromStart FromSize = .ok out →
      out.paletteTo.length = paletteTo.length := by
  have hlen : (Save_ApolloV4_Palette palette).length = 4 * (palette.length + 1) := by
    rw [Save_ApolloV4_Palette, List.length_append, le32_length, savePaletteLoop_length]
    omega
  refine ⟨hlen, by omega, ?_⟩
  intro out h
  rcases (mergePalettes_cases _ _ _ _ _ out h).2 with ⟨_, h2, _⟩ | ⟨_, _, _, _, _, h6⟩
  · rw [h2]
  · exact mergeLoop_length _ _ _ _ _ _ _ h6

/-- C13 (amended). If a call of `MergePalettes` returns true, then the two vectors
have the same length, the byte offsets `((toStart + 1) * 4) mod 2^32` and
`((fromStart + 1) * 4) mod 2^32` computed by the code (`toByteOffset`) are at most
that length, and `fromSize` is at most that length: these are the tests the code
makes, and a call that fails one of them returns false and changes nothing. When
`(toStart + 1) * 4` and `(fromStart + 1) * 4` are below 2^32 they are the offsets
themselves, and for vectors shorter than 2^32 bytes a call that returned true also
has `fromSize * 4` at most the length. -/
theorem merge_success_conditions (paletteTo paletteFrom : List Nat)
    (ToStart FromStart FromSize : Nat) :
    (∀ out, MergePalettes paletteTo paletteFrom ToStart FromStart FromSize = .ok out →
      out.result = true →
      paletteTo.length = paletteFrom.length ∧
      toByteOffset ToStart ≤ paletteTo.length ∧
      toByteOffset FromStart ≤ paletteFrom.length ∧
      FromSize ≤ paletteFrom.length ∧
      ((ToStart + 1) * 4 < 4294967296 → (ToStart + 1) * 4 ≤ paletteTo.length) ∧
      ((FromStart + 1) * 4 < 4294967296 → (FromStart + 1) * 4 ≤ paletteFrom.length) ∧
      (paletteFrom.length < 4294967296 → FromSize * 4 ≤ paletteFrom.length)) ∧
    (paletteTo.length ≠ paletteFrom.length ∨ toByteOffset ToStart > paletteTo.length ∨
        toByteOffset FromStart > paletteFrom.length ∨ FromSize > paletteFrom.length →
      MergePalettes paletteTo paletteFrom ToStart FromStart FromSize =
        .ok ⟨false, paletteTo, paletteFrom⟩) := by
  refine ⟨?_, mergePalettes_rejects _ _ _ _ _⟩
  intro out h htrue
  rcases (mergePalettes_cases _ _ _ _ _ out h).2 with ⟨h1, _⟩ | ⟨_, h2, h3, h4, h5, h6⟩
  · rw [h1] at htrue; cases htrue
  · refine ⟨h2, h3, h4, h5, ?_, ?_, ?_⟩
    · intro hs; rw [← toByteOffset_small _ hs]; exact h3
    · intro hs; rw [← toByteOffset_small _ hs]; exact h4
    · intro hs
      rcases Nat.eq_zero_or_pos FromSize with h0 | hpos
      · rw [h0]; omega
      · obtain ⟨n, hn⟩ : ∃ n, FromSize = n + 1 := ⟨FromSize - 1, by omega⟩
        rw [hn] at h6
        have := mergeLoop_no_wrap paletteFrom _ _ (toByteOffset_mod ToStart)
          (toByteOffset_mod FromStart) n 0 paletteTo _ h6 (by omega) hs
          (by have := toByteOffset_lt ToStart; omega)
          (by have := toByteOffset_lt FromStart; omega)
        omega

/-- Witness for C13: two 12-byte buffers, `toStart = fromStart = 0`, `fromSize = 2`. -/
theorem merge_success_conditions_witness :
    MergePalettes [2, 0, 0, 0, 0, 1, 2, 3, 1, 4, 5, 6] [2, 0, 0, 0, 0, 11, 12, 13, 1, 14, 15, 16]
        0 0 2 = .ok ⟨true, [2, 0, 0, 0, 0, 11, 12, 13, 1, 14, 15, 16],
          [2, 0, 0, 0, 0, 11, 12, 13, 1, 14, 15, 16]⟩ ∧
    ([2, 0, 0, 0, 0, 1, 2, 3, 1, 4, 5, 6].length
        = [2, 0, 0, 0, 0, 11, 12, 13, 1, 14, 15, 16].length ∧
      toByteOffset 0 ≤ [2, 0, 0, 0, 0, 1, 2, 3, 1, 4, 5, 6].length ∧
      toByteOffset 0 ≤ [2, 0, 0, 0, 0, 11, 12, 13, 1, 14, 15, 16].length ∧
      2 ≤ [2, 0, 0, 0, 0, 11, 12, 13, 1, 14, 15, 16].length ∧
      ((0 + 1) * 4 < 4294967296 → (0 + 1) * 4 ≤ [2, 0, 0, 0, 0, 1, 2, 3, 1, 4, 5, 6].length) ∧
      ((0 + 1) * 4 < 4294967296 →
        (0 + 1) * 4 ≤ [2, 0, 0, 0, 0, 11, 12, 13, 1, 14, 15, 16].length) ∧
      ([2, 0, 0, 0, 0, 11, 12, 13, 1, 14, 15, 16].length < 4294967296 →
        2 * 4 ≤ [2, 0, 0, 0, 0, 11, 12, 13, 1, 14, 15, 16].length)) :=
  ⟨by decide, (merge_success_conditions [2, 0, 0, 0, 0, 1, 2, 3, 1, 4, 5, 6]
    [2, 0, 0, 0, 0, 11, 12, 13, 1, 14, 15, 16] 0 0 2).1
      ⟨true, [2, 0, 0, 0, 0, 11, 12, 13, 1, 14, 15, 16],
        [2, 0, 0, 0, 0, 11, 12, 13, 1, 14, 15, 16]⟩ (by decide) rfl⟩

/-- Counterexample to C13 as stated: with `toStart = fromStart = 2^30 - 1` the byte
offsets wrap to 0, so on two empty buffers and `fromSize = 0` the call returns true
although `(toStart + 1) * 4 = 2^32` exceeds the length 0. -/
theorem merge_offset_wrap_counterexample :
    MergePalettes [] [] 1073741823 1073741823 0 = .ok ⟨true, [], []⟩ ∧
    ¬ ((1073741823 + 1) * 4 ≤ ([] : List Nat).length) := by
  decide

/-- C14 (amended). For two buffers of equal length `L ≤ 2^32` and arguments with
`(toStart + 1 + fromSize) * 4 ≤ L` and `(fromStart + 1 + fromSize) * 4 ≤ L`,
`MergePalettes` returns true, and in the resulting `paletteTo`, for every
`i < fromSize` and `c` in 1, 2, 3, byte `(toStart + 1 + i) * 4 + c` is the byte
`(fromStart + 1 + i) * 4 + c` of `paletteFrom`, and every other byte of `paletteTo`
is unchanged. With `toStart = 0`, `fromStart = 0`, `fromSize = 2` on two 12-byte
buffers bytes 5, 6, 7 and 9, 10, 11 are copied and bytes 0 to 3, 4 and 8 are left. -/
theorem merge_copies_range (paletteTo paletteFrom : List Nat) (ToStart FromStart FromSize : Nat)
    (hlen : paletteTo.length = paletteFrom.length)
    (hto : (ToStart + 1 + FromSize) * 4 ≤ paletteTo.length)
    (hfrom : (FromStart + 1 + FromSize) * 4 ≤ paletteFrom.length)
    (hsmall : paletteTo.length ≤ 4294967296) :
    (∃ out, MergePalettes paletteTo paletteFrom ToStart FromStart FromSize = .ok out ∧
      out.result = true ∧ out.paletteFrom = paletteFrom ∧
      out.paletteTo.length = paletteTo.length ∧
      (∀ i c, i < FromSize → 1 ≤ c → c ≤ 3 →
        out.paletteTo[(ToStart + 1 + i) * 4 + c]? = paletteFrom[(FromStart + 1 + i) * 4 + c]?) ∧
      (∀ k, (∀ i c, i < FromSize → 1 ≤ c → c ≤ 3 → k ≠ (ToStart + 1 + i) * 4 + c) →
        out.paletteTo[k]? = paletteTo[k]?)) ∧
    MergePalettes [2, 0, 0, 0, 100, 1, 2, 3, 101, 4, 5, 6]
        [9, 9, 9, 9, 200, 11, 12, 13, 201, 14, 15, 16] 0 0 2 =
      .ok ⟨true, [2, 0, 0, 0, 100, 11, 12, 13, 101, 14, 15, 16],
        [9, 9, 9, 9, 200, 11, 12, 13, 201, 14, 15, 16]⟩ :=
  ⟨mergePalettes_range paletteTo paletteFrom ToStart FromStart FromSize hlen hto hfrom hsmall,
    by decide⟩

/-- Witness for C14: entry 1 of an 8-byte buffer copied to entry 2 of another. -/
theorem merge_copies_range_witness :
    ([2, 0, 0, 0, 100, 1, 2, 3, 101, 4, 5, 6].length
        = [9, 9, 9, 9, 200, 11, 12, 13, 201, 14, 15, 16].length ∧
      (1 + 1 + 1) * 4 ≤ [2, 0, 0, 0, 100, 1, 2, 3, 101, 4, 5, 6].length ∧
      (0 + 1 + 1) * 4 ≤ [9, 9, 9, 9, 200, 11, 12, 13, 201, 14, 15, 16].length ∧
      [2, 0, 0, 0, 100, 1, 2, 3, 101, 4, 5, 6].length ≤ 4294967296) ∧
    ((∃ out, MergePalettes [2, 0, 0, 0, 100, 1, 2, 3, 101, 4, 5, 6]
        [9, 9, 9, 9, 200, 11, 12, 13, 201, 14, 15, 16] 1 0 1 = .ok out ∧
      out.result = true ∧ out.paletteFrom = [9, 9, 9, 9, 200, 11, 12, 13, 201, 14, 15, 16] ∧
      out.paletteTo.length = [2, 0, 0, 0, 100, 1, 2, 3, 101, 4, 5, 6].length ∧
      (∀ i c, i < 1 → 1 ≤ c → c ≤ 3 →
        out.paletteTo[(1 + 1 + i) * 4 + c]? =
          [9, 9, 9, 9, 200, 11, 12, 13, 201, 14, 15, 16][(0 + 1 + i) * 4 + c]?) ∧
      (∀ k, (∀ i c, i < 1 → 1 ≤ c → c ≤ 3 → k ≠ (1 + 1 + i) * 4 + c) →
        out.paletteTo[k]? = [2, 0, 0, 0, 100, 1, 2, 3, 101, 4, 5, 6][k]?)) ∧
    MergePalettes [2, 0, 0, 0, 100, 1, 2, 3, 101, 4, 5, 6]
        [9, 9, 9, 9, 200, 11, 12, 13, 201, 14, 15, 16] 0 0 2 =
      .ok ⟨true, [2, 0, 0, 0, 100, 11, 12, 13, 101, 14, 15, 16],
        [9, 9, 9, 9, 200, 11, 12, 13, 201, 14, 15, 16]⟩) :=
  ⟨by decide, merge_copies_range [2, 0, 0, 0, 100, 1, 2, 3, 101, 4, 5, 6]
    [9, 9, 9, 9, 200, 11, 12, 13, 201, 14, 15, 16] 1 0 1 (by decide) (by decide) (by decide)
    (by decide)⟩

/-- Counterexample to C14 as stated: two buffers of 2^32 + 8 bytes, all 0 and all 1,
`toStart = 2^30`, `fromStart = 0`, `fromSize = 1`. Both range conditions hold, but
the destination offset `(2^30 + 1) * 4` wraps to 4: byte `(toStart + 1) * 4 + 1` keeps
its 0 instead of taking the 1 of the source byte `(fromStart + 1) * 4 + 1`, and byte
5, outside the range, is overwritten. -/
theorem merge_range_wrap_counterexample :
    ∃ out, MergePalettes (List.replicate 4294967304 0) (List.replicate 4294967304 1)
        1073741824 0 1 = .ok out ∧
      (List.replicate 4294967304 0).length = (List.replicate 4294967304 1).length ∧
      (1073741824 + 1 + 1) * 4 ≤ (List.replicate 4294967304 0).length ∧
      (0 + 1 + 1) * 4 ≤ (List.replicate 4294967304 1).length ∧
      out.paletteTo[(1073741824 + 1 + 0) * 4 + 1]? = some 0 ∧
      (List.replicate 4294967304 1)[(0 + 1 + 0) * 4 + 1]? = some 1 ∧
      out.paletteTo[5]? = some 1 ∧
      (List.replicate 4294967304 0)[5]? = some 0 := by
  have hT : toByteOffset 1073741824 = 4 := by decide
  obtain ⟨out, hout, _, hbytes⟩ := mergePalettes_one (List.replicate 4294967304 0)
    (List.replicate 4294967304 1) 1073741824
    (by rw [List.length_replicate, List.length_replicate]) hT
    (by rw [List.length_replicate]; norm_num)
  refine ⟨out, hout, by rw [List.length_replicate, List.length_replicate],
    by rw [List.length_replicate], by rw [List.length_replicate]; norm_num, ?_, ?_, ?_, ?_⟩
  · rw [hbytes, List.getElem?_replicate]
    norm_num
  · rw [List.getElem?_replicate]
    norm_num
  · rw [hbytes, List.getElem?_replicate]
    norm_num
  · rw [List.getElem?_replicate]
    norm_num

/-- Evaluation for C15 at two 12-byte buffers with `toStart = fromStart = 0` and
`fromSize = 3`: the four stated preconditions hold, the first two iterations copy
entries 1 and 2, and the third reads `paletteFrom[13]` and writes `paletteTo[13]`,
past the end of both buffers. -/
theorem merge_overrun_evaluation :
    [2, 0, 0, 0, 0, 1, 2, 3, 1, 4, 5, 6].length
        = [2, 0, 0, 0, 0, 11, 12, 13, 1, 14, 15, 16].length ∧
    (0 + 1) * 4 ≤ [2, 0, 0, 0, 0, 1, 2, 3, 1, 4, 5, 6].length ∧
    (0 + 1) * 4 ≤ [2, 0, 0, 0, 0, 11, 12, 13, 1, 14, 15, 16].length ∧
    3 * 4 ≤ [2, 0, 0, 0, 0, 11, 12, 13, 1, 14, 15, 16].length ∧
    mergeLoop [2, 0, 0, 0, 0, 11, 12, 13, 1, 14, 15, 16] (toByteOffset 0) (toByteOffset 0) 2 0
        [2, 0, 0, 0, 0, 1, 2, 3, 1, 4, 5, 6] = .ok [2, 0, 0, 0, 0, 11, 12, 13, 1, 14, 15, 16] ∧
    mergeStep [2, 0, 0, 0, 0, 11, 12, 13, 1, 14, 15, 16] (toByteOffset 0) (toByteOffset 0) 2
        [2, 0, 0, 0, 0, 11, 12, 13, 1, 14, 15, 16] = .outOfBounds ∧
    (toByteOffset 0 + 2 * 4 + 1) % 4294967296 = 13 ∧
    MergePalettes [2, 0, 0, 0, 0, 1, 2, 3, 1, 4, 5, 6]
        [2, 0, 0, 0, 0, 11, 12, 13, 1, 14, 15, 16] 0 0 3 = .outOfBounds := by
  decide

/-- C16. `MergePalettes` is all-or-nothing on failure: whenever it returns false,
`paletteTo` is unchanged; `paletteFrom` is unchanged by every call; and for two
buffers of different lengths the call returns false and `paletteTo` is unchanged. -/
theorem merge_failure_changes_nothing (paletteTo paletteFrom : List Nat)
    (ToStart FromStart FromSize : Nat) :
    (∀ out, MergePalettes paletteTo paletteFrom ToStart FromStart FromSize = .ok out →
      out.paletteFrom = paletteFrom ∧ (out.result = false → out.paletteTo = paletteTo)) ∧
    (paletteTo.length ≠ paletteFrom.length →
      MergePalettes paletteTo paletteFrom ToStart FromStart FromSize =
        .ok ⟨false, paletteTo, paletteFrom⟩) := by
  constructor
  · intro out h
    obtain ⟨h1, h2⟩ := mergePalettes_cases _ _ _ _ _ out h
    refine ⟨h1, fun hfalse => ?_⟩
    rcases h2 with ⟨_, h3, _⟩ | ⟨h3, _⟩
    · exact h3
    · rw [h3] at hfalse; cases hfalse
  · intro hne
    exact mergePalettes_rejects _ _ _ _ _ (Or.inl hne)

/-- C17. `MergePalettes` never changes an index byte: for all arguments, the
arithmetic being modulo 2^32, every byte of `paletteTo` at an offset that is a
multiple of 4 has after the call the value it had before. -/
theorem merge_keeps_index_bytes (paletteTo paletteFrom : List Nat)
    (ToStart FromStart FromSize : Nat) :
    ∀ out, MergePalettes paletteTo paletteFrom ToStart FromStart FromSize = .ok out →
      ∀ k, k % 4 = 0 → out.paletteTo[k]? = paletteTo[k]? := by
  intro out h k hk
  rcases (mergePalettes_cases _ _ _ _ _ out h).2 with ⟨_, h2, _⟩ | ⟨_, _, _, _, _, h6⟩
  · rw [h2]
  · apply mergeLoop_frame paletteFrom _ _ FromSize 0 paletteTo _ h6 k
    intro j c _ _ h3 h4
    have := toByteOffset_mod ToStart
    omega

/-- C18 (amended). A call of `MergePalettes` leaves byte 0 of `paletteTo` unchanged,
for all arguments. When `toStart + 1` is not a multiple of 2^30, so that the byte
offset `(toStart + 1) * 4` computed modulo 2^32 is not 0, and `paletteTo` is shorter
than 2^32 bytes, it leaves bytes 0 to 3 of `paletteTo` unchanged. -/
theorem merge_skips_header (paletteTo paletteFrom : List Nat) (ToStart FromStart FromSize : Nat)
    (out : MergeOut)
    (h : MergePalettes paletteTo paletteFrom ToStart FromStart FromSize = .ok out) :
    out.paletteTo[0]? = paletteTo[0]? ∧
    ((ToStart + 1) % 1073741824 ≠ 0 → paletteTo.length < 4294967296 →
      ∀ k, k < 4 → out.paletteTo[k]? = paletteTo[k]?) := by
  rcases (mergePalettes_cases _ _ _ _ _ out h).2 with ⟨_, h2, _⟩ | ⟨_, hl, _, _, _, h6⟩
  · rw [h2]
    exact ⟨rfl, fun _ _ _ _ => rfl⟩
  · have hTmod := toByteOffset_mod ToStart
    constructor
    · apply mergeLoop_frame paletteFrom _ _ FromSize 0 paletteTo _ h6 0
      intro j c _ _ h3 h4
      omega
    · intro hstart hsmall k hk
      have hT4 : 4 ≤ toByteOffset ToStart := by unfold toByteOffset; omega
      have hTlt := toByteOffset_lt ToStart
      have hFlt := toByteOffset_lt FromStart
      rcases Nat.eq_zero_or_pos FromSize with h0 | hpos
      · rw [h0, mergeLoop] at h6
        rw [← Outcome.ok.inj h6]
      · obtain ⟨n, hn⟩ : ∃ n, FromSize = n + 1 := ⟨FromSize - 1, by omega⟩
        have h6' := h6
        rw [hn] at h6'
        have hnw := mergeLoop_no_wrap paletteFrom _ _ (toByteOffset_mod ToStart)
          (toByteOffset_mod FromStart) n 0 paletteTo _ h6' hsmall (by omega) (by omega) (by omega)
        apply mergeLoop_frame paletteFrom _ _ FromSize 0 paletteTo _ h6 k
        intro j c _ hj h3 h4
        omega

/-- Witness for C18: `toStart = 0` on two 8-byte buffers. -/
theorem merge_skips_header_witness :
    MergePalettes [2, 0, 0, 0, 0, 1, 2, 3] [2, 0, 0, 0, 0, 9, 8, 7] 0 0 1 =
      .ok ⟨true, [2, 0, 0, 0, 0, 9, 8, 7], [2, 0, 0, 0, 0, 9, 8, 7]⟩ ∧
    (0 + 1) % 1073741824 ≠ 0 ∧ [2, 0, 0, 0, 0, 1, 2, 3].length < 4294967296 ∧
    [2, 0, 0, 0, 0, 9, 8, 7][0]? = [2, 0, 0, 0, 0, 1, 2, 3][0]? ∧
    ∀ k, k < 4 → [2, 0, 0, 0, 0, 9, 8, 7][k]? = [2, 0, 0, 0, 0, 1, 2, 3][k]? :=
  have h := merge_skips_header [2, 0, 0, 0, 0, 1, 2, 3] [2, 0, 0, 0, 0, 9, 8, 7] 0 0 1
    ⟨true, [2, 0, 0, 0, 0, 9, 8, 7], [2, 0, 0, 0, 0, 9, 8, 7]⟩ (by decide)
  ⟨by decide, by decide, by decide, h.1, h.2 (by decide) (by decide)⟩

/-- Counterexample to C18 as stated: with `toStart = 2^30 - 1` the byte offset
`(toStart + 1) * 4` is 0 modulo 2^32, and the call overwrites bytes 1, 2, 3 of the
header word of `paletteTo`. -/
theorem merge_header_counterexample :
    MergePalettes [2, 0, 0, 0, 0, 1, 2, 3] [2, 0, 0, 0, 0, 9, 8, 7] 1073741823 0 1 =
      .ok ⟨true, [2, 9, 8, 7, 0, 1, 2, 3], [2, 0, 0, 0, 0, 9, 8, 7]⟩ ∧
    [2, 9, 8, 7, 0, 1, 2, 3].take 4 ≠ [2, 0, 0, 0, 0, 1, 2, 3].take 4 := by
  decide

/-- Witness for C17: byte 4, the index byte of entry 1, in a merge of two entries. -/
theorem merge_keeps_index_bytes_witness :
    (MergePalettes [2, 0, 0, 0, 100, 1, 2, 3, 101, 4, 5, 6]
        [9, 9, 9, 9, 200, 11, 12, 13, 201, 14, 15, 16] 0 0 2 =
      .ok ⟨true, [2, 0, 0, 0, 100, 11, 12, 13, 101, 14, 15, 16],
        [9, 9, 9, 9, 200, 11, 12, 13, 201, 14, 15, 16]⟩ ∧ 4 % 4 = 0) ∧
    [2, 0, 0, 0, 100, 11, 12, 13, 101, 14, 15, 16][4]? =
      [2, 0, 0, 0, 100, 1, 2, 3, 101, 4, 5, 6][4]? :=
  ⟨by decide, merge_keeps_index_bytes [2, 0, 0, 0, 100, 1, 2, 3, 101, 4, 5, 6]
    [9, 9, 9, 9, 200, 11, 12, 13, 201, 14, 15, 16] 0 0 2
    ⟨true, [2, 0, 0, 0, 100, 11, 12, 13, 101, 14, 15, 16],
      [9, 9, 9, 9, 200, 11, 12, 13, 201, 14, 15, 16]⟩ (by decide) 4 (by decide)⟩

/-- C19 (amended). For a grid whose width and height are multiples of the tile size
the bytes of the sprite file written by `CompressSpriteData` are exactly the ASCII
text `SPRITEDATA:`, the decimal digits of `sprCount`, a comma, the decimal digits
of the tile width, a comma, the decimal digits of the tile height and a colon,
immediately followed by the offset table, one little-endian 32-bit word per offset
in tile-scan order, 4 bytes for each of the `(w / sprW) * (h / sprH)` tiles,
immediately followed by the opcode stream, and nothing else; `sprCount` is the
number of tiles modulo 2^32. The 4 x 2 tile with the rows `0 0 5 5` and `5 5 0 0`
gives `SPRITEDATA:1,4,2:`, the word 0 and its eleven stream bytes. -/
theorem sprite_file_layout (fuel : Nat) (data : List Nat) (w h sprW sprH : Nat)
    (hW : 0 < sprW) (hH : 0 < sprH) (hw : w % sprW = 0) (hh : h % sprH = 0)
    (hlen : data.length = w * h) (hw32 : w < 4294967296) (hh32 : h < 4294967296)
    (hfuel : w + h + sprW < fuel) :
    (∃ res, CompressSpriteData fuel data w h sprW sprH = .ok res ∧
      CompressSpriteDataFile fuel data w h sprW sprH =
        .ok ([83, 80, 82, 73, 84, 69, 68, 65, 84, 65, 58] ++ decimal res.sprCount ++ [44]
          ++ decimal sprW ++ [44] ++ decimal sprH ++ [58] ++ res.sprOffsets.flatMap le32
          ++ res.sprData) ∧
      res.sprCount = (w / sprW * (h / sprH)) % 4294967296 ∧
      res.sprOffsets.length = w / sprW * (h / sprH) ∧
      (res.sprOffsets.flatMap le32).length = 4 * (w / sprW * (h / sprH)) ∧
      ∀ k v, res.sprOffsets[k]? = some v →
        ((res.sprOffsets.flatMap le32).drop (4 * k)).take 4 = le32 v ∧
        v % 256 + 256 * (v / 256 % 256) + 65536 * (v / 65536 % 256)
          + 16777216 * (v / 16777216 % 256) = v) ∧
    [83, 80, 82, 73, 84, 69, 68, 65, 84, 65, 58] = ['S', 'P', 'R', 'I', 'T', 'E', 'D', 'A', 'T',
      'A', ':'].map Char.toNat ∧
    [44] = [','].map Char.toNat ∧ [58] = [':'].map Char.toNat ∧
    decimal 120 = ['1', '2', '0'].map Char.toNat ∧
    CompressSpriteDataFile 12 [0, 0, 5, 5, 5, 5, 0, 0] 4 2 4 2 =
      .ok (['S', 'P', 'R', 'I', 'T', 'E', 'D', 'A', 'T', 'A', ':', '1', ',', '4', ',', '2',
          ':'].map Char.toNat ++ [0, 0, 0, 0]
        ++ [0x02, 0x02, 0x05, 0x05, 0xC9, 0x00, 0x02, 0x05, 0x05, 0xC9, 0xFF]) := by
  refine ⟨?_, by decide, by decide, by decide, by decide, by decide⟩
  obtain ⟨res, hres, hfile, hlenO, hcount, hlt⟩ :=
    compressFile_grid fuel data w h sprW sprH hW hH hw hh hlen hw32 hh32 hfuel
  refine ⟨res, hres, hfile, hcount, hlenO, by rw [flatMap_le32_length, hlenO], ?_⟩
  intro k v hv
  exact ⟨flatMap_le32_entry _ k v hv, le32_decode v (hlt v (List.mem_iff_getElem?.2 ⟨k, hv⟩))⟩

/-- Witness for C19: a 4 x 2 grid cut into 2 x 1 tiles. -/
theorem sprite_file_layout_witness :
    (0 < 2 ∧ 0 < 1 ∧ 4 % 2 = 0 ∧ 2 % 1 = 0 ∧ [1, 2, 3, 4, 5, 6, 7, 8].length = 4 * 2 ∧
      4 < 4294967296 ∧ 2 < 4294967296 ∧ 4 + 2 + 2 < 20) ∧
    ∃ res, CompressSpriteData 20 [1, 2, 3, 4, 5, 6, 7, 8] 4 2 2 1 = .ok res ∧
      CompressSpriteDataFile 20 [1, 2, 3, 4, 5, 6, 7, 8] 4 2 2 1 =
        .ok ([83, 80, 82, 73, 84, 69, 68, 65, 84, 65, 58] ++ decimal res.sprCount ++ [44]
          ++ decimal 2 ++ [44] ++ decimal 1 ++ [58] ++ res.sprOffsets.flatMap le32
          ++ res.sprData) ∧
      res.sprCount = (4 / 2 * (2 / 1)) % 4294967296 ∧
      res.sprOffsets.length = 4 / 2 * (2 / 1) ∧
      (res.sprOffsets.flatMap le32).length = 4 * (4 / 2 * (2 / 1)) ∧
      ∀ k v, res.sprOffsets[k]? = some v →
        ((res.sprOffsets.flatMap le32).drop (4 * k)).take 4 = le32 v ∧
        v % 256 + 256 * (v / 256 % 256) + 65536 * (v / 65536 % 256)
          + 16777216 * (v / 16777216 % 256) = v :=
  ⟨by decide, (sprite_file_layout 20 [1, 2, 3, 4, 5, 6, 7, 8] 4 2 2 1 (by decide) (by decide)
    (by decide) (by decide) (by decide) (by decide) (by decide) (by decide)).1⟩

/-- Counterexample to C19 as stated: a transparent 65536 x 65536 grid cut into 1 x 1
tiles has 2^32 tiles. The counter `sprCount` wraps to 0, so the header reads
`SPRITEDATA:0,1,1:`, while the offset table that follows holds 2^32 words, that is
17179869184 bytes and not 4 times the count in the header. -/
theorem tile_count_wrap_counterexample :
    ∃ res, CompressSpriteData 131075 (List.replicate 4294967296 0) 65536 65536 1 1 = .ok res ∧
      CompressSpriteDataFile 131075 (List.replicate 4294967296 0) 65536 65536 1 1 =
        .ok ([83, 80, 82, 73, 84, 69, 68, 65, 84, 65, 58] ++ decimal 0 ++ [44]
          ++ decimal 1 ++ [44] ++ decimal 1 ++ [58] ++ res.sprOffsets.flatMap le32
          ++ res.sprData) ∧
      res.sprOffsets.length = 4294967296 ∧
      (res.sprOffsets.flatMap le32).length = 17179869184 ∧
      17179869184 ≠ 4 * 0 := by
  obtain ⟨res, hres, hfile, hlenO, hcount, _⟩ :=
    compressFile_grid 131075 (List.replicate 4294967296 0) 65536 65536 1 1 (by norm_num)
      (by norm_num) (by norm_num) (by norm_num) (by rw [List.length_replicate]) (by norm_num)
      (by norm_num) (by norm_num)
  have hc : res.sprCount = 0 := by rw [hcount]
  have hl : res.sprOffsets.length = 4294967296 := by rw [hlenO]
  refine ⟨res, hres, ?_, hl, by rw [flatMap_le32_length, hl], by norm_num⟩
  rw [hfile, spriteFileBytes, hc]

/-- Evaluation for C20: with exactly four arguments after the program name (`argc`
is 5) `main` of AmigaPaletteMerge does not print the usage text and does not return:
the test `argc < 5` passes, `std::stoi` is applied to `argv[3]` and `argv[4]`, and
then `argv[5]`, the null pointer that ends `argv`, is handed to `std::stoi`. Nothing
is printed and no file is written. -/
theorem merge_tool_four_arguments (stoi : List Char → Option Int)
    (files : List Char → Option (List Nat)) (canSave : List Char → Bool)
    (p a1 a2 a3 a4 : List Char) :
    ((paletteMergeMain stoi files canSave [p, a1, a2, a3, a4]).ending = .stoiThrew ∨
      (paletteMergeMain stoi files canSave [p, a1, a2, a3, a4]).ending = .nullArgument) ∧
    (paletteMergeMain stoi files canSave [p, a1, a2, a3, a4]).printed = [] ∧
    (paletteMergeMain stoi files canSave [p, a1, a2, a3, a4]).saved = none ∧
    (stoi a3 ≠ none → stoi a4 ≠ none →
      (paletteMergeMain stoi files canSave [p, a1, a2, a3, a4]).ending = .nullArgument) ∧
    paletteMergeMain (fun _ => some 0) (fun _ => some [0, 0, 0, 0]) (fun _ => true)
        [['m'], ['t', '.', 'b', 'i', 'n'], ['f', '.', 'b', 'i', 'n'], ['0'], ['0']] =
      ⟨.nullArgument, [], none⟩ := by
  rw [paletteMergeMain_four]
  refine ⟨?_, ?_, ?_, ?_, by decide⟩
  · cases stoi a3 with
    | none => exact Or.inl rfl
    | some t =>
      cases stoi a4 with
      | none => exact Or.inl rfl
      | some f => exact Or.inr rfl
  · cases stoi a3 with
    | none => rfl
    | some t => cases stoi a4 <;> rfl
  · cases stoi a3 with
    | none => rfl
    | some t => cases stoi a4 <;> rfl
  · intro h3 h4
    cases h3' : stoi a3 with
    | none => exact absurd h3' h3
    | some t =>
      cases h4' : stoi a4 with
      | none => exact absurd h4' h4
      | some f => rfl

/-! ## The checksum -/

theorem crcBit_eq (crc : Nat) (h : crc < 65536) :
    crcBit crc = modbusStep crc ∧ crcBit crc < 65536 := by
  have hand : crc &&& CRC_MASK = crc % 2 := by
    show crc &&& 1 = crc % 2
    exact Nat.and_one_is_mod crc
  have hshift : crc >>> CRC_SHIFT = crc / 2 := by
    show crc >>> 1 = crc / 2
    rw [Nat.shiftRight_eq_div_pow]
  have hx : (crc / 2) ^^^ 40961 < 2 ^ 16 :=
    Nat.xor_lt_two_pow (by omega) (by norm_num)
  unfold crcBit modbusStep
  rw [hand, hshift]
  have hpoly : CRC_POLY = 40961 := rfl
  rw [hpoly]
  by_cases hodd : crc % 2 = 1
  · have h0 : crc % 2 ≠ 0 := by omega
    simp only [hodd, if_true, ne_eq, Nat.one_ne_zero, not_false_eq_true]
    constructor
    · exact Nat.mod_eq_of_lt (by simpa using hx)
    · exact Nat.mod_lt _ (by norm_num)
  · have h0 : crc % 2 = 0 := by omega
    simp only [h0, ne_eq, not_true_eq_false, if_false, Nat.zero_ne_one]
    exact ⟨trivial, by omega⟩

theorem crcBits_eq : ∀ (n crc : Nat), crc < 65536 →
    crcBits n crc = modbusStep^[n] crc ∧ crcBits n crc < 65536 := by
  intro n
  induction n with
  | zero => intro crc h; exact ⟨rfl, h⟩
  | succ n ih =>
    intro crc h
    obtain ⟨h1, h2⟩ := crcBit_eq crc h
    obtain ⟨h3, h4⟩ := ih (crcBit crc) h2
    rw [crcBits, Function.iterate_succ_apply, ← h1]
    exact ⟨h3, h4⟩

theorem xor_byte_lt (crc b : Nat) (h : crc < 65536) (hb : b < 256) :
    crc ^^^ b < 65536 := by
  have : crc ^^^ b < 2 ^ 16 := Nat.xor_lt_two_pow (by omega) (by omega)
  simpa using this

/-- The loop of `crc16` over `len` bytes that are all inside the buffer. -/
theorem crc16Loop_eq (pData : List Nat) :
    ∀ (len pos crc : Nat), pos + len ≤ pData.length →
      crc16Loop pData len pos crc =
        .ok (((pData.drop pos).take len).foldl
          (fun crc b => crcBits CRC_BITS ((crc ^^^ b) % 65536)) crc) := by
  intro len
  induction len with
  | zero => intro pos crc _; simp [crc16Loop]
  | succ len ih =>
    intro pos crc h
    have hlt : pos < pData.length := by omega
    rw [crc16Loop, List.getElem?_eq_getElem hlt]
    simp only
    rw [ih (pos + 1) _ (by omega)]
    have hd : pData.drop pos = pData[pos] :: pData.drop (pos + 1) :=
      List.drop_eq_getElem_cons hlt
    rw [hd, List.take_succ_cons, List.foldl_cons]

theorem crc16_whole (data : List Nat) :
    crc16 data data.length =
      .ok (data.foldl (fun crc b => crcBits CRC_BITS ((crc ^^^ b) % 65536)) CRC_START) := by
  rw [crc16, crc16Loop_eq data data.length 0 CRC_START (by omega)]
  simp

theorem crc_fold_eq : ∀ (data : List Nat) (crc : Nat), crc < 65536 → (∀ x ∈ data, x < 256) →
    data.foldl (fun crc b => crcBits CRC_BITS ((crc ^^^ b) % 65536)) crc =
      data.foldl (fun crc b => modbusStep^[8] (crc ^^^ b)) crc ∧
    data.foldl (fun crc b => crcBits CRC_BITS ((crc ^^^ b) % 65536)) crc < 65536 := by
  intro data
  induction data with
  | nil => intro crc h _; exact ⟨rfl, h⟩
  | cons b rest ih =>
    intro crc h hb
    have hx := xor_byte_lt crc b h (hb b (List.mem_cons_self _ _))
    obtain ⟨h1, h2⟩ := crcBits_eq 8 (crc ^^^ b) hx
    simp only [List.foldl_cons]
    have hbits : crcBits CRC_BITS ((crc ^^^ b) % 65536) = modbusStep^[8] (crc ^^^ b) := by
      rw [Nat.mod_eq_of_lt hx]
      exact h1
    rw [hbits]
    exact ih _ (by rw [← h1]; exact h2) (fun x hx' => hb x (List.mem_cons_of_mem _ hx'))

theorem xor_byte_high (crc b : Nat) (hb : b < 256) : (crc ^^^ b) / 256 = crc / 256 := by
  have h1 : (crc ^^^ b) >>> 8 = crc >>> 8 := by
    apply Nat.eq_of_testBit_eq
    intro j
    have h8 : b < 2 ^ 8 := by simpa using hb
    have hle : 2 ^ 8 ≤ 2 ^ (8 + j) := Nat.pow_le_pow_right (by norm_num) (by omega)
    have hlt : b < 2 ^ (8 + j) := Nat.lt_of_lt_of_le h8 hle
    rw [Nat.testBit_shiftRight, Nat.testBit_shiftRight, Nat.testBit_xor,
      Nat.testBit_lt_two_pow hlt, Bool.xor_false]
  rw [Nat.shiftRight_eq_div_pow, Nat.shiftRight_eq_div_pow] at h1
  simpa using h1


/-! ## The error handler -/

theorem foldl_countError : ∀ (errorList : List ErrorInformation) (info : ErrorStatus),
    (errorList.foldl countError info).numStatus =
        info.numStatus + errorList.countP (fun e => e.type = .Status) ∧
    (errorList.foldl countError info).numWarnings =
        info.numWarnings + errorList.countP (fun e => e.type = .Warning) ∧
    (errorList.foldl countError info).numCritical =
        info.numCritical + errorList.countP (fun e => e.type = .Critical) ∧
    (errorList.foldl countError info).numErrors =
        info.numErrors + errorList.countP (fun e =>
          e.type ≠ .Status ∧ e.type ≠ .Warning ∧ e.type ≠ .Critical) ∧
    (errorList.foldl countError info).numErrors + (errorList.foldl countError info).numWarnings
        + (errorList.foldl countError info).numStatus
        + (errorList.foldl countError info).numCritical =
      info.numErrors + info.numWarnings + info.numStatus + info.numCritical
        + errorList.length := by
  intro errorList
  induction errorList with
  | nil => intro info; simp
  | cons e rest ih =>
    intro info
    obtain ⟨h1, h2, h3, h4, h5⟩ := ih (countError info e)
    rw [List.foldl_cons, h1, h2, h3, h4]
    simp only [List.countP_cons, List.length_cons]
    rw [h1, h2, h3, h4] at h5
    cases ht : e.type <;> simp [countError, ht] at h5 ⊢ <;> omega

theorem runCalls_append (calls rest : List HandlerCall) :
    runCalls (calls ++ rest) = rest.foldl applyCall (runCalls calls) := by
  simp [runCalls, List.foldl_append]

theorem foldl_applyCall_noClear : ∀ (rest : List HandlerCall) (errorList : List ErrorInformation),
    (∀ c ∈ rest, c ≠ .clearErrors) →
      rest.foldl applyCall errorList = errorList ++ rest.filterMap errorOf := by
  intro rest
  induction rest with
  | nil => intro errorList _; simp
  | cons c rest ih =>
    intro errorList h
    rw [List.foldl_cons, ih _ (fun c' hc' => h c' (List.mem_cons_of_mem _ hc'))]
    cases c with
    | handleError t n m time => simp [applyCall, handleError, errorOf]
    | clearErrors => exact absurd rfl (h _ (List.mem_cons_self _ _))

/-! ## The palette serializer is injective -/

theorem savePaletteLoop_inj : ∀ (p q : List PngColor) (k : Nat),
    (∀ c ∈ p, c.red < 256 ∧ c.green < 256 ∧ c.blue < 256) →
    (∀ c ∈ q, c.red < 256 ∧ c.green < 256 ∧ c.blue < 256) →
    savePaletteLoop p (k % 256) = savePaletteLoop q (k % 256) → p = q := by
  intro p
  induction p with
  | nil =>
    intro q k _ _ h
    cases q with
    | nil => rfl
    | cons d q =>
      have := congrArg List.length h
      simp [savePaletteLoop, le32] at this
  | cons c p ih =>
    intro q k hp hq h
    cases q with
    | nil =>
      have := congrArg List.length h
      simp [savePaletteLoop, le32] at this
    | cons d q =>
      obtain ⟨hc1, hc2, hc3⟩ := hp c (List.mem_cons_self _ _)
      obtain ⟨hd1, hd2, hd3⟩ := hq d (List.mem_cons_self _ _)
      have hk : k % 256 < 256 := Nat.mod_lt _ (by norm_num)
      rw [savePaletteLoop, savePaletteLoop] at h
      have hw1 := le32_paletteWord (k % 256) c.red c.green c.blue hk hc1 hc2 hc3
      have hw2 := le32_paletteWord (k % 256) d.red d.green d.blue hk hd1 hd2 hd3
      have hcc : (⟨c.red, c.green, c.blue⟩ : PngColor) = c := by cases c; rfl
      have hdd : (⟨d.red, d.green, d.blue⟩ : PngColor) = d := by cases d; rfl
      rw [hcc] at hw1
      rw [hdd] at hw2
      rw [hw1, hw2] at h
      simp only [List.cons_append, List.nil_append, List.cons.injEq] at h
      obtain ⟨_, hr, hg, hb, hrest⟩ := h
      have hk1 : (k % 256 + 1) % 256 = (k + 1) % 256 := by omega
      rw [hk1] at hrest
      have := ih q (k + 1) (fun c' hc' => hp c' (List.mem_cons_of_mem _ hc'))
        (fun c' hc' => hq c' (List.mem_cons_of_mem _ hc')) hrest
      rw [this]
      cases c; cases d
      simp only at hr hg hb
      rw [hr, hg, hb]


/-! ## Running the merge a second time -/

/-- Whether the merge loop ends without a fault depends on the length of the
destination only. -/
theorem mergeLoop_ok_of_length (paletteFrom : List Nat) (T F : Nat) :
    ∀ n i paletteTo p q, mergeLoop paletteFrom T F n i paletteTo = .ok p →
      q.length = paletteTo.length → ∃ p', mergeLoop paletteFrom T F n i q = .ok p' := by
  intro n
  induction n with
  | zero => intro i paletteTo p q _ _; exact ⟨q, rfl⟩
  | succ n ih =>
    intro i paletteTo p q h hq
    rw [mergeLoop] at h
    cases hs : mergeStep paletteFrom T F i paletteTo with
    | outOfBounds => rw [hs] at h; cases h
    | outOfFuel => rw [hs] at h; cases h
    | ok p1 =>
      rw [hs] at h
      obtain ⟨hl, t3, t2, t1, f3, f2, f1, _⟩ := mergeStep_ok hs
      obtain ⟨q1, hq1⟩ := mergeStep_of_lt paletteFrom q T F i
        (fun c h1 h2 => by
          rw [hq]
          rcases (by omega : c = 1 ∨ c = 2 ∨ c = 3) with rfl | rfl | rfl
          · exact t1
          · exact t2
          · exact t3)
        (fun c h1 h2 => by
          rcases (by omega : c = 1 ∨ c = 2 ∨ c = 3) with rfl | rfl | rfl
          · exact f1
          · exact f2
          · exact f3)
      rw [mergeLoop, hq1]
      simp only
      exact ih (i + 1) p1 p q1 h (by rw [(mergeStep_ok hq1).1, hl, hq])

/-- Two runs of the merge loop from the same source: at every address either
neither run changed the byte or both left the same byte. -/
theorem mergeLoop_agree (paletteFrom : List Nat) (T F : Nat) :
    ∀ (n i : Nat) (paletteTo p q p' : List Nat),
      mergeLoop paletteFrom T F n i paletteTo = .ok p →
      mergeLoop paletteFrom T F n i q = .ok p' →
      ∀ k : Nat, (p[k]? = paletteTo[k]? ∧ p'[k]? = q[k]?) ∨ p[k]? = p'[k]? := by
  intro n
  induction n with
  | zero =>
    intro i paletteTo p q p' h h' k
    rw [mergeLoop] at h h'
    rw [← Outcome.ok.inj h, ← Outcome.ok.inj h']
    exact Or.inl ⟨rfl, rfl⟩
  | succ n ih =>
    intro i paletteTo p q p' h h' k
    rw [mergeLoop] at h h'
    cases hs : mergeStep paletteFrom T F i paletteTo with
    | outOfBounds => rw [hs] at h; cases h
    | outOfFuel => rw [hs] at h; cases h
    | ok p1 =>
      cases hs' : mergeStep paletteFrom T F i q with
      | outOfBounds => rw [hs'] at h'; cases h'
      | outOfFuel => rw [hs'] at h'; cases h'
      | ok q1 =>
        rw [hs] at h
        rw [hs'] at h'
        have e1 := (mergeStep_ok hs).2.2.2.2.2.2.2 k
        have e2 := (mergeStep_ok hs').2.2.2.2.2.2.2 k
        rcases ih (i + 1) p1 p q1 p' h h' k with ⟨a1, a2⟩ | a
        · by_cases c3 : k = (T + i * 4 + 3) % 4294967296
          · right
            rw [a1, a2, e1, e2]
            simp [c3]
          · by_cases c2 : k = (T + i * 4 + 2) % 4294967296
            · right
              rw [a1, a2, e1, e2]
              simp [c3, c2]
            · by_cases c1 : k = (T + i * 4 + 1) % 4294967296
              · right
                rw [a1, a2, e1, e2]
                simp [c3, c2, c1]
              · left
                rw [a1, a2, e1, e2]
                simp [c3, c2, c1]
        · exact Or.inr a

/-- The merge loop run again on its own result changes nothing. -/
theorem mergeLoop_idem (paletteFrom : List Nat) (T F n : Nat) (paletteTo p : List Nat)
    (h : mergeLoop paletteFrom T F n 0 paletteTo = .ok p) :
    mergeLoop paletteFrom T F n 0 p = .ok p := by
  obtain ⟨p', hp'⟩ := mergeLoop_ok_of_length paletteFrom T F n 0 paletteTo p p h
    (mergeLoop_length paletteFrom T F n 0 paletteTo p h)
  rw [hp']
  congr 1
  apply List.ext_getElem?
  intro k
  rcases mergeLoop_agree paletteFrom T F n 0 paletteTo p p p' h hp' k with ⟨_, a⟩ | a
  · exact a
  · exact a.symm

theorem mergePalettes_idem (paletteTo paletteFrom : List Nat) (ToStart FromStart FromSize : Nat)
    (out : MergeOut)
    (h : MergePalettes paletteTo paletteFrom ToStart FromStart FromSize = .ok out)
    (hres : out.result = true) :
    out.paletteFrom = paletteFrom ∧
    MergePalettes out.paletteTo paletteFrom ToStart FromStart FromSize =
      .ok ⟨true, out.paletteTo, paletteFrom⟩ := by
  obtain ⟨hfrom, hcase⟩ := mergePalettes_cases paletteTo paletteFrom ToStart FromStart FromSize
    out h
  refine ⟨hfrom, ?_⟩
  rcases hcase with ⟨hf, _⟩ | ⟨_, h1, h2, h3, h4, hl⟩
  · rw [hf] at hres; cases hres
  · have hlen := mergeLoop_length _ _ _ _ _ _ _ hl
    exact mergePalettes_accepts out.paletteTo paletteFrom out.paletteTo ToStart FromStart FromSize
      (by rw [hlen, h1]) (by rw [hlen]; exact h2) h3 h4 (mergeLoop_idem _ _ _ _ _ _ hl)

/-! ## Merging a whole serialized palette -/

theorem save_length (palette : List PngColor) :
    (Save_ApolloV4_Palette palette).length = 4 * (palette.length + 1) := by
  rw [Save_ApolloV4_Palette, List.length_append, le32_length, savePaletteLoop_length]
  omega

/-- Byte `c` of the entry of colour `i` in a serialized palette. -/
theorem save_entry (palette : List PngColor) (i : Nat) (col : PngColor)
    (hi : palette[i]? = some col)
    (hbytes : col.red < 256 ∧ col.green < 256 ∧ col.blue < 256) (c : Nat) (hc : c < 4) :
    (Save_ApolloV4_Palette palette)[(i + 1) * 4 + c]? =
      [i % 256, col.red, col.green, col.blue][c]? := by
  have h := savePaletteLoop_entry palette 0 i col hi
  rw [Nat.zero_add, Nat.zero_mod] at h
  have hw := le32_paletteWord (i % 256) col.red col.green col.blue
    (Nat.mod_lt _ (by norm_num)) hbytes.1 hbytes.2.1 hbytes.2.2
  have hcc : (⟨col.red, col.green, col.blue⟩ : PngColor) = col := by cases col; rfl
  rw [hcc] at hw
  rw [hw] at h
  rw [← h, List.getElem?_take_of_lt hc, List.getElem?_drop, Save_ApolloV4_Palette,
    List.getElem?_append_right (by rw [le32_length]; omega), le32_length]
  congr 1
  omega


/-- Merging all the entries of a serialized palette into another one of the same
length, both at most 2^32 bytes long, gives the source. -/
theorem merge_whole (a b : List PngColor) (hlen : a.length = b.length)
    (hn : a.length < 1073741824)
    (ha : ∀ c ∈ a, c.red < 256 ∧ c.green < 256 ∧ c.blue < 256)
    (hb : ∀ c ∈ b, c.red < 256 ∧ c.green < 256 ∧ c.blue < 256) :
    MergePalettes (Save_ApolloV4_Palette a) (Save_ApolloV4_Palette b) 0 0 a.length =
      .ok ⟨true, Save_ApolloV4_Palette b, Save_ApolloV4_Palette b⟩ := by
  have hla := save_length a
  have hlb := save_length b
  obtain ⟨out, hout, hres, hfrom, hlenout, hw, hframe⟩ :=
    mergePalettes_range (Save_ApolloV4_Palette a) (Save_ApolloV4_Palette b) 0 0 a.length
      (by rw [hla, hlb, hlen]) (by rw [hla]; omega) (by rw [hlb]; omega) (by rw [hla]; omega)
  have hto : out.paletteTo = Save_ApolloV4_Palette b := by
    apply List.ext_getElem?
    intro k
    by_cases hk : k < 4 * (a.length + 1)
    · by_cases hk4 : k < 4
      · rw [hframe k (fun i c _ _ _ => by omega)]
        rw [Save_ApolloV4_Palette, Save_ApolloV4_Palette,
          List.getElem?_append_left (by rw [le32_length]; exact hk4),
          List.getElem?_append_left (by rw [le32_length]; exact hk4), hlen]
      · have hi : k / 4 - 1 < a.length := by omega
        have hi' : k / 4 - 1 < b.length := by omega
        have hka : k = (k / 4 - 1 + 1) * 4 + k % 4 := by omega
        have hea := save_entry a (k / 4 - 1) _ (List.getElem?_eq_getElem hi)
          (ha _ (List.getElem_mem hi)) (k % 4) (Nat.mod_lt _ (by norm_num))
        have heb := save_entry b (k / 4 - 1) _ (List.getElem?_eq_getElem hi')
          (hb _ (List.getElem_mem hi')) (k % 4) (Nat.mod_lt _ (by norm_num))
        by_cases hc : k % 4 = 0
        · rw [hframe k (fun i c _ _ _ => by omega)]
          rw [hka, hea, heb, hc]
          rfl
        · have hkw : k = (0 + 1 + (k / 4 - 1)) * 4 + k % 4 := by omega
          have := hw (k / 4 - 1) (k % 4) hi (by omega) (by omega)
          rw [← hkw] at this
          exact this
    · rw [List.getElem?_eq_none (by rw [hlenout, hla]; omega),
        List.getElem?_eq_none (by rw [hlb, ← hlen]; omega)]
  rw [hout]
  cases out
  simp only at hres hfrom hto
  rw [hres, hfrom, hto]

/-- With 2^30 colours the buffers are 2^32 + 4 bytes long and the byte offsets of the
last entry wrap: the call succeeds and leaves the last entry of the destination. -/
theorem merge_whole_wrap (a b : List PngColor) (hlen : a.length = b.length)
    (hn : a.length = 1073741824) :
    ∃ p, MergePalettes (Save_ApolloV4_Palette a) (Save_ApolloV4_Palette b) 0 0 1073741824 =
        .ok ⟨true, p, Save_ApolloV4_Palette b⟩ ∧
      p[4294967297]? = (Save_ApolloV4_Palette a)[4294967297]? := by
  have hla := save_length a
  have hlb := save_length b
  have h4 : toByteOffset 0 = 4 := by norm_num [toByteOffset]
  obtain ⟨p, hp⟩ := mergeLoop_of_lt (Save_ApolloV4_Palette b) 4 4 1073741824 0
    (Save_ApolloV4_Palette a) (fun j c _ _ _ _ => by
      rw [hla, hlb, ← hlen, hn]
      omega)
  refine ⟨p, ?_, ?_⟩
  · apply mergePalettes_accepts
    · rw [hla, hlb, hlen]
    · rw [h4, hla]; omega
    · rw [h4, hlb]; omega
    · rw [hlb, ← hlen, hn]; omega
    · rw [h4]; exact hp
  · exact mergeLoop_frame _ _ _ _ _ _ _ hp 4294967297 (fun j c _ _ _ _ => by omega)


/-! ## Evaluations used by the results below -/

set_option maxRecDepth 100000 in
/-- The check value of `crc16`: the nine ASCII digits `123456789`. -/
theorem crc16_check_value :
    crc16 [49, 50, 51, 52, 53, 54, 55, 56, 57] 9 = .ok 0x4B37 := by
  decide

theorem crcBits_eight (crc : Nat) :
    crcBits CRC_BITS crc =
      crcBit (crcBit (crcBit (crcBit (crcBit (crcBit (crcBit (crcBit crc))))))) := rfl


/-! ## Decoding what the encoder wrote -/

theorem rowPixels_zeros (g : Nat → Option Nat) (x n : Nat)
    (h : ∀ i, x ≤ i → i < x + n → g i = some 0) : rowPixels g x n = List.replicate n 0 := by
  unfold rowPixels
  apply List.ext_getElem
  · simp
  · intro i h1 h2
    simp only [List.length_map, List.length_range'] at h1
    simp only [List.getElem_map, List.getElem_range', List.getElem_replicate, Nat.one_mul]
    rw [h (x + i) (by omega) (by omega)]
    rfl

theorem rowPixels_append (g : Nat → Option Nat) (x a b : Nat) :
    rowPixels g x (a + b) = rowPixels g x a ++ rowPixels g (x + a) b := by
  unfold rowPixels
  rw [← List.map_append, List.range'_append_1, Nat.add_comm b a]

theorem rowPixels_ne_zero (g : Nat → Option Nat) (x n : Nat)
    (h : ∀ i, x ≤ i → i < x + n → ∃ p, g i = some p ∧ p ≠ 0) :
    ∀ p ∈ rowPixels g x n, p ≠ 0 := by
  intro p hp
  unfold rowPixels at hp
  obtain ⟨i, hi, rfl⟩ := List.mem_map.1 hp
  obtain ⟨h1, h2⟩ := List.mem_range'_1.1 hi
  obtain ⟨q, hq, hq0⟩ := h i h1 h2
  rw [hq]
  exact hq0

/-- A run found by the encoder in a row whose runs fit a byte has at most 255 pixels. -/
theorem run_le_255 {g : Nat → Option Nat} {sprW : Nat} (hfit : RunsFitByte g sprW)
    (s r : Nat) (hend : s + r ≤ sprW)
    (hrun : ∀ i, s ≤ i → i < s + r → ∃ p, g i = some p ∧ p ≠ 0) : r ≤ 255 := by
  by_contra hcon
  obtain ⟨i, h1, h2, h3⟩ := hfit s (by omega)
  obtain ⟨p, hp, hp0⟩ := hrun i h1 (by omega)
  rw [h3] at hp
  exact hp0 (Option.some.inj hp).symm

theorem decodeRow_cons (tileW fuel x op : Nat) (rest : List Nat) :
    decodeRow tileW (fuel + 1) x (op :: rest) =
      if op < 200 then
        match rest with
        | [] => none
        | n :: run =>
          if run.length < n then none
          else
            match decodeRow tileW fuel (x + op + n) (run.drop n) with
            | some (px, tail) => some (List.replicate op 0 ++ (run.take n ++ px), tail)
            | none => none
      else if op = 200 then
        match decodeRow tileW fuel (x + 200) rest with
        | some (px, tail) => some (List.replicate 200 0 ++ px, tail)
        | none => none
      else if op = 201 then some (List.replicate (tileW - x) 0, rest)
      else none := by
  rfl

theorem decodeRow_end (tileW fuel x : Nat) (tail : List Nat) :
    decodeRow tileW (fuel + 1) x (201 :: tail) = some (List.replicate (tileW - x) 0, tail) := by
  rw [decodeRow_cons, if_neg (by decide), if_neg (by decide), if_pos rfl]

theorem decodeRow_skip (tileW fuel x : Nat) (rest : List Nat) :
    decodeRow tileW (fuel + 1) x (200 :: rest) =
      match decodeRow tileW fuel (x + 200) rest with
      | some (px, tail) => some (List.replicate 200 0 ++ px, tail)
      | none => none := by
  rw [decodeRow_cons, if_neg (by decide), if_pos rfl]

theorem decodeRow_run (tileW fuel x op : Nat) (run rest : List Nat) (hop : op < 200) :
    decodeRow tileW (fuel + 1) x (op :: run.length :: (run ++ rest)) =
      match decodeRow tileW fuel (x + op + run.length) rest with
      | some (px, tail) => some (List.replicate op 0 ++ (run ++ px), tail)
      | none => none := by
  rw [decodeRow_cons, if_pos hop]
  dsimp only
  rw [if_neg (by rw [List.length_append]; omega), List.drop_left, List.take_left]

/-- The row decoder run on the bytes of a finished row of the encoder, from the cursor
at which the row loop was entered, gives the pixels from the cursor to the end of the
row and stops behind the opcode 201. -/
theorem decodeRow_rowPost {g : Nat → Option Nat} {sprW : Nat} (hfit : RunsFitByte g sprW)
    {x : Nat} {cs : List Chunk} (h : RowPost g sprW x cs) :
    ∀ fuel tail, cs.length ≤ fuel →
      decodeRow sprW fuel x (chunkBytes cs ++ tail) = some (rowPixels g x (sprW - x), tail) := by
  induction h with
  | @last x c hpost hb =>
    intro fuel tail hfuel
    obtain ⟨m, rfl⟩ : ∃ m, fuel = m + 1 := ⟨fuel - 1, by simp at hfuel; omega⟩
    obtain ⟨_, h2, h3⟩ := hpost.last hb
    rcases hpost with ⟨_, _, _, _, _, hz⟩ | ⟨_, hb', _⟩ | ⟨_, hb', _⟩
    · simp only [chunkBytes, List.map_cons, List.map_nil, List.flatten_cons, List.flatten_nil,
        List.append_nil, h2, List.cons_append, List.nil_append]
      rw [decodeRow_end, rowPixels_zeros g x (sprW - x) (fun i h1 h2 => hz i h1 (by omega))]
    · rw [hb'] at hb; cases hb
    · rw [hb'] at hb; cases hb
  | @cons x c cs hpost hb hrest ih =>
    intro fuel tail hfuel
    obtain ⟨m, rfl⟩ : ∃ m, fuel = m + 1 := ⟨fuel - 1, by simp at hfuel; omega⟩
    have hm : cs.length ≤ m := by simp at hfuel; omega
    rw [chunkBytes_cons, List.append_assoc]
    rcases hpost with ⟨_, hb', _⟩ | ⟨_, _, h3, h4, h5, hz⟩ | ⟨h1, _, r, hr, h3, h4, h5, hz, hrun, _⟩
    · rw [hb'] at hb; cases hb
    · rw [h3]
      simp only [List.cons_append, List.nil_append]
      rw [decodeRow_skip, ← h4, ih m tail hm]
      simp only
      have hsplit : sprW - x = 200 + (sprW - c.x) := by omega
      rw [hsplit, rowPixels_append, rowPixels_zeros g x 200 (fun i h1 h2 => hz i h1 (by omega)),
        ← h4]
    · have hr255 := run_le_255 hfit (x + c.sprCmd) r (by omega)
        (fun i h1 h2 => hrun i h1 (by omega))
      rw [h3, Nat.mod_eq_of_lt (by omega)]
      simp only [List.cons_append]
      have hlen := rowPixels_length g (x + c.sprCmd) r
      have hstep := decodeRow_run sprW m x c.sprCmd (rowPixels g (x + c.sprCmd) r)
        (chunkBytes cs ++ tail) h1
      rw [hlen] at hstep
      rw [hstep, ← h4, ih m tail hm]
      simp only
      have hsplit : sprW - x = c.sprCmd + (r + (sprW - c.x)) := by omega
      rw [hsplit, rowPixels_append, rowPixels_append,
        rowPixels_zeros g x c.sprCmd (fun i h1 h2 => hz i h1 h2)]
      have hcx : x + c.sprCmd + r = c.x := by omega
      rw [hcx]


theorem RowPost.length_le {g : Nat → Option Nat} {sprW x : Nat} {cs : List Chunk}
    (h : RowPost g sprW x cs) : cs.length ≤ (chunkBytes cs).length := by
  induction h with
  | @last x c hpost hb =>
    have := hpost.basic.1
    cases hbytes : c.bytes with
    | nil => rw [hbytes] at this; simp at this
    | cons b bs => simp [chunkBytes, hbytes]
  | @cons x c cs hpost hb hrest ih =>
    have := hpost.basic.1
    cases hbytes : c.bytes with
    | nil => rw [hbytes] at this; simp at this
    | cons b bs =>
      rw [chunkBytes_cons, hbytes]
      simp only [List.length_cons, List.length_append]
      omega

/-- The rows of a tile, decoded one after the other. -/
theorem decodeRows_rowsPost {fuel : Nat} {rd : Nat → Option Nat} {w sprW sprDx sprDy : Nat} :
    ∀ (rows : List (List Chunk)) (y : Nat) (tail : List Nat),
      RowsPost fuel rd w sprW sprDx sprDy y rows →
      (∀ i, y ≤ i → i < y + rows.length → RunsFitByte (rowReader rd w sprDx sprDy i) sprW) →
      decodeRows sprW rows.length ((rows.map chunkBytes).flatten ++ tail) =
        some ((List.range' y rows.length).map
          (fun i => rowPixels (rowReader rd w sprDx sprDy i) 0 sprW), tail) := by
  intro rows
  induction rows with
  | nil => intro y tail _ _; rfl
  | cons cs rest ih =>
    intro y tail hpost hfit
    obtain ⟨_, hrow, hrest⟩ := hpost
    have hlen := hrow.length_le
    rw [List.length_cons, decodeRows, List.map_cons, List.flatten_cons, List.append_assoc]
    rw [decodeRow_rowPost (hfit y (le_refl _) (by simp)) hrow _ _
      (by rw [List.length_append]; omega)]
    simp only
    rw [ih (y + 1) tail hrest (fun i h1 h2 => hfit i (by omega) (by simp; omega))]
    simp [List.range'_succ]

/-- The tile decoder run on the bytes of a tile, whatever follows them. -/
theorem decodeTile_rows {fuel : Nat} {rd : Nat → Option Nat} {w sprW sprDx sprDy : Nat}
    (rows : List (List Chunk)) (rest : List Nat)
    (hpost : RowsPost fuel rd w sprW sprDx sprDy 0 rows)
    (hfit : ∀ i, i < rows.length → RunsFitByte (rowReader rd w sprDx sprDy i) sprW) :
    decodeTile sprW rows.length (((rows.map chunkBytes).flatten ++ [255]) ++ rest) =
      some ((List.range' 0 rows.length).map
          (fun i => rowPixels (rowReader rd w sprDx sprDy i) 0 sprW),
        ((rows.map chunkBytes).flatten ++ [255]).length) := by
  have h := decodeRows_rowsPost rows 0 (255 :: rest) hpost
    (fun i _ h2 => hfit i (by omega))
  have hb : ((rows.map chunkBytes).flatten ++ [255]) ++ rest =
      (rows.map chunkBytes).flatten ++ 255 :: rest := by simp
  rw [decodeTile, hb, h]
  simp only [List.length_append, List.length_cons, List.length_nil]
  congr 2
  omega

theorem readPixels_eq (data : List Nat) (w sprW sprH sprDx sprDy : Nat) :
    readPixels data w sprW sprH sprDx sprDy =
      (List.range' 0 sprH).map
        (fun y => rowPixels (rowReader (readVec data) w sprDx sprDy y) 0 sprW) := by
  unfold readPixels rowPixels
  simp only [List.range_eq_range']
  apply List.map_congr_left
  intro y _
  apply List.map_congr_left
  intro c _
  rw [rowReader_eq_gridPixel]

theorem flatten_drop_take (L : List (List Nat)) :
    ∀ k, L.flatten.drop ((L.take k).flatten.length) = (L.drop k).flatten := by
  induction L with
  | nil => intro k; simp
  | cons e es ih =>
    intro k
    cases k with
    | zero => simp
    | succ k =>
      simp only [List.take_succ_cons, List.flatten_cons, List.length_append, List.drop_succ_cons]
      rw [List.drop_append, ih k]

theorem flatten_drop_at (L : List (List Nat)) (k : Nat) (b : List Nat) (h : L[k]? = some b) :
    L.flatten.drop ((L.take k).flatten.length) = b ++ (L.drop (k + 1)).flatten := by
  rw [flatten_drop_take]
  have hk : k < L.length := (List.getElem?_eq_some_iff.1 h).1
  have hb : L[k] = b := (List.getElem?_eq_some_iff.1 h).2
  rw [List.drop_eq_getElem_cons hk, hb, List.flatten_cons]

/-- The encoding of a tile of a grid is decoded to the pixels of the tile, whatever
bytes follow it, when the runs of the tile fit a byte. -/
theorem decodeTile_grid (fuel : Nat) (data : List Nat) (w sprW sprH sprDx sprDy : Nat)
    (hW : sprW < 4294967296) (hfuel : sprW < fuel)
    (hread : TileReadable (readVec data) w sprW sprH sprDx sprDy)
    (hfit : ∀ y, y < sprH → RunsFitByte (rowReader (readVec data) w sprDx sprDy y) sprW)
    (rest : List Nat) :
    ∃ tile, encodeTile fuel (readVec data) w sprW sprH sprDx sprDy = .ok tile ∧
      tile.getLast? = some 255 ∧
      decodeTile sprW sprH (tile ++ rest) =
        some (readPixels data w sprW sprH sprDx sprDy, tile.length) := by
  obtain ⟨rows, _, hlen, hpost, henc⟩ := encodeTile_ok fuel (readVec data) w sprW sprH sprDx sprDy
    hW hfuel hread
  refine ⟨_, henc, by simp, ?_⟩
  have h := decodeTile_rows rows rest hpost (fun i hi => hfit i (by omega))
  rw [hlen] at h
  rw [h, readPixels_eq]


theorem flatten_take_length_le (L : List (List Nat)) (k : Nat) :
    ((L.take k).flatten).length ≤ L.flatten.length := by
  have h : L.flatten = (L.take k).flatten ++ (L.drop k).flatten := by
    rw [← List.flatten_append, List.take_append_drop]
  rw [h, List.length_append]
  omega

/-- The decoder started where the bytes of tile `k` of a grid begin. -/
theorem decode_sheet (fuel : Nat) (data : List Nat) (w h sprW sprH k : Nat)
    (hW : 0 < sprW) (hH : 0 < sprH) (hw : w % sprW = 0) (hh : h % sprH = 0)
    (hlen : data.length = w * h) (hw32 : w < 4294967296) (hh32 : h < 4294967296)
    (hfuel : w + h + sprW < fuel) (hk : k < w / sprW * (h / sprH))
    (hfit : ∀ y, y < sprH → RunsFitByte
      (rowReader (readVec data) w (k % (w / sprW) * sprW) (k / (w / sprW) * sprH) y) sprW) :
    ∃ res tile, CompressSpriteData fuel data w h sprW sprH = .ok res ∧
      gridTile fuel data w sprW sprH k = .ok tile ∧ tile.getLast? = some 255 ∧
      res.sprOffsets[k]? =
        some ((((gridSheet fuel data w h sprW sprH).take k).flatten).length % 4294967296) ∧
      (((gridSheet fuel data w h sprW sprH).take k).flatten).length ≤ res.sprData.length ∧
      (∃ rest, res.sprData.drop (((gridSheet fuel data w h sprW sprH).take k).flatten).length =
        tile ++ rest) ∧
      decodeAt res.sprData (((gridSheet fuel data w h sprW sprH).take k).flatten).length
          sprW sprH =
        some (readPixels data w sprW sprH (k % (w / sprW) * sprW) (k / (w / sprW) * sprH),
          tile.length) := by
  obtain ⟨hok, hrun⟩ := compress_grid fuel data w h sprW sprH hW hH hw hh hlen hw32 hh32 hfuel
  have hlenS : (gridSheet fuel data w h sprW sprH).length = w / sprW * (h / sprH) :=
    sheetBytes_length _ _ _ _ _ _ _
  have hnx : 0 < w / sprW := by
    rcases Nat.eq_zero_or_pos (w / sprW) with h0 | h0
    · rw [h0, Nat.zero_mul] at hk; omega
    · exact h0
  have hsw : sprW < 4294967296 := by
    have h1 := (tilesAcross_of_mod w sprW hW hw).2
    have h2 : 1 * sprW ≤ w / sprW * sprW := Nat.mul_le_mul_right _ hnx
    omega
  have hi : k % (w / sprW) < w / sprW := Nat.mod_lt _ hnx
  have hj : k / (w / sprW) < h / sprH :=
    (Nat.div_lt_iff_lt_mul hnx).2 (by rw [Nat.mul_comm]; exact hk)
  have hsheet : (gridSheet fuel data w h sprW sprH)[k]? =
      some (tileBytes fuel (readVec data) w sprW sprH (k % (w / sprW) * sprW)
        (k / (w / sprW) * sprH)) :=
    sheetBytes_getElem? fuel (readVec data) w sprW sprH (w / sprW) (h / sprH) k hk
  have hdrop := flatten_drop_at _ k _ hsheet
  obtain ⟨tile, htile, hlast, hdec⟩ := decodeTile_grid fuel data w sprW sprH
    (k % (w / sprW) * sprW) (k / (w / sprW) * sprH) hsw (by omega)
    (gridTile_readable data w h sprW sprH _ _ hW hH hw hh hlen hi hj) hfit
    (((gridSheet fuel data w h sprW sprH).drop (k + 1)).flatten)
  rw [tileBytes_of_ok htile] at hdrop
  refine ⟨_, tile, hrun, htile, hlast, ?_, ?_, ⟨_, hdrop⟩, ?_⟩
  · show (offsetsOf 0 (gridSheet fuel data w h sprW sprH))[k]? = _
    rw [offsetsOf_getElem? _ 0 k (by rw [hlenS]; exact hk), Nat.zero_add]
  · exact flatten_take_length_le _ k
  · show decodeTile sprW sprH ((gridSheet fuel data w h sprW sprH).flatten.drop _) = _
    rw [hdrop, hdec]

/-- The opcode stream of a strip of opaque pixels cut into `1 × 1` tiles starts with
the five bytes of the first tile. -/
theorem solidStrip_stream (n fuel : Nat) (h1 : 1 ≤ n) (hn : n < 4294967296)
    (hfuel : n + 2 < fuel) :
    ∃ res rest, CompressSpriteData fuel (List.replicate n 1) n 1 1 1 = .ok res ∧
      res.sprData = [0, 1, 1, 201, 255] ++ rest := by
  obtain ⟨_, hrun⟩ := compress_grid fuel (List.replicate n 1) n 1 1 1 (by omega) (by omega)
    (Nat.mod_one n) (Nat.mod_one 1) (by simp) hn (by omega) (by omega)
  rw [Nat.div_one, Nat.div_one] at hrun
  have hm := sheetBytes_getElem? fuel (readVec (List.replicate n 1)) n 1 1 n 1 0 (by omega)
  have htile := (encodeTile_solid fuel (List.replicate n 1) n 1 1 (0 % n * 1) (0 / n * 1)
    (fun _ _ => 1) (le_refl _) (by omega) (by omega) (fun y hy c hc => by
      refine ⟨gridPixel_replicate n 1 n _ _ ?_, Nat.one_ne_zero⟩
      have hy0 : y = 0 := by omega
      have hc0 : c = 0 := by omega
      subst hy0 hc0
      simp only [Nat.zero_mod, Nat.zero_div, Nat.zero_mul, Nat.add_zero]
      omega)).2
  rw [tileBytes_of_ok htile] at hm
  have hdrop := flatten_drop_at _ 0 _ hm
  simp only [List.take_zero, List.flatten_nil, List.length_nil, List.drop_zero] at hdrop
  refine ⟨_, (List.drop (0 + 1) (sheetBytes fuel (readVec (List.replicate n 1)) n 1 1 n 1)).flatten,
    hrun, ?_⟩
  show (sheetBytes fuel (readVec (List.replicate n 1)) n 1 1 n 1).flatten = _
  rw [hdrop]
  rfl

theorem decodeTile_sentinel_first (tileW tileH : Nat) (rest : List Nat) :
    decodeTile tileW (tileH + 1) (255 :: rest) = none := by
  rw [decodeTile, decodeRows, List.length_cons, decodeRow_cons, if_neg (by decide),
    if_neg (by decide), if_neg (by decide)]


/-! ## Draw runs and skips -/

/-- Every iteration of a finished row obeys `ChunkPost` at some cursor inside the row. -/
theorem RowPost.chunks {g : Nat → Option Nat} {sprW x : Nat} {cs : List Chunk}
    (h : RowPost g sprW x cs) (hx : x ≤ sprW) :
    ∀ c ∈ cs, ∃ x', x' ≤ sprW ∧ ChunkPost g sprW x' c := by
  induction h with
  | @last x c hpost hb =>
    intro c' hc'
    rw [List.mem_singleton] at hc'
    subst hc'
    exact ⟨x, hx, hpost⟩
  | @cons x c cs hpost hb hrest ih =>
    intro c' hc'
    rcases List.mem_cons.1 hc' with rfl | hc'
    · exact ⟨x, hx, hpost⟩
    · exact ih hpost.basic.2.1 c' hc'

/-- What an iteration that chose an opcode below 200 emitted. -/
theorem ChunkPost.run {g : Nat → Option Nat} {sprW x : Nat} {c : Chunk}
    (h : ChunkPost g sprW x c) (hcmd : c.sprCmd < 200) :
    ∃ r, 1 ≤ r ∧ c.bytes = c.sprCmd :: (r % 256) :: c.raw ∧
      c.raw = rowPixels g (x + c.sprCmd) r ∧ c.raw.length = r ∧ (∀ p ∈ c.raw, p ≠ 0) ∧
      c.x = x + c.sprCmd + r ∧ c.x ≤ sprW ∧
      (∃ p, g (x + c.sprCmd) = some p ∧ p ≠ 0 ∧ c.raw.head? = some p) := by
  rcases h with ⟨h1, _⟩ | ⟨h1, _⟩ | ⟨_, _, r, hr, h3, h4, h5, _, h7, _⟩
  · omega
  · omega
  · have hraw : c.raw = rowPixels g (x + c.sprCmd) r := by
      rw [Chunk.raw, if_pos hcmd, h3]
      rfl
    obtain ⟨p, hp, hp0⟩ := h7 (x + c.sprCmd) (le_refl _) (by omega)
    refine ⟨r, hr, by rw [hraw]; exact h3, hraw, by rw [hraw, rowPixels_length], ?_, h4, h5,
      p, hp, hp0, ?_⟩
    · rw [hraw]
      exact rowPixels_ne_zero g _ r (fun i h1 h2 => h7 i h1 (by omega))
    · obtain ⟨m, rfl⟩ : ∃ m, r = m + 1 := ⟨r - 1, by omega⟩
      rw [hraw, rowPixels_succ]
      simp [hp]

theorem countP_rowPixels_zeros (g : Nat → Option Nat) (x n : Nat)
    (h : ∀ i, x ≤ i → i < x + n → g i = some 0) :
    (rowPixels g x n).countP (fun p => decide (p ≠ 0)) = 0 := by
  rw [rowPixels_zeros g x n h, List.countP_eq_zero]
  intro a ha
  rw [List.eq_of_mem_replicate ha]
  simp

theorem countP_rowPixels_run (g : Nat → Option Nat) (x n : Nat)
    (h : ∀ i, x ≤ i → i < x + n → ∃ p, g i = some p ∧ p ≠ 0) :
    (rowPixels g x n).countP (fun p => decide (p ≠ 0)) = n := by
  have := List.countP_eq_length.2 (fun a ha => by
    simpa using rowPixels_ne_zero g x n h a ha :
      ∀ a ∈ rowPixels g x n, (fun p => decide (p ≠ 0)) a = true)
  rw [this, rowPixels_length]

/-- The raw pixel bytes of a finished row are as many as the opaque pixels from the
cursor to the end of the row. -/
theorem RowPost.rawCount {g : Nat → Option Nat} {sprW x : Nat} {cs : List Chunk}
    (h : RowPost g sprW x cs) :
    (cs.map (fun c => c.raw.length)).sum =
      (rowPixels g x (sprW - x)).countP (fun p => decide (p ≠ 0)) := by
  induction h with
  | @last x c hpost hb =>
    obtain ⟨h1, _, _⟩ := hpost.last hb
    rcases hpost with ⟨_, _, _, _, _, hz⟩ | ⟨_, hb', _⟩ | ⟨_, hb', _⟩
    · rw [countP_rowPixels_zeros g x _ (fun i h1 h2 => hz i h1 (by omega))]
      have : c.raw = [] := by rw [Chunk.raw, if_neg (by omega)]
      simp [this]
    · rw [hb'] at hb; cases hb
    · rw [hb'] at hb; cases hb
  | @cons x c cs hpost hb hrest ih =>
    rw [List.map_cons, List.sum_cons, ih]
    rcases hpost with ⟨_, hb', _⟩ | ⟨h1, _, _, h4, h5, hz⟩ |
      ⟨h1, _, r, hr, h3, h4, h5, hz, hrun, _⟩
    · rw [hb'] at hb; cases hb
    · have hraw : c.raw = [] := by rw [Chunk.raw, if_neg (by omega)]
      have hsplit : sprW - x = 200 + (sprW - c.x) := by omega
      rw [hraw, hsplit, rowPixels_append, List.countP_append,
        countP_rowPixels_zeros g x 200 (fun i h1 h2 => hz i h1 (by omega)), ← h4]
      simp
    · have hraw : c.raw = rowPixels g (x + c.sprCmd) r := by
        rw [Chunk.raw, if_pos h1, h3]
        rfl
      have hsplit : sprW - x = c.sprCmd + (r + (sprW - c.x)) := by omega
      have hcx : x + c.sprCmd + r = c.x := by omega
      rw [hraw, rowPixels_length, hsplit, rowPixels_append, rowPixels_append, List.countP_append,
        List.countP_append, countP_rowPixels_zeros g x c.sprCmd (fun i h1 h2 => hz i h1 h2),
        countP_rowPixels_run g (x + c.sprCmd) r (fun i h1 h2 => hrun i h1 (by omega)), hcx]
      omega

/-- The raw pixel bytes of the rows of a tile are as many as its opaque pixels. -/
theorem RowsPost.rawCountTile {fuel : Nat} {rd : Nat → Option Nat} {w sprW sprDx sprDy : Nat} :
    ∀ (rows : List (List Chunk)) (y : Nat), RowsPost fuel rd w sprW sprDx sprDy y rows →
      (rows.flatten.map (fun c => c.raw.length)).sum =
        (((List.range' y rows.length).map
          (fun i => rowPixels (rowReader rd w sprDx sprDy i) 0 sprW)).flatten).countP
            (fun p => decide (p ≠ 0)) := by
  intro rows
  induction rows with
  | nil => intro y _; rfl
  | cons cs rest ih =>
    intro y hpost
    obtain ⟨_, hrow, hrest⟩ := hpost
    have h1 := hrow.rawCount
    rw [Nat.sub_zero] at h1
    rw [List.flatten_cons, List.map_append, List.sum_append, h1, ih (y + 1) hrest,
      List.length_cons, List.range'_succ, List.map_cons, List.flatten_cons, List.countP_append]

/-- In a finished row an iteration that chose 200 emitted that byte only and is
followed by another iteration. -/
theorem RowPost.skips {g : Nat → Option Nat} {sprW x : Nat} {cs : List Chunk}
    (h : RowPost g sprW x cs) :
    ∀ (i : Nat) (c : Chunk), cs[i]? = some c → c.sprCmd = 200 →
      c.bytes = [200] ∧ ∃ c', cs[i + 1]? = some c' := by
  induction h with
  | @last x c hpost hb =>
    intro i c' hc' hcmd
    have h1 := (hpost.last hb).1
    cases i with
    | zero =>
      simp only [List.getElem?_cons_zero, Option.some.injEq] at hc'
      subst hc'
      omega
    | succ i => simp at hc'
  | @cons x c cs hpost hb hrest ih =>
    intro i c' hc' hcmd
    cases i with
    | zero =>
      simp only [List.getElem?_cons_zero, Option.some.injEq] at hc'
      subst hc'
      constructor
      · rcases hpost with ⟨h1, _⟩ | ⟨_, _, h3, _⟩ | ⟨h1, _⟩
        · omega
        · exact h3
        · omega
      · cases hrest with
        | @last _ c2 _ _ => exact ⟨c2, by simp⟩
        | @cons _ c2 cs2 _ _ _ => exact ⟨c2, by simp⟩
    | succ i =>
      simp only [List.getElem?_cons_succ] at hc'
      obtain ⟨h1, c'', h2⟩ := ih i c' hc' hcmd
      exact ⟨h1, c'', by simpa using h2⟩

/-- The length of what an iteration emitted tells whether its opcode is below 200. -/
theorem ChunkPost.opcode_cases {g : Nat → Option Nat} {sprW x : Nat} {c : Chunk}
    (h : ChunkPost g sprW x c) :
    (c.sprCmd < 200 ∧ 3 ≤ c.bytes.length) ∨ (c.sprCmd = 200 ∧ c.bytes = [200]) ∨
      (c.sprCmd = 201 ∧ c.bytes = [201]) := by
  rcases h with ⟨h1, _, h3, _⟩ | ⟨h1, _, h3, _⟩ | ⟨h1, _, r, hr, h3, _⟩
  · exact Or.inr (Or.inr ⟨h1, h3⟩)
  · exact Or.inr (Or.inl ⟨h1, h3⟩)
  · left
    refine ⟨h1, ?_⟩
    rw [h3]
    simp only [List.length_cons, rowPixels_length]
    omega

/-- A row of 200 transparent pixels followed by `r ≥ 1` opaque ones: opcode 200, then
opcode 0 with the run, then 201. -/
theorem rowLoop_skip_run (fuel m : Nat) (g : Nat → Option Nat) (sprW r : Nat)
    (hW : sprW < 4294967296) (hfuel : sprW < fuel) (hm : 3 ≤ m) (hrd : Readable g sprW)
    (hr : 1 ≤ r) (hsum : 200 + r = sprW)
    (hz : ∀ i, i < 200 → g i = some 0)
    (hrun : ∀ i, 200 ≤ i → i < 200 + r → ∃ p, g i = some p ∧ p ≠ 0) :
    rowLoop fuel g sprW m 0 =
      .ok [⟨200, [200], 200, true⟩, ⟨0, 0 :: (r % 256) :: rowPixels g 200 r, 200 + r, true⟩,
        ⟨201, [201], sprW, false⟩] := by
  obtain ⟨n, rfl⟩ : ∃ n, m = n + 3 := ⟨m - 3, by omega⟩
  have hstep1 := rowStep_skip200 fuel g sprW 0 hW hfuel hrd
    (fun i _ hi => hz i (by omega)) (by omega)
  have hstep2 := rowStep_run fuel g sprW 200 0 r hW hfuel hrd (by omega) hr (by omega)
    (fun i h1 h2 => by omega) (fun i h1 h2 => hrun i (by omega) (by omega))
    (fun hlt => by omega)
  have hstep3 := rowStep_end fuel g sprW (200 + r) hW hfuel (by omega) hrd
    (fun i h1 h2 => by omega) (by omega)
  simp only [Nat.zero_add, Nat.add_zero] at hstep1 hstep2
  exact rowLoop_cons fuel g sprW (n + 2) 0 _ _ hstep1 rfl
    (rowLoop_cons fuel g sprW (n + 1) 200 _ _ hstep2 rfl
      (rowLoop_last fuel g sprW n (200 + r) _ hstep3 rfl))

/-- The row of a tile made of 200 transparent and `r` opaque pixels. -/
theorem encodeRow_skip_run (fuel : Nat) (data : List Nat) (w sprDx sprDy y r : Nat)
    (px : Nat → Nat) (hfuel : 200 + r < fuel) (hr : 1 ≤ r) (hr255 : r ≤ 255)
    (hz : ∀ c, c < 200 → gridPixel data w (sprDx + c) (sprDy + y) = some 0)
    (hrun : ∀ c, 200 ≤ c → c < 200 + r →
      gridPixel data w (sprDx + c) (sprDy + y) = some (px c) ∧ px c ≠ 0) :
    encodeRow fuel (readVec data) w (200 + r) sprDx sprDy y =
      .ok (200 :: 0 :: r :: ((List.range' 200 r).map px ++ [201])) := by
  have hrd : Readable (rowReader (readVec data) w sprDx sprDy y) (200 + r) := by
    intro c hc
    rw [rowReader_eq_gridPixel]
    by_cases h1 : c < 200
    · exact ⟨0, hz c h1⟩
    · exact ⟨px c, (hrun c (by omega) hc).1⟩
  have hloop := rowLoop_skip_run fuel fuel (rowReader (readVec data) w sprDx sprDy y) (200 + r) r
    (by omega) hfuel (by omega) hrd hr rfl
    (fun i hi => by rw [rowReader_eq_gridPixel]; exact hz i hi)
    (fun i hi1 hi2 => ⟨px i, by rw [rowReader_eq_gridPixel]; exact (hrun i hi1 hi2).1,
      (hrun i hi1 hi2).2⟩)
  rw [encodeRow_of_chunks hloop,
    rowPixels_eq_map data w sprDx sprDy y 200 r px (fun c h1 h2 => (hrun c h1 h2).1),
    Nat.mod_eq_of_lt (by omega)]
  simp [chunkBytes]


/-- The decoder started where tile `k` begins gives the pixels of the tile and stops
on its sentinel; the offset table holds that position when the stream is shorter
than 2^32 bytes. -/
theorem decode_at_offset (fuel : Nat) (data : List Nat) (w h sprW sprH k : Nat)
    (hW : 0 < sprW) (hH : 0 < sprH) (hw : w % sprW = 0) (hh : h % sprH = 0)
    (hlen : data.length = w * h) (hw32 : w < 4294967296) (hh32 : h < 4294967296)
    (hfuel : w + h + sprW < fuel) (hk : k < w / sprW * (h / sprH))
    (hfit : ∀ y, y < sprH → RunsFitByte
      (rowReader (readVec data) w (k % (w / sprW) * sprW) (k / (w / sprW) * sprH) y) sprW) :
    ∃ res tile, CompressSpriteData fuel data w h sprW sprH = .ok res ∧
      gridTile fuel data w sprW sprH k = .ok tile ∧ tile.getLast? = some 255 ∧
      res.sprOffsets[k]? =
        some ((((gridSheet fuel data w h sprW sprH).take k).flatten).length % 4294967296) ∧
      decodeAt res.sprData (((gridSheet fuel data w h sprW sprH).take k).flatten).length
          sprW sprH =
        some (readPixels data w sprW sprH (k % (w / sprW) * sprW) (k / (w / sprW) * sprH),
          tile.length) ∧
      res.sprData[(((gridSheet fuel data w h sprW sprH).take k).flatten).length
        + (tile.length - 1)]? = some 255 ∧
      (res.sprData.length < 4294967296 →
        ∃ off, res.sprOffsets[k]? = some off ∧
          decodeAt res.sprData off sprW sprH =
            some (readPixels data w sprW sprH (k % (w / sprW) * sprW) (k / (w / sprW) * sprH),
              tile.length) ∧
          res.sprData[off + (tile.length - 1)]? = some 255) := by
  obtain ⟨res, tile, hres, htile, hlast, hoff, hle, ⟨rest, hdrop⟩, hdec⟩ :=
    decode_sheet fuel data w h sprW sprH k hW hH hw hh hlen hw32 hh32 hfuel hk hfit
  have hne : tile ≠ [] := by
    intro hnil
    rw [hnil] at hlast
    simp at hlast
  have hpos : 0 < tile.length := List.length_pos.2 hne
  have hsent : res.sprData[(((gridSheet fuel data w h sprW sprH).take k).flatten).length
      + (tile.length - 1)]? = some 255 := by
    rw [← List.getElem?_drop, hdrop, List.getElem?_append_left (by omega),
      ← List.getLast?_eq_getElem?]
    exact hlast
  refine ⟨res, tile, hres, htile, hlast, hoff, hdec, hsent, ?_⟩
  intro hshort
  refine ⟨_, hoff, ?_, ?_⟩
  · rw [Nat.mod_eq_of_lt (by omega)]
    exact hdec
  · rw [Nat.mod_eq_of_lt (by omega)]
    exact hsent

/-- In a strip of 858993461 opaque pixels cut into `1 × 1` tiles the entry of the last
tile in the offset table is 4, and there the stream holds the sentinel of the first
tile. -/
theorem solidStrip_decode :
    ∃ res, CompressSpriteData 858993464 (List.replicate 858993461 1) 858993461 1 1 1 = .ok res ∧
      res.sprOffsets[858993460]? = some 4 ∧ decodeAt res.sprData 4 1 1 = none := by
  obtain ⟨res, hres, hk⟩ := solidStrip 858993461 858993464 (by norm_num) (by norm_num)
  obtain ⟨res', rest, hres', hdata⟩ := solidStrip_stream 858993461 858993464 (by norm_num)
    (by norm_num) (by norm_num)
  rw [hres] at hres'
  have hsame : res = res' := Outcome.ok.inj hres'
  subst hsame
  refine ⟨res, hres, ?_, ?_⟩
  · rw [(hk 858993460 (by norm_num)).1]
  · rw [decodeAt, hdata]
    exact decodeTile_sentinel_first 1 0 rest

/-! ## Tiles of a grid of at most 2^32 bytes, and of a larger one -/

/-- In a grid of at most 2^32 bytes the bytes read for a tile are its pixels. -/
theorem readPixels_eq_tilePixels (data : List Nat) (w h sprW sprH i j : Nat)
    (hW : 0 < sprW) (hH : 0 < sprH) (hw : w % sprW = 0) (hh : h % sprH = 0)
    (hsize : w * h ≤ 4294967296) (hi : i < w / sprW) (hj : j < h / sprH) :
    readPixels data w sprW sprH (i * sprW) (j * sprH) =
      tilePixels data w sprW sprH (i * sprW) (j * sprH) := by
  unfold readPixels tilePixels
  apply List.map_congr_left
  intro y hy
  apply List.map_congr_left
  intro c hc
  rw [gridTile_read_eq data w h sprW sprH i j y c hW hH hw hh hsize hi hj
    (List.mem_range.1 hy) (List.mem_range.1 hc)]

/-- The decoder started where tile `k` of a grid of at most 2^32 pixels begins gives
the pixels of the tile. -/
theorem decode_true (fuel : Nat) (data : List Nat) (w h sprW sprH k : Nat)
    (hW : 0 < sprW) (hH : 0 < sprH) (hw : w % sprW = 0) (hh : h % sprH = 0)
    (hlen : data.length = w * h) (hsize : w * h ≤ 4294967296)
    (hw32 : w < 4294967296) (hh32 : h < 4294967296)
    (hfuel : w + h + sprW < fuel) (hk : k < w / sprW * (h / sprH))
    (hfit : ∀ y, y < sprH → RunsFitByte
      (fun c => pixelAt data w (k % (w / sprW) * sprW + c) (k / (w / sprW) * sprH + y)) sprW) :
    ∃ res tile, CompressSpriteData fuel data w h sprW sprH = .ok res ∧
      gridTile fuel data w sprW sprH k = .ok tile ∧ tile.getLast? = some 255 ∧
      res.sprOffsets[k]? =
        some ((((gridSheet fuel data w h sprW sprH).take k).flatten).length % 4294967296) ∧
      decodeAt res.sprData (((gridSheet fuel data w h sprW sprH).take k).flatten).length
          sprW sprH =
        some (tilePixels data w sprW sprH (k % (w / sprW) * sprW) (k / (w / sprW) * sprH),
          tile.length) ∧
      res.sprData[(((gridSheet fuel data w h sprW sprH).take k).flatten).length
        + (tile.length - 1)]? = some 255 ∧
      (res.sprData.length < 4294967296 →
        ∃ off, res.sprOffsets[k]? = some off ∧
          decodeAt res.sprData off sprW sprH =
            some (tilePixels data w sprW sprH (k % (w / sprW) * sprW) (k / (w / sprW) * sprH),
              tile.length) ∧
          res.sprData[off + (tile.length - 1)]? = some 255) := by
  have hnx : 0 < w / sprW := by
    rcases Nat.eq_zero_or_pos (w / sprW) with h0 | h0
    · rw [h0, Nat.zero_mul] at hk; omega
    · exact h0
  have hi : k % (w / sprW) < w / sprW := Nat.mod_lt _ hnx
  have hj : k / (w / sprW) < h / sprH :=
    (Nat.div_lt_iff_lt_mul hnx).2 (by rw [Nat.mul_comm]; exact hk)
  have hfit' : ∀ y, y < sprH → RunsFitByte
      (rowReader (readVec data) w (k % (w / sprW) * sprW) (k / (w / sprW) * sprH) y) sprW := by
    intro y hy s hs
    obtain ⟨c, h1, h2, h3⟩ := hfit y hy s hs
    refine ⟨c, h1, h2, ?_⟩
    rw [rowReader_eq_gridPixel, gridTile_read_eq data w h sprW sprH _ _ y c hW hH hw hh hsize
      hi hj hy (by omega)]
    exact h3
  have hmain := decode_at_offset fuel data w h sprW sprH k hW hH hw hh hlen hw32 hh32 hfuel hk
    hfit'
  rw [readPixels_eq_tilePixels data w h sprW sprH _ _ hW hH hw hh hsize hi hj] at hmain
  exact hmain

/-- The draw runs of a tile of a grid, in terms of the bytes that the encoder reads. -/
theorem draw_runs_read (fuel : Nat) (data : List Nat) (w h sprW sprH i j : Nat)
    (hW : 0 < sprW) (hH : 0 < sprH) (hw : w % sprW = 0) (hh : h % sprH = 0)
    (hlen : data.length = w * h) (hw32 : w < 4294967296)
    (hi : i < w / sprW) (hj : j < h / sprH) (hfuel : sprW < fuel) :
    ∃ rows : List (List Chunk), rows.length = sprH ∧
      encodeTile fuel (readVec data) w sprW sprH (i * sprW) (j * sprH) =
        .ok ((rows.map chunkBytes).flatten ++ [255]) ∧
      (∀ y cs, rows[y]? = some cs →
        encodeRowChunks fuel (readVec data) w sprW (i * sprW) (j * sprH) y = .ok cs ∧
        ∀ c ∈ cs, c.sprCmd < 200 →
          ∃ runLen, 1 ≤ runLen ∧ c.bytes = c.sprCmd :: (runLen % 256) :: c.raw ∧
            c.raw.length = runLen ∧ (∀ p ∈ c.raw, p ≠ 0) ∧ c.x - runLen < sprW ∧
            (∃ p, gridPixel data w (i * sprW + (c.x - runLen)) (j * sprH + y) = some p ∧
              p ≠ 0 ∧ c.raw.head? = some p) ∧
            (runLen ≤ 255 → runLen % 256 ≠ 0)) ∧
      (rows.flatten.map (fun c => c.raw.length)).sum =
        (readPixels data w sprW sprH (i * sprW) (j * sprH)).flatten.countP
          (fun p => decide (p ≠ 0)) := by
  have hsw : sprW < 4294967296 := by
    have h1 := (tilesAcross_of_mod w sprW hW hw).2
    have h2 : 1 * sprW ≤ w / sprW * sprW := Nat.mul_le_mul_right _ (by omega)
    omega
  obtain ⟨rows, _, hlenr, hpost, henc⟩ := encodeTile_ok fuel (readVec data) w sprW sprH _ _ hsw
    hfuel (gridTile_readable data w h sprW sprH i j hW hH hw hh hlen hi hj)
  refine ⟨rows, hlenr, henc, ?_, ?_⟩
  · intro y cs hy
    obtain ⟨h1, h2⟩ := RowsPost.getElem? rows 0 hpost y cs hy
    rw [Nat.zero_add] at h1 h2
    refine ⟨h1, ?_⟩
    intro c hmem hcmd
    obtain ⟨x', _, hchunk⟩ := h2.chunks (Nat.zero_le _) c hmem
    obtain ⟨r, hr, hbytes, _, hrlen, hne, hcx, hle, p, hp, hp0, hhead⟩ := hchunk.run hcmd
    have hcur : c.x - r = x' + c.sprCmd := by omega
    refine ⟨r, hr, hbytes, hrlen, hne, by omega, ⟨p, ?_, hp0, hhead⟩, fun h255 => by omega⟩
    rw [hcur, ← rowReader_eq_gridPixel]
    exact hp
  · have := RowsPost.rawCountTile rows 0 hpost
    rw [this, hlenr, readPixels_eq]

/-- The draw runs of a tile of a grid of at most 2^32 pixels. -/
theorem draw_runs_true (fuel : Nat) (data : List Nat) (w h sprW sprH i j : Nat)
    (hW : 0 < sprW) (hH : 0 < sprH) (hw : w % sprW = 0) (hh : h % sprH = 0)
    (hlen : data.length = w * h) (hsize : w * h ≤ 4294967296) (hw32 : w < 4294967296)
    (hi : i < w / sprW) (hj : j < h / sprH) (hfuel : sprW < fuel) :
    ∃ rows : List (List Chunk), rows.length = sprH ∧
      encodeTile fuel (readVec data) w sprW sprH (i * sprW) (j * sprH) =
        .ok ((rows.map chunkBytes).flatten ++ [255]) ∧
      (∀ y cs, rows[y]? = some cs →
        encodeRowChunks fuel (readVec data) w sprW (i * sprW) (j * sprH) y = .ok cs ∧
        ∀ c ∈ cs, c.sprCmd < 200 →
          ∃ runLen, 1 ≤ runLen ∧ c.bytes = c.sprCmd :: (runLen % 256) :: c.raw ∧
            c.raw.length = runLen ∧ (∀ p ∈ c.raw, p ≠ 0) ∧ c.x - runLen < sprW ∧
            (∃ p, pixelAt data w (i * sprW + (c.x - runLen)) (j * sprH + y) = some p ∧
              p ≠ 0 ∧ c.raw.head? = some p) ∧
            (runLen ≤ 255 → runLen % 256 ≠ 0)) ∧
      (rows.flatten.map (fun c => c.raw.length)).sum =
        (tilePixels data w sprW sprH (i * sprW) (j * sprH)).flatten.countP
          (fun p => decide (p ≠ 0)) := by
  obtain ⟨rows, hlenr, henc, hruns, hcount⟩ :=
    draw_runs_read fuel data w h sprW sprH i j hW hH hw hh hlen hw32 hi hj hfuel
  refine ⟨rows, hlenr, henc, ?_, ?_⟩
  · intro y cs hy
    have hy' : y < sprH := by
      rw [← hlenr]
      exact (List.getElem?_eq_some_iff.1 hy).1
    obtain ⟨h1, h2⟩ := hruns y cs hy
    refine ⟨h1, ?_⟩
    intro c hmem hcmd
    obtain ⟨r, hr, hb, hl, hne, hx, ⟨p, hp, hp0, hhead⟩, h255⟩ := h2 c hmem hcmd
    refine ⟨r, hr, hb, hl, hne, hx, ⟨p, ?_, hp0, hhead⟩, h255⟩
    rw [← gridTile_read_eq data w h sprW sprH i j y (c.x - r) hW hH hw hh hsize hi hj hy' hx]
    exact hp
  · rw [hcount, readPixels_eq_tilePixels data w h sprW sprH i j hW hH hw hh hsize hi hj]

/-! ### The grid `wrapRow` -/

theorem wrapRow_length : wrapRow.length = 201 * 21367998 := by
  rw [wrapRow, List.length_append, List.length_replicate]
  rfl

/-- The first 200 pixels of the last row of `wrapRow` are transparent. -/
theorem wrapRow_pixelAt_zero (c : Nat) (hc : c < 200) :
    pixelAt wrapRow 201 c 21367997 = some 0 := by
  rw [pixelAt, wrapRow, List.getElem?_append_left (by rw [List.length_replicate]; omega),
    List.getElem?_replicate]
  simp
  omega

/-- The last pixel of the last row of `wrapRow` is opaque. -/
theorem wrapRow_pixelAt_last : pixelAt wrapRow 201 200 21367997 = some 7 := by
  rw [pixelAt, wrapRow, List.getElem?_append_right (by rw [List.length_replicate]),
    List.length_replicate]
  rfl

/-- The bytes read for the last row of `wrapRow` are transparent. -/
theorem wrapRow_read (c : Nat) (hc : c < 201) :
    gridPixel wrapRow 201 c 21367997 = some 0 := by
  have hidx : (21367997 * 201 + c) % 4294967296 = 101 + c := by omega
  rw [gridPixel, hidx, wrapRow, List.getElem?_append_left (by rw [List.length_replicate]; omega),
    List.getElem?_replicate]
  simp
  omega

/-- The last row of `wrapRow` is encoded as a transparent row. -/
theorem wrapRow_encode (fuel : Nat) (hfuel : 201 < fuel) :
    encodeRow fuel (readVec wrapRow) 201 201 0 21367997 0 = .ok [200, 201] := by
  rw [encodeRow_transparent fuel wrapRow 201 201 0 21367997 0 (by norm_num) hfuel
    (fun c hc => by
      rw [Nat.zero_add, Nat.add_zero]
      exact wrapRow_read c hc)]
  rfl

/-! ### Decoding a tile of `wrapGrid` -/

theorem wrapGrid_readPixels (lo hi : Nat) :
    readPixels (wrapGrid lo hi) 65536 1 1 0 65536 = [[lo]] := by
  show [[(gridPixel (wrapGrid lo hi) 65536 (0 + 0) (65536 + 0)).getD 0]] = [[lo]]
  rw [wrapGrid_read lo hi 0 (by norm_num)]
  rfl

theorem wrapGrid_tilePixels (lo hi : Nat) :
    tilePixels (wrapGrid lo hi) 65536 1 1 0 65536 = [[hi]] := by
  show [[(pixelAt (wrapGrid lo hi) 65536 (0 + 0) (65536 + 0)).getD 0]] = [[hi]]
  rw [wrapGrid_pixelAt lo hi 0 (by norm_num)]
  rfl

/-- The rows of chunks of the tile at the start of row 65536 of `wrapGrid 0 7` hold no
raw pixel byte. -/
theorem wrapGrid_raw (rows : List (List Chunk)) (hlen : rows.length = 1)
    (hrows : ∀ y cs, rows[y]? = some cs →
      encodeRowChunks 2 (readVec (wrapGrid 0 7)) 65536 1 (0 * 1) (65536 * 1) y = .ok cs) :
    (rows.flatten.map (fun c => c.raw.length)).sum = 0 := by
  obtain ⟨rows0, hlen0, _, hruns0, hcount0⟩ := draw_runs_read 2 (wrapGrid 0 7) 65536 65538 1 1
    0 65536 (by norm_num) (by norm_num) (by norm_num) (by norm_num) (wrapGrid_length 0 7)
    (by norm_num) (by norm_num) (by norm_num) (by norm_num)
  have e1 : 0 * 1 = 0 := rfl
  have e2 : 65536 * 1 = 65536 := rfl
  rw [e1, e2, wrapGrid_readPixels] at hcount0
  obtain ⟨cs, hcs⟩ : ∃ cs, rows = [cs] := List.length_eq_one.1 hlen
  obtain ⟨cs0, hcs0⟩ : ∃ cs0, rows0 = [cs0] := List.length_eq_one.1 hlen0
  subst hcs hcs0
  have h1 := hrows 0 cs rfl
  have h2 := (hruns0 0 cs0 rfl).1
  rw [e1, e2] at h1
  rw [h1] at h2
  have hsame := Outcome.ok.inj h2
  subst hsame
  rw [hcount0]
  rfl

/-- Every byte that the encoder reads in `wrapGrid lo hi` is one of the first 2^32,
which are `lo`. -/
theorem wrapGrid_read_any (lo hi w x y : Nat) : gridPixel (wrapGrid lo hi) w x y = some lo := by
  have hlt : (y * w + x) % 4294967296 < 4294967296 := Nat.mod_lt _ (by norm_num)
  rw [gridPixel, wrapGrid, List.getElem?_append_left (by rw [List.length_replicate]; exact hlt),
    List.getElem?_replicate, if_pos hlt]

theorem flatten_length_le (n : Nat) :
    ∀ L : List (List Nat), (∀ b ∈ L, b.length ≤ n) → L.flatten.length ≤ L.length * n := by
  intro L
  induction L with
  | nil => intro _; simp
  | cons e es ih =>
    intro h
    have h1 := h e (List.mem_cons_self _ _)
    have h2 := ih (fun b hb => h b (List.mem_cons_of_mem _ hb))
    rw [List.flatten_cons, List.length_append, List.length_cons, Nat.add_mul, Nat.one_mul]
    omega

theorem wrapGrid_readQuad (lo hi w sprDx sprDy : Nat) :
    readPixels (wrapGrid lo hi) w 4 1 sprDx sprDy = [[lo, lo, lo, lo]] := by
  show [[(gridPixel (wrapGrid lo hi) w (sprDx + 0) (sprDy + 0)).getD 0,
    (gridPixel (wrapGrid lo hi) w (sprDx + 1) (sprDy + 0)).getD 0,
    (gridPixel (wrapGrid lo hi) w (sprDx + 2) (sprDy + 0)).getD 0,
    (gridPixel (wrapGrid lo hi) w (sprDx + 3) (sprDy + 0)).getD 0]] = _
  simp only [wrapGrid_read_any]
  rfl

theorem wrapGrid_quad (lo hi : Nat) :
    tilePixels (wrapGrid lo hi) 65536 4 1 0 65536 = [[hi, hi, hi, hi]] := by
  show [[(pixelAt (wrapGrid lo hi) 65536 0 65536).getD 0,
    (pixelAt (wrapGrid lo hi) 65536 1 65536).getD 0,
    (pixelAt (wrapGrid lo hi) 65536 2 65536).getD 0,
    (pixelAt (wrapGrid lo hi) 65536 3 65536).getD 0]] = _
  rw [wrapGrid_pixelAt lo hi 0 (by norm_num), wrapGrid_pixelAt lo hi 1 (by norm_num),
    wrapGrid_pixelAt lo hi 2 (by norm_num), wrapGrid_pixelAt lo hi 3 (by norm_num)]
  rfl

/-- The grid `wrapGrid 0 7` cut into `4 × 1` tiles: the opcode stream is shorter than
2^32 bytes, and the decoder started at the offset of tile 2^30, the first of row
65536, gives four transparent pixels. -/
theorem wrapGrid_quads :
    ∃ res off n, CompressSpriteData 131080 (wrapGrid 0 7) 65536 65538 4 1 = .ok res ∧
      res.sprData.length < 4294967296 ∧ res.sprOffsets[1073741824]? = some off ∧
      decodeAt res.sprData off 4 1 = some ([[0, 0, 0, 0]], n) := by
  obtain ⟨res, tile, hres, _, _, _, _, _, hshort⟩ := decode_at_offset 131080 (wrapGrid 0 7)
    65536 65538 4 1 1073741824 (by norm_num) (by norm_num) (by norm_num) (by norm_num)
    (wrapGrid_length 0 7) (by norm_num) (by norm_num) (by norm_num) (by norm_num)
    (fun _ _ s hs => absurd hs (by omega))
  have hrun := (compress_grid 131080 (wrapGrid 0 7) 65536 65538 4 1 (by norm_num) (by norm_num)
    (by norm_num) (by norm_num) (wrapGrid_length 0 7) (by norm_num) (by norm_num)
    (by norm_num)).2
  rw [hres] at hrun
  have hr := Outcome.ok.inj hrun
  have hd : res.sprData =
      (sheetBytes 131080 (readVec (wrapGrid 0 7)) 65536 4 1 (65536 / 4) (65538 / 1)).flatten :=
    by rw [hr]
  have hlen : res.sprData.length < 4294967296 := by
    rw [hd]
    have hle := flatten_length_le 2
      (sheetBytes 131080 (readVec (wrapGrid 0 7)) 65536 4 1 (65536 / 4) (65538 / 1))
      (fun b hb => by
        obtain ⟨k, hk⟩ := List.mem_iff_getElem?.1 hb
        have hklt : k < 65536 / 4 * (65538 / 1) := by
          rw [← sheetBytes_length 131080 (readVec (wrapGrid 0 7)) 65536 4 1]
          exact (List.getElem?_eq_some_iff.1 hk).1
        rw [sheetBytes_getElem? _ _ _ _ _ _ _ _ hklt] at hk
        have henc := (encodeTile_transparent 131080 (wrapGrid 0 7) 65536 4 1
          (k % (65536 / 4) * 4) (k / (65536 / 4) * 1) (by norm_num) (by norm_num)
          (fun y _ c _ => wrapGrid_read_any 0 7 _ _ _)).2
        rw [tileBytes_of_ok henc] at hk
        rw [← Option.some.inj hk]
        exact le_refl 2)
    rw [sheetBytes_length] at hle
    have e : 65536 / 4 * (65538 / 1) * 2 = 2147549184 := by norm_num
    omega
  obtain ⟨off, hoff, hdec, _⟩ := hshort hlen
  rw [wrapGrid_readQuad] at hdec
  exact ⟨res, off, _, hres, hlen, hoff, hdec⟩

theorem solidStrip_tilePixels :
    tilePixels (List.replicate 858993461 1) 858993461 1 1 (858993460 * 1) (0 * 1) = [[1]] := by
  show [[(pixelAt (List.replicate 858993461 1) 858993461 (858993460 * 1 + 0) (0 * 1 + 0)).getD
    0]] = [[1]]
  rw [pixelAt_replicate _ _ _ _ _ (by norm_num)]
  rfl

theorem pixelAt_append_left (a b : List Nat) (w x y : Nat) (h : y * w + x < a.length) :
    pixelAt (a ++ b) w x y = pixelAt a w x y := by
  rw [pixelAt, pixelAt, List.getElem?_append_left h]

theorem pixelAt_append_right (a b : List Nat) (w x y : Nat) (h : a.length ≤ y * w + x) :
    pixelAt (a ++ b) w x y = b[y * w + x - a.length]? := by
  rw [pixelAt, List.getElem?_append_right h]

/-! ## Error numbers, error handler, checksum, driver and palette merges: results -/

/-- Evaluation for C21: the values that the enumeration `LibraryError` gives the
seven module base errors. `Logger_base_error` is 0x10000000, every later base is
0x1000 below the value documented beside it, and `Screen_base_error`, defined from
`FileHandlding_base_error` like `ErrorHandler_base_error`, has the same value
0x10003000 as `ErrorHandler_base_error`, so that the first screen error is the
number after the error handler base. -/
theorem module_base_values :
    LibraryError.Logger_base_error = 0x10000000 ∧
    LibraryError.Curses_base_error = 0x10001000 ∧
    LibraryError.FileHandlding_base_error = 0x10002000 ∧
    LibraryError.ErrorHandler_base_error = 0x10003000 ∧
    LibraryError.Screen_base_error = 0x10003000 ∧
    LibraryError.Utilities_base_error = 0x10004000 ∧
    LibraryError.IDE_base_error = 0x10005000 ∧
    LibraryError.ErrorHandler_base_error = LibraryError.Screen_base_error ∧
    LibraryError.Screen_ConsoleInfoFailed = LibraryError.ErrorHandler_base_error + 1 ∧
    LibraryError.Utilities_base_error - LibraryError.ErrorHandler_base_error = MODULE_OFFSET := by
  decide

/-- Evaluation for C23: the tile size that `Read_PNG` hands to `CompressSpriteData`
does not depend on `sprWidth` and `sprHeight`. The tile width is the width of the
image, the tile height is the height of the image, or its width for an image 60
pixels wide and more than 120 high; for a 64 x 64 image and the requested tile size
32 x 32 the tile is 64 x 64. -/
theorem read_png_tile_size (fuel : Nat) (rawData : List Nat)
    (picWidth picHeight sprWidth sprHeight : Nat) :
    (Read_PNG_request picWidth picHeight sprWidth sprHeight).sprW = picWidth ∧
    ((Read_PNG_request picWidth picHeight sprWidth sprHeight).sprH = picHeight ∨
      (picWidth = 60 ∧ (Read_PNG_request picWidth picHeight sprWidth sprHeight).sprH = 60)) ∧
    Read_PNG_request picWidth picHeight sprWidth sprHeight =
      Read_PNG_request picWidth picHeight 0 0 ∧
    Read_PNG_request 64 64 32 32 = ⟨64, 64, 64, 64⟩ ∧
    Read_PNG fuel rawData 64 64 32 32 = CompressSpriteDataFile fuel rawData 64 64 64 64 ∧
    Read_PNG_request 60 240 20 20 = ⟨60, 240, 60, 60⟩ := by
  refine ⟨rfl, ?_, rfl, by decide, rfl, by decide⟩
  by_cases h : picWidth = 60 ∧ picHeight > (picWidth * 2) % 4294967296
  · right
    refine ⟨h.1, ?_⟩
    show (if picWidth = 60 ∧ picHeight > (picWidth * 2) % 4294967296 then picWidth
      else picHeight) = 60
    rw [if_pos h]
    exact h.1
  · left
    show (if picWidth = 60 ∧ picHeight > (picWidth * 2) % 4294967296 then picWidth
      else picHeight) = picHeight
    rw [if_neg h]

/-- C24. After every sequence of `handleError` and `clearErrors` calls on a new
`ErrorHandler`, `getStatusInformation` returns counts in which `numStatus`,
`numWarnings` and `numCritical` are the numbers of errors of type `Status`, `Warning`
and `Critical` in the error list, `numErrors` is the number of all other errors in
it, and `totalErrors` is their sum and the length of the list. The list is empty
after construction and after `clearErrors`, and after further calls without a
`clearErrors` it holds exactly the errors of these calls, in order. -/
theorem status_counts (calls : List HandlerCall) :
    (getStatusInformation (runCalls calls)).numStatus =
        (runCalls calls).countP (fun e => e.type = .Status) ∧
    (getStatusInformation (runCalls calls)).numWarnings =
        (runCalls calls).countP (fun e => e.type = .Warning) ∧
    (getStatusInformation (runCalls calls)).numCritical =
        (runCalls calls).countP (fun e => e.type = .Critical) ∧
    (getStatusInformation (runCalls calls)).numErrors =
        (runCalls calls).countP (fun e =>
          e.type ≠ .Status ∧ e.type ≠ .Warning ∧ e.type ≠ .Critical) ∧
    (getStatusInformation (runCalls calls)).totalErrors =
        (getStatusInformation (runCalls calls)).numErrors
          + (getStatusInformation (runCalls calls)).numWarnings
          + (getStatusInformation (runCalls calls)).numStatus
          + (getStatusInformation (runCalls calls)).numCritical ∧
    (getStatusInformation (runCalls calls)).totalErrors = (runCalls calls).length ∧
    getStatusInformation (runCalls []) = ⟨0, 0, 0, 0, 0⟩ ∧
    getStatusInformation (runCalls (calls ++ [.clearErrors])) = ⟨0, 0, 0, 0, 0⟩ ∧
    ∀ rest : List HandlerCall, (∀ c ∈ rest, c ≠ .clearErrors) →
      runCalls rest = rest.filterMap errorOf ∧
      runCalls (calls ++ .clearErrors :: rest) = rest.filterMap errorOf := by
  obtain ⟨h1, h2, h3, h4, h5⟩ := foldl_countError (runCalls calls) ErrorStatus.Clear
  simp only [ErrorStatus.Clear, Nat.zero_add] at h1 h2 h3 h4 h5
  refine ⟨h1, h2, h3, h4, rfl, h5, rfl, ?_, ?_⟩
  · rw [runCalls_append]
    rfl
  · intro rest hrest
    constructor
    · have := foldl_applyCall_noClear rest [] hrest
      simpa [runCalls, ErrorHandler] using this
    · rw [runCalls_append, List.foldl_cons]
      have := foldl_applyCall_noClear rest [] hrest
      simpa [applyCall, clearErrors] using this

/-- C27. Palette serialization is injective: two colour lists, each shorter than 2^32
entries and with channels that are bytes, for which `Save_ApolloV4_Palette` writes
the same bytes are equal: same length and the same red, green and blue at every
position. -/
theorem save_palette_injective (p q : List PngColor)
    (hp : ∀ c ∈ p, c.red < 256 ∧ c.green < 256 ∧ c.blue < 256)
    (hq : ∀ c ∈ q, c.red < 256 ∧ c.green < 256 ∧ c.blue < 256)
    (_hlp : p.length < 4294967296) (_hlq : q.length < 4294967296)
    (h : Save_ApolloV4_Palette p = Save_ApolloV4_Palette q) :
    p = q ∧ p.length = q.length ∧ ∀ i : Nat, p[i]? = q[i]? := by
  have hpq : p = q := by
    unfold Save_ApolloV4_Palette at h
    have h2 := (List.append_inj h (by rw [le32_length, le32_length])).2
    exact savePaletteLoop_inj p q 0 hp hq h2
  subst hpq
  exact ⟨rfl, rfl, fun _ => rfl⟩

/-- Witness for C27: the palette of one colour (10, 20, 30). -/
theorem save_palette_injective_witness :
    ((∀ c ∈ [(⟨10, 20, 30⟩ : PngColor)], c.red < 256 ∧ c.green < 256 ∧ c.blue < 256) ∧
      [(⟨10, 20, 30⟩ : PngColor)].length < 4294967296 ∧
      Save_ApolloV4_Palette [⟨10, 20, 30⟩] = Save_ApolloV4_Palette [⟨10, 20, 30⟩]) ∧
    ([(⟨10, 20, 30⟩ : PngColor)] = [⟨10, 20, 30⟩] ∧
      [(⟨10, 20, 30⟩ : PngColor)].length = [(⟨10, 20, 30⟩ : PngColor)].length ∧
      ∀ i : Nat, [(⟨10, 20, 30⟩ : PngColor)][i]? = [(⟨10, 20, 30⟩ : PngColor)][i]?) :=
  ⟨⟨by decide, by decide, rfl⟩,
    save_palette_injective [⟨10, 20, 30⟩] [⟨10, 20, 30⟩] (by decide) (by decide) (by decide)
      (by decide) rfl⟩

/-- C28 (amended). For two colour lists `a` and `b` of the same length `n < 2^30`
(so that a serialized palette is at most 2^32 bytes long) with channels that are
bytes, `MergePalettes` on their serializations with `toStart = 0`, `fromStart = 0`
and `fromSize = n` returns success and leaves `paletteTo` equal, byte for byte, to
the serialization of `b`; `paletteFrom` is unchanged. -/
theorem merge_whole_palette (a b : List PngColor) (hlen : a.length = b.length)
    (hn : a.length < 1073741824)
    (ha : ∀ c ∈ a, c.red < 256 ∧ c.green < 256 ∧ c.blue < 256)
    (hb : ∀ c ∈ b, c.red < 256 ∧ c.green < 256 ∧ c.blue < 256) :
    MergePalettes (Save_ApolloV4_Palette a) (Save_ApolloV4_Palette b) 0 0 a.length =
      .ok ⟨true, Save_ApolloV4_Palette b, Save_ApolloV4_Palette b⟩ :=
  merge_whole a b hlen hn ha hb

/-- Witness for C28: two palettes of two colours. -/
theorem merge_whole_palette_witness :
    ([(⟨1, 2, 3⟩ : PngColor), ⟨4, 5, 6⟩].length = [(⟨7, 8, 9⟩ : PngColor), ⟨10, 11, 12⟩].length ∧
      [(⟨1, 2, 3⟩ : PngColor), ⟨4, 5, 6⟩].length < 1073741824) ∧
    MergePalettes (Save_ApolloV4_Palette [⟨1, 2, 3⟩, ⟨4, 5, 6⟩])
        (Save_ApolloV4_Palette [⟨7, 8, 9⟩, ⟨10, 11, 12⟩]) 0 0
        [(⟨1, 2, 3⟩ : PngColor), ⟨4, 5, 6⟩].length =
      .ok ⟨true, Save_ApolloV4_Palette [⟨7, 8, 9⟩, ⟨10, 11, 12⟩],
        Save_ApolloV4_Palette [⟨7, 8, 9⟩, ⟨10, 11, 12⟩]⟩ :=
  ⟨by decide, merge_whole_palette [⟨1, 2, 3⟩, ⟨4, 5, 6⟩] [⟨7, 8, 9⟩, ⟨10, 11, 12⟩] (by decide)
    (by decide) (by decide) (by decide)⟩

/-- Counterexample to C28 as stated: two palettes of 2^30 colours, all (0, 0, 0) and
all (1, 1, 1). The serializations are 2^32 + 4 bytes long, the byte offsets of the
last entry wrap to 1, 2, 3, the call returns success, and byte 4294967297, the red
of the last entry, is still 0 in `paletteTo` while it is 1 in the serialization of
the second palette. -/
theorem merge_whole_palette_counterexample :
    (List.replicate 1073741824 (⟨0, 0, 0⟩ : PngColor)).length =
      (List.replicate 1073741824 (⟨1, 1, 1⟩ : PngColor)).length ∧
    ∃ p, MergePalettes (Save_ApolloV4_Palette (List.replicate 1073741824 ⟨0, 0, 0⟩))
        (Save_ApolloV4_Palette (List.replicate 1073741824 ⟨1, 1, 1⟩)) 0 0 1073741824 =
        .ok ⟨true, p, Save_ApolloV4_Palette (List.replicate 1073741824 ⟨1, 1, 1⟩)⟩ ∧
      p[4294967297]? = some 0 ∧
      (Save_ApolloV4_Palette (List.replicate 1073741824 ⟨1, 1, 1⟩))[4294967297]? = some 1 ∧
      p ≠ Save_ApolloV4_Palette (List.replicate 1073741824 ⟨1, 1, 1⟩) := by
  have hl : (List.replicate 1073741824 (⟨0, 0, 0⟩ : PngColor)).length =
      (List.replicate 1073741824 (⟨1, 1, 1⟩ : PngColor)).length := by
    rw [List.length_replicate, List.length_replicate]
  refine ⟨hl, ?_⟩
  obtain ⟨p, hp, hk⟩ := merge_whole_wrap (List.replicate 1073741824 ⟨0, 0, 0⟩)
    (List.replicate 1073741824 ⟨1, 1, 1⟩) hl (List.length_replicate _ _)
  have ea := save_entry (List.replicate 1073741824 ⟨0, 0, 0⟩) 1073741823 ⟨0, 0, 0⟩
    (by rw [List.getElem?_replicate]; simp) (by decide) 1 (by decide)
  have eb := save_entry (List.replicate 1073741824 ⟨1, 1, 1⟩) 1073741823 ⟨1, 1, 1⟩
    (by rw [List.getElem?_replicate]; simp) (by decide) 1 (by decide)
  have ea' : (Save_ApolloV4_Palette (List.replicate 1073741824 ⟨0, 0, 0⟩))[4294967297]? =
      some 0 := ea
  have eb' : (Save_ApolloV4_Palette (List.replicate 1073741824 ⟨1, 1, 1⟩))[4294967297]? =
      some 1 := eb
  refine ⟨p, hp, by rw [hk, ea'], eb', ?_⟩
  intro hcon
  rw [hcon, eb'] at hk
  rw [ea'] at hk
  cases hk

/-- C29. `MergePalettes` is idempotent and never modifies `paletteFrom`: whenever a
call on two separate vectors returns without leaving them, `paletteFrom` is as
before; and when the call returned success, a second call with the resulting
`paletteTo`, the same `paletteFrom` and the same arguments returns success again and
leaves `paletteTo` as the first call left it. -/
theorem merge_idempotent (paletteTo paletteFrom : List Nat) (ToStart FromStart FromSize : Nat)
    (out : MergeOut)
    (h : MergePalettes paletteTo paletteFrom ToStart FromStart FromSize = .ok out) :
    out.paletteFrom = paletteFrom ∧
    (out.result = true →
      MergePalettes out.paletteTo out.paletteFrom ToStart FromStart FromSize =
        .ok ⟨true, out.paletteTo, paletteFrom⟩) := by
  have hfrom := (mergePalettes_cases paletteTo paletteFrom ToStart FromStart FromSize out h).1
  refine ⟨hfrom, fun hres => ?_⟩
  rw [hfrom]
  exact (mergePalettes_idem paletteTo paletteFrom ToStart FromStart FromSize out h hres).2

/-- Witness for C29: two entries merged between two buffers of 12 bytes. -/
theorem merge_idempotent_witness :
    MergePalettes [2, 0, 0, 0, 0, 1, 2, 3, 1, 4, 5, 6] [2, 0, 0, 0, 0, 11, 12, 13, 1, 14, 15, 16]
        0 0 2 =
      .ok ⟨true, [2, 0, 0, 0, 0, 11, 12, 13, 1, 14, 15, 16],
        [2, 0, 0, 0, 0, 11, 12, 13, 1, 14, 15, 16]⟩ ∧
    MergePalettes [2, 0, 0, 0, 0, 11, 12, 13, 1, 14, 15, 16]
        [2, 0, 0, 0, 0, 11, 12, 13, 1, 14, 15, 16] 0 0 2 =
      .ok ⟨true, [2, 0, 0, 0, 0, 11, 12, 13, 1, 14, 15, 16],
        [2, 0, 0, 0, 0, 11, 12, 13, 1, 14, 15, 16]⟩ :=
  ⟨by decide, (merge_idempotent [2, 0, 0, 0, 0, 1, 2, 3, 1, 4, 5, 6]
    [2, 0, 0, 0, 0, 11, 12, 13, 1, 14, 15, 16] 0 0 2
    ⟨true, [2, 0, 0, 0, 0, 11, 12, 13, 1, 14, 15, 16],
      [2, 0, 0, 0, 0, 11, 12, 13, 1, 14, 15, 16]⟩ (by decide)).2 rfl⟩

/-- C30. `crc16` computes CRC-16/MODBUS. It returns 0xFFFF for the empty input and
0x4B37 for the nine ASCII bytes `123456789`. For every sequence of bytes it returns
a 16-bit value, the one that `crc16Modbus` defines (initial value 0xFFFF, every byte
xor-ed into the register, then eight steps that shift right and xor 0xA001 in when
the bit shifted out was set, no final xor); and its result for `data ++ [b]` is got
from its result `crc` for `data` by xor-ing `b` in, which leaves the high byte of
`crc`, and applying the shift and conditional xor step eight times. -/
theorem crc16_modbus (data : List Nat) (b : Nat) (hdata : ∀ x ∈ data, x < 256)
    (hb : b < 256) :
    crc16 [] 0 = .ok 0xFFFF ∧
    crc16 [49, 50, 51, 52, 53, 54, 55, 56, 57] 9 = .ok 0x4B37 ∧
    ∃ crc, crc16 data data.length = .ok crc ∧ crc = crc16Modbus data ∧ crc < 65536 ∧
      (crc ^^^ b) / 256 = crc / 256 ∧
      crc16 (data ++ [b]) (data.length + 1) =
        .ok (crcBit (crcBit (crcBit (crcBit (crcBit (crcBit (crcBit (crcBit
          (crc ^^^ b))))))))) ∧
      crc16 (data ++ [b]) (data.length + 1) = .ok (modbusStep^[8] (crc ^^^ b)) ∧
      ∀ c, c < 65536 → crcBit c = modbusStep c := by
  refine ⟨by decide, crc16_check_value, ?_⟩
  obtain ⟨h1, h2⟩ := crc_fold_eq data CRC_START (by decide) hdata
  have hx := xor_byte_lt _ b h2 hb
  have happ : crc16 (data ++ [b]) (data.length + 1) =
      .ok (crcBits CRC_BITS ((data.foldl
        (fun crc b => crcBits CRC_BITS ((crc ^^^ b) % 65536)) CRC_START) ^^^ b)) := by
    have := crc16_whole (data ++ [b])
    rw [List.length_append, List.length_singleton, List.foldl_append] at this
    rw [this]
    simp only [List.foldl_cons, List.foldl_nil]
    rw [Nat.mod_eq_of_lt hx]
  refine ⟨_, crc16_whole data, h1, h2, xor_byte_high _ b hb, ?_, ?_,
    fun c hc => (crcBit_eq c hc).1⟩
  · rw [happ, crcBits_eight]
  · rw [happ]
    exact congrArg Outcome.ok (crcBits_eq 8 _ hx).1

/-- Witness for C30: the bytes 1, 2 followed by 3. -/
theorem crc16_modbus_witness :
    ((∀ x ∈ [1, 2], x < 256) ∧ 3 < 256) ∧
    (crc16 [] 0 = .ok 0xFFFF ∧
    crc16 [49, 50, 51, 52, 53, 54, 55, 56, 57] 9 = .ok 0x4B37 ∧
    ∃ crc, crc16 [1, 2] [1, 2].length = .ok crc ∧ crc = crc16Modbus [1, 2] ∧ crc < 65536 ∧
      (crc ^^^ 3) / 256 = crc / 256 ∧
      crc16 ([1, 2] ++ [3]) ([1, 2].length + 1) =
        .ok (crcBit (crcBit (crcBit (crcBit (crcBit (crcBit (crcBit (crcBit
          (crc ^^^ 3))))))))) ∧
      crc16 ([1, 2] ++ [3]) ([1, 2].length + 1) = .ok (modbusStep^[8] (crc ^^^ 3)) ∧
      ∀ c, c < 65536 → crcBit c = modbusStep c) :=
  ⟨⟨by decide, by decide⟩, crc16_modbus [1, 2] 3 (by decide) (by decide)⟩


/-! ## Skips, draw runs and decoding: results -/

/-- C22 (amended). Opcode 200 never starts a draw run. In every row of every tile of a
grid whose width and height are multiples of the tile size, each iteration of the row
loop emits its opcode first; an opcode below 200 is followed by the run length byte and
the run (at least three bytes), while the opcodes 200 and 201 are emitted alone; and
an emitted 200 is directly followed by the opcode of the next iteration of the same
row. A row, in a pixel buffer of at most 2^32 bytes, of 200 transparent pixels
followed by `r` opaque pixels (`1 ≤ r ≤ 255`, tile width `200 + r`) is encoded as
200, 0, `r`, the `r` pixels, 201. -/
theorem skip_opcode_never_draws (fuel : Nat) (data : List Nat) (w h sprW sprH i j : Nat)
    (hW : 0 < sprW) (hH : 0 < sprH) (hw : w % sprW = 0) (hh : h % sprH = 0)
    (hlen : data.length = w * h) (hw32 : w < 4294967296)
    (hi : i < w / sprW) (hj : j < h / sprH) (hfuel : sprW < fuel)
    (fuel' : Nat) (data' : List Nat) (w' sprDx' sprDy' y' r : Nat) (px : Nat → Nat)
    (hfuel' : 200 + r < fuel') (hr : 1 ≤ r) (hr255 : r ≤ 255)
    (hsize : data'.length ≤ 4294967296)
    (hz : ∀ c, c < 200 → pixelAt data' w' (sprDx' + c) (sprDy' + y') = some 0)
    (hrun : ∀ c, 200 ≤ c → c < 200 + r →
      pixelAt data' w' (sprDx' + c) (sprDy' + y') = some (px c) ∧ px c ≠ 0) :
    (∃ rows : List (List Chunk), rows.length = sprH ∧
      encodeTile fuel (readVec data) w sprW sprH (i * sprW) (j * sprH) =
        .ok ((rows.map chunkBytes).flatten ++ [255]) ∧
      ∀ y cs, rows[y]? = some cs →
        encodeRowChunks fuel (readVec data) w sprW (i * sprW) (j * sprH) y = .ok cs ∧
        ∀ (n : Nat) (c : Chunk), cs[n]? = some c →
          c.bytes.head? = some c.sprCmd ∧
          ((c.sprCmd < 200 ∧ 3 ≤ c.bytes.length) ∨ (c.sprCmd = 200 ∧ c.bytes = [200]) ∨
            (c.sprCmd = 201 ∧ c.bytes = [201])) ∧
          (c.sprCmd = 200 →
            ∃ c', cs[n + 1]? = some c' ∧ c'.bytes.head? = some c'.sprCmd ∧ c'.sprCmd ≤ 201)) ∧
    encodeRow fuel' (readVec data') w' (200 + r) sprDx' sprDy' y' =
      .ok (200 :: 0 :: r :: ((List.range' 200 r).map px ++ [201])) := by
  constructor
  · have hsw : sprW < 4294967296 := by
      have h1 := (tilesAcross_of_mod w sprW hW hw).2
      have h2 : 1 * sprW ≤ w / sprW * sprW := Nat.mul_le_mul_right _ (by omega)
      omega
    obtain ⟨rows, _, hlenr, hpost, henc⟩ := encodeTile_ok fuel (readVec data) w sprW sprH _ _ hsw
      hfuel (gridTile_readable data w h sprW sprH i j hW hH hw hh hlen hi hj)
    refine ⟨rows, hlenr, henc, ?_⟩
    intro y cs hy
    obtain ⟨h1, h2⟩ := RowsPost.getElem? rows 0 hpost y cs hy
    rw [Nat.zero_add] at h1 h2
    refine ⟨h1, ?_⟩
    intro n c hc
    have hmem : c ∈ cs := List.mem_iff_getElem?.2 ⟨n, hc⟩
    obtain ⟨x', _, hchunk⟩ := h2.chunks (Nat.zero_le _) c hmem
    refine ⟨h2.opcodes.2.2.2 c hmem, hchunk.opcode_cases, ?_⟩
    intro hcmd
    obtain ⟨_, c', hc'⟩ := h2.skips n c hc hcmd
    have hmem' : c' ∈ cs := List.mem_iff_getElem?.2 ⟨n + 1, hc'⟩
    obtain ⟨x'', _, hchunk'⟩ := h2.chunks (Nat.zero_le _) c' hmem'
    refine ⟨c', hc', h2.opcodes.2.2.2 c' hmem', ?_⟩
    rcases hchunk'.opcode_cases with ⟨h, _⟩ | ⟨h, _⟩ | ⟨h, _⟩ <;> omega
  · exact encodeRow_skip_run fuel' data' w' sprDx' sprDy' y' r px hfuel' hr hr255
      (fun c hc => pixelAt_read data' w' _ _ _ hsize (hz c hc))
      (fun c h1 h2 => ⟨pixelAt_read data' w' _ _ _ hsize (hrun c h1 h2).1, (hrun c h1 h2).2⟩)

/-- Witness for C22: the 202 x 1 grid of 200 transparent pixels followed by the
pixels 5 and 6, as one tile, whose row is encoded as 200, 0, 2, 5, 6, 201. -/
theorem skip_opcode_never_draws_witness :
    (0 < 202 ∧ 0 < 1 ∧ 202 % 202 = 0 ∧ 1 % 1 = 0 ∧
      (List.replicate 200 0 ++ [5, 6]).length = 202 * 1 ∧
      202 < 4294967296 ∧ 0 < 202 / 202 ∧ 0 < 1 / 1 ∧ 202 < 300 ∧
      200 + 2 < 300 ∧ 1 ≤ 2 ∧ 2 ≤ 255 ∧ (List.replicate 200 0 ++ [5, 6]).length ≤ 4294967296 ∧
      (∀ c, c < 200 → pixelAt (List.replicate 200 0 ++ [5, 6]) 202 (0 + c) (0 + 0) = some 0) ∧
      (∀ c, 200 ≤ c → c < 200 + 2 →
        pixelAt (List.replicate 200 0 ++ [5, 6]) 202 (0 + c) (0 + 0) = some (c - 195) ∧
          c - 195 ≠ 0)) ∧
    ((∃ rows : List (List Chunk), rows.length = 1 ∧
      encodeTile 300 (readVec (List.replicate 200 0 ++ [5, 6])) 202 202 1 (0 * 202) (0 * 1) =
        .ok ((rows.map chunkBytes).flatten ++ [255]) ∧
      ∀ y cs, rows[y]? = some cs →
        encodeRowChunks 300 (readVec (List.replicate 200 0 ++ [5, 6])) 202 202 (0 * 202) (0 * 1)
            y = .ok cs ∧
        ∀ (n : Nat) (c : Chunk), cs[n]? = some c →
          c.bytes.head? = some c.sprCmd ∧
          ((c.sprCmd < 200 ∧ 3 ≤ c.bytes.length) ∨ (c.sprCmd = 200 ∧ c.bytes = [200]) ∨
            (c.sprCmd = 201 ∧ c.bytes = [201])) ∧
          (c.sprCmd = 200 →
            ∃ c', cs[n + 1]? = some c' ∧ c'.bytes.head? = some c'.sprCmd ∧ c'.sprCmd ≤ 201)) ∧
    encodeRow 300 (readVec (List.replicate 200 0 ++ [5, 6])) 202 (200 + 2) 0 0 0 =
      .ok (200 :: 0 :: 2 :: ((List.range' 200 2).map (fun c => c - 195) ++ [201]))) :=
  have hlen : (List.replicate 200 0 ++ [5, 6]).length = 202 * 1 := by
    rw [List.length_append, List.length_replicate]
    rfl
  have hsize : (List.replicate 200 0 ++ [5, 6]).length ≤ 4294967296 := by
    rw [hlen]
    decide
  have hz : ∀ c, c < 200 →
      pixelAt (List.replicate 200 0 ++ [5, 6]) 202 (0 + c) (0 + 0) = some 0 := by
    intro c hc
    rw [pixelAt_append_left _ _ _ _ _ (by rw [List.length_replicate]; omega)]
    exact pixelAt_replicate 200 0 202 _ _ (by omega)
  have hrun : ∀ c, 200 ≤ c → c < 200 + 2 →
      pixelAt (List.replicate 200 0 ++ [5, 6]) 202 (0 + c) (0 + 0) = some (c - 195) ∧
        c - 195 ≠ 0 := by
    intro c h1 h2
    rw [pixelAt_append_right _ _ _ _ _ (by rw [List.length_replicate]; omega),
      List.length_replicate]
    interval_cases c
    · exact ⟨rfl, by decide⟩
    · exact ⟨rfl, by decide⟩
  ⟨⟨by decide, by decide, by decide, by decide, hlen, by decide, by decide, by decide,
      by decide, by decide, by decide, by decide, hsize, hz, hrun⟩,
    skip_opcode_never_draws 300 (List.replicate 200 0 ++ [5, 6]) 202 1 202 1 0 0 (by decide)
      (by decide) (by decide) (by decide) hlen (by decide) (by decide) (by decide) (by decide)
      300 (List.replicate 200 0 ++ [5, 6]) 202 0 0 0 2 (fun c => c - 195) (by decide)
      (by decide) (by decide) hsize hz hrun⟩

/-- Counterexample to C22 as stated: the grid `wrapRow` of 21367998 rows of 201 pixels,
2^32 + 302 bytes. Its last row, row 21367997, is exactly 200 transparent pixels
followed by the opaque pixel 7 (`r = 1`, tile width 201), at the addresses 2^32 + 101
to 2^32 + 301. The encoder computes the addresses in `uint32_t`, reads the transparent
bytes at 101 to 301 and encodes the row as 200, 201 and not as 200, 0, 1, 7, 201. -/
theorem skip_row_wrap_counterexample :
    wrapRow.length = 201 * 21367998 ∧
    (∀ c, c < 200 → pixelAt wrapRow 201 (0 + c) (21367997 + 0) = some 0) ∧
    (∀ c, 200 ≤ c → c < 200 + 1 →
      pixelAt wrapRow 201 (0 + c) (21367997 + 0) = some 7 ∧ 7 ≠ 0) ∧
    encodeRow 202 (readVec wrapRow) 201 (200 + 1) 0 21367997 0 = .ok [200, 201] ∧
    [200, 201] ≠ 200 :: 0 :: 1 :: ((List.range' 200 1).map (fun _ => 7) ++ [201]) := by
  refine ⟨wrapRow_length, ?_, ?_, wrapRow_encode 202 (by norm_num), by decide⟩
  · intro c hc
    rw [Nat.zero_add, Nat.add_zero]
    exact wrapRow_pixelAt_zero c hc
  · intro c h1 h2
    have hc : c = 200 := by omega
    subst hc
    exact ⟨wrapRow_pixelAt_last, by decide⟩

/-- C25 (amended). The sprite encoding is lossless for runs that fit a byte, in a grid
of at most 2^32 pixels. Take such a grid whose width and height are multiples of the
tile size (tile sizes positive) and a tile `k`, in tile-scan order, in whose rows
every opaque run is at most 255 pixels long. The encoder returns a result, and the
decoder of the opcode table, started at the byte where the encoding of tile `k`
begins, reproduces exactly the `sprW × sprH` pixels of the tile and stops on the
tile's sentinel 255. The entry `k` of the offset table is that position modulo 2^32,
so the decoder started at `sprOffsets[k]` does this whenever the opcode stream is
shorter than 2^32 bytes. -/
theorem decode_inverts_encode (fuel : Nat) (data : List Nat) (w h sprW sprH k : Nat)
    (hW : 0 < sprW) (hH : 0 < sprH) (hw : w % sprW = 0) (hh : h % sprH = 0)
    (hlen : data.length = w * h) (hsize : w * h ≤ 4294967296)
    (hw32 : w < 4294967296) (hh32 : h < 4294967296)
    (hfuel : w + h + sprW < fuel) (hk : k < w / sprW * (h / sprH))
    (hfit : ∀ y, y < sprH → RunsFitByte
      (fun c => pixelAt data w (k % (w / sprW) * sprW + c) (k / (w / sprW) * sprH + y)) sprW) :
    ∃ res tile, CompressSpriteData fuel data w h sprW sprH = .ok res ∧
      gridTile fuel data w sprW sprH k = .ok tile ∧ tile.getLast? = some 255 ∧
      res.sprOffsets[k]? =
        some ((((gridSheet fuel data w h sprW sprH).take k).flatten).length % 4294967296) ∧
      decodeAt res.sprData (((gridSheet fuel data w h sprW sprH).take k).flatten).length
          sprW sprH =
        some (tilePixels data w sprW sprH (k % (w / sprW) * sprW) (k / (w / sprW) * sprH),
          tile.length) ∧
      res.sprData[(((gridSheet fuel data w h sprW sprH).take k).flatten).length
        + (tile.length - 1)]? = some 255 ∧
      (res.sprData.length < 4294967296 →
        ∃ off, res.sprOffsets[k]? = some off ∧
          decodeAt res.sprData off sprW sprH =
            some (tilePixels data w sprW sprH (k % (w / sprW) * sprW) (k / (w / sprW) * sprH),
              tile.length) ∧
          res.sprData[off + (tile.length - 1)]? = some 255) :=
  decode_true fuel data w h sprW sprH k hW hH hw hh hlen hsize hw32 hh32 hfuel hk hfit

/-- Witness for C25: the 260 x 1 grid of 200 transparent pixels, the pixels 5 and 6 and
58 transparent pixels, as one tile. -/
theorem decode_inverts_encode_witness :
    (0 < 260 ∧ 0 < 1 ∧ 260 % 260 = 0 ∧ 1 % 1 = 0 ∧
      (List.replicate 200 0 ++ [5, 6] ++ List.replicate 58 0).length = 260 * 1 ∧
      260 * 1 ≤ 4294967296 ∧ 260 < 4294967296 ∧ 1 < 4294967296 ∧ 260 + 1 + 260 < 600 ∧
      0 < 260 / 260 * (1 / 1) ∧
      ∀ y, y < 1 → RunsFitByte
        (fun c => pixelAt (List.replicate 200 0 ++ [5, 6] ++ List.replicate 58 0) 260
          (0 % (260 / 260) * 260 + c) (0 / (260 / 260) * 1 + y)) 260) ∧
    ∃ res tile,
      CompressSpriteData 600 (List.replicate 200 0 ++ [5, 6] ++ List.replicate 58 0) 260 1 260 1 =
        .ok res ∧
      gridTile 600 (List.replicate 200 0 ++ [5, 6] ++ List.replicate 58 0) 260 260 1 0 =
        .ok tile ∧
      tile.getLast? = some 255 ∧
      res.sprOffsets[0]? =
        some ((((gridSheet 600 (List.replicate 200 0 ++ [5, 6] ++ List.replicate 58 0)
          260 1 260 1).take 0).flatten).length % 4294967296) ∧
      decodeAt res.sprData
          (((gridSheet 600 (List.replicate 200 0 ++ [5, 6] ++ List.replicate 58 0)
            260 1 260 1).take 0).flatten).length 260 1 =
        some (tilePixels (List.replicate 200 0 ++ [5, 6] ++ List.replicate 58 0) 260 260 1
          (0 % (260 / 260) * 260) (0 / (260 / 260) * 1), tile.length) ∧
      res.sprData[(((gridSheet 600 (List.replicate 200 0 ++ [5, 6] ++ List.replicate 58 0)
        260 1 260 1).take 0).flatten).length + (tile.length - 1)]? = some 255 ∧
      (res.sprData.length < 4294967296 →
        ∃ off, res.sprOffsets[0]? = some off ∧
          decodeAt res.sprData off 260 1 =
            some (tilePixels (List.replicate 200 0 ++ [5, 6] ++ List.replicate 58 0) 260 260 1
              (0 % (260 / 260) * 260) (0 / (260 / 260) * 1), tile.length) ∧
          res.sprData[off + (tile.length - 1)]? = some 255) :=
  have hlen : (List.replicate 200 0 ++ [5, 6] ++ List.replicate 58 0).length = 260 * 1 := by
    rw [List.length_append, List.length_append, List.length_replicate, List.length_replicate]
    rfl
  have hfit : ∀ y, y < 1 → RunsFitByte
      (fun c => pixelAt (List.replicate 200 0 ++ [5, 6] ++ List.replicate 58 0) 260
        (0 % (260 / 260) * 260 + c) (0 / (260 / 260) * 1 + y)) 260 := by
    intro y hy s hs
    have hy0 : y = 0 := by omega
    subst hy0
    refine ⟨s, le_refl _, by omega, ?_⟩
    show pixelAt (List.replicate 200 0 ++ [5, 6] ++ List.replicate 58 0) 260 (0 + s) 0 = some 0
    rw [List.append_assoc,
      pixelAt_append_left _ _ _ _ _ (by rw [List.length_replicate]; omega)]
    exact pixelAt_replicate 200 0 260 _ _ (by omega)
  ⟨⟨by decide, by decide, by decide, by decide, hlen, by decide, by decide, by decide,
      by decide, by decide, hfit⟩,
    decode_inverts_encode 600 (List.replicate 200 0 ++ [5, 6] ++ List.replicate 58 0) 260 1
      260 1 0 (by decide) (by decide) (by decide) (by decide) hlen (by decide) (by decide)
      (by decide) (by decide) (by decide) hfit⟩

/-- Counterexample to C25 as stated. In a strip of 858993461 opaque pixels cut into
1 x 1 tiles every run has one pixel; the encoder returns a result, the entry of tile
858993460 in the offset table is 4 (4294967300 bytes precede the tile), and the
decoder started at byte 4 of the stream finds the sentinel of the first tile where a
row should begin and fails, while the tile is the one pixel 1. In the grid
`wrapGrid 0 7` of 65538 rows of 65536 pixels, 2^32 + 131072 bytes, cut into 4 x 1
tiles, the opcode stream is shorter than 2^32 bytes; tile 2^30, the first of row
65536, is the four pixels 7, which the encoder, computing addresses in `uint32_t`,
reads in row 0: the decoder started at the entry of that tile in the offset table
gives four transparent pixels. -/
theorem decode_offset_wrap_counterexample :
    ((∃ res, CompressSpriteData 858993464 (List.replicate 858993461 1) 858993461 1 1 1 =
          .ok res ∧
        res.sprOffsets[858993460]? = some 4 ∧ decodeAt res.sprData 4 1 1 = none) ∧
      tilePixels (List.replicate 858993461 1) 858993461 1 1 (858993460 * 1) (0 * 1) = [[1]]) ∧
    ((wrapGrid 0 7).length = 65536 * 65538 ∧
      (∀ y, y < 1 → RunsFitByte
        (fun c => pixelAt (wrapGrid 0 7) 65536 (1073741824 % (65536 / 4) * 4 + c)
          (1073741824 / (65536 / 4) * 1 + y)) 4) ∧
      (∃ res off n, CompressSpriteData 131080 (wrapGrid 0 7) 65536 65538 4 1 = .ok res ∧
        res.sprData.length < 4294967296 ∧ res.sprOffsets[1073741824]? = some off ∧
        decodeAt res.sprData off 4 1 = some ([[0, 0, 0, 0]], n)) ∧
      tilePixels (wrapGrid 0 7) 65536 4 1 (1073741824 % (65536 / 4) * 4)
        (1073741824 / (65536 / 4) * 1) = [[7, 7, 7, 7]]) := by
  refine ⟨⟨solidStrip_decode, solidStrip_tilePixels⟩, wrapGrid_length 0 7,
    fun _ _ s hs => absurd hs (by omega), wrapGrid_quads, ?_⟩
  have e1 : 1073741824 % (65536 / 4) * 4 = 0 := by norm_num
  have e2 : 1073741824 / (65536 / 4) * 1 = 65536 := by norm_num
  rw [e1, e2]
  exact wrapGrid_quad 0 7

/-- C26 (amended). Every draw run the encoder emits is non-empty and holds non-zero
bytes only. In every row of every tile of a grid of at most 2^32 pixels whose width
and height are multiples of the tile size, an iteration that emits an opcode below 200
emits after it the byte `runLen % 256` and `runLen ≥ 1` raw pixel bytes, all of them
non-zero; the cursor behind the opcode, `c.x - runLen`, is inside the tile and the
pixel there is opaque and is the first raw byte; for `runLen ≤ 255` the run length
byte is not 0. The number of raw pixel bytes emitted for the tile is the number of its
opaque pixels. -/
theorem draw_runs_nonempty (fuel : Nat) (data : List Nat) (w h sprW sprH i j : Nat)
    (hW : 0 < sprW) (hH : 0 < sprH) (hw : w % sprW = 0) (hh : h % sprH = 0)
    (hlen : data.length = w * h) (hsize : w * h ≤ 4294967296) (hw32 : w < 4294967296)
    (hi : i < w / sprW) (hj : j < h / sprH) (hfuel : sprW < fuel) :
    ∃ rows : List (List Chunk), rows.length = sprH ∧
      encodeTile fuel (readVec data) w sprW sprH (i * sprW) (j * sprH) =
        .ok ((rows.map chunkBytes).flatten ++ [255]) ∧
      (∀ y cs, rows[y]? = some cs →
        encodeRowChunks fuel (readVec data) w sprW (i * sprW) (j * sprH) y = .ok cs ∧
        ∀ c ∈ cs, c.sprCmd < 200 →
          ∃ runLen, 1 ≤ runLen ∧ c.bytes = c.sprCmd :: (runLen % 256) :: c.raw ∧
            c.raw.length = runLen ∧ (∀ p ∈ c.raw, p ≠ 0) ∧ c.x - runLen < sprW ∧
            (∃ p, pixelAt data w (i * sprW + (c.x - runLen)) (j * sprH + y) = some p ∧
              p ≠ 0 ∧ c.raw.head? = some p) ∧
            (runLen ≤ 255 → runLen % 256 ≠ 0)) ∧
      (rows.flatten.map (fun c => c.raw.length)).sum =
        (tilePixels data w sprW sprH (i * sprW) (j * sprH)).flatten.countP
          (fun p => decide (p ≠ 0)) :=
  draw_runs_true fuel data w h sprW sprH i j hW hH hw hh hlen hsize hw32 hi hj hfuel

/-- Witness for C26: the lower right 2 x 1 tile of a 4 x 2 grid. -/
theorem draw_runs_nonempty_witness :
    (0 < 2 ∧ 0 < 1 ∧ 4 % 2 = 0 ∧ 2 % 1 = 0 ∧ [1, 2, 3, 4, 5, 6, 0, 8].length = 4 * 2 ∧
      4 * 2 ≤ 4294967296 ∧ 4 < 4294967296 ∧ 1 < 4 / 2 ∧ 1 < 2 / 1 ∧ 2 < 20) ∧
    ∃ rows : List (List Chunk), rows.length = 1 ∧
      encodeTile 20 (readVec [1, 2, 3, 4, 5, 6, 0, 8]) 4 2 1 (1 * 2) (1 * 1) =
        .ok ((rows.map chunkBytes).flatten ++ [255]) ∧
      (∀ y cs, rows[y]? = some cs →
        encodeRowChunks 20 (readVec [1, 2, 3, 4, 5, 6, 0, 8]) 4 2 (1 * 2) (1 * 1) y = .ok cs ∧
        ∀ c ∈ cs, c.sprCmd < 200 →
          ∃ runLen, 1 ≤ runLen ∧ c.bytes = c.sprCmd :: (runLen % 256) :: c.raw ∧
            c.raw.length = runLen ∧ (∀ p ∈ c.raw, p ≠ 0) ∧ c.x - runLen < 2 ∧
            (∃ p, pixelAt [1, 2, 3, 4, 5, 6, 0, 8] 4 (1 * 2 + (c.x - runLen)) (1 * 1 + y) =
                some p ∧
              p ≠ 0 ∧ c.raw.head? = some p) ∧
            (runLen ≤ 255 → runLen % 256 ≠ 0)) ∧
      (rows.flatten.map (fun c => c.raw.length)).sum =
        (tilePixels [1, 2, 3, 4, 5, 6, 0, 8] 4 2 1 (1 * 2) (1 * 1)).flatten.countP
          (fun p => decide (p ≠ 0)) :=
  ⟨by decide, draw_runs_nonempty 20 [1, 2, 3, 4, 5, 6, 0, 8] 4 2 2 1 1 1 (by decide)
    (by decide) (by decide) (by decide) (by decide) (by decide) (by decide) (by decide)
    (by decide) (by decide)⟩

/-- Counterexample to C26 as stated: the grid `wrapGrid 0 7` of 65538 rows of 65536
pixels, 2^32 + 131072 bytes, cut into 1 x 1 tiles. The tile at the start of row 65536
holds one opaque pixel, 7, at the address 2^32; the encoder computes the address in
`uint32_t`, reads the byte 0 at the address 0 and emits 201, 255 for the tile, with
no raw pixel byte. -/
theorem draw_run_count_wrap_counterexample :
    (wrapGrid 0 7).length = 65536 * 65538 ∧
    65536 % 1 = 0 ∧ 65538 % 1 = 0 ∧ 0 < 65536 / 1 ∧ 65536 < 65538 / 1 ∧
    encodeTile 2 (readVec (wrapGrid 0 7)) 65536 1 1 (0 * 1) (65536 * 1) = .ok [201, 255] ∧
    (∀ rows : List (List Chunk), rows.length = 1 →
      (∀ y cs, rows[y]? = some cs →
        encodeRowChunks 2 (readVec (wrapGrid 0 7)) 65536 1 (0 * 1) (65536 * 1) y = .ok cs) →
      (rows.flatten.map (fun c => c.raw.length)).sum = 0) ∧
    (tilePixels (wrapGrid 0 7) 65536 1 1 (0 * 1) (65536 * 1)).flatten.countP
      (fun p => decide (p ≠ 0)) = 1 := by
  refine ⟨wrapGrid_length 0 7, by decide, by decide, by decide, by decide,
    (wrapGrid_tile_transparent 7 2 (by norm_num)).2, wrapGrid_raw, ?_⟩
  show (tilePixels (wrapGrid 0 7) 65536 1 1 0 65536).flatten.countP
    (fun p => decide (p ≠ 0)) = 1
  rw [wrapGrid_tilePixels]
  rfl

end AmigaGfx
